import Mathlib

/-! # NEMU simple debugger: expression evaluator and watchpoint pool

A shallow embedding of `nemu/src/monitor/sdb/expr.c` and
`nemu/src/monitor/sdb/watchpoint.c`, followed by theorems about it.

Conventions of the embedding.

* A C string is the list of its characters before the terminating NUL.
* `int` is 32-bit two's complement and `long` is 64-bit; a conversion to `int`
  is `toInt32`, and `int` arithmetic wraps around.
* A run of a C function ends in one of four ways, see `Res`: it returns, it
  fails an `assert`, it runs into undefined behaviour (a write past an array,
  a division by zero), or the model runs out of fuel (which is proved not to
  happen where it matters).
* The register file and the memory (`isa_reg_str2val`, `vaddr_read`) are not
  part of these files; they are parameters `R` and `M` of the evaluator.
-/

namespace Sdb

/-! ## Results of a run -/

/-- How a run of a C function ends. -/
inductive Res (α : Type) where
  /-- the function returns -/
  | ret (a : α)
  /-- an `assert` fails: the process aborts -/
  | abort
  /-- undefined behaviour: a write past the end of an array, a division by zero -/
  | undefined
  /-- the model ran out of fuel -/
  | fuelOut
  deriving DecidableEq, Repr

/-- Sequencing of two runs. -/
def Res.bind {α β : Type} (r : Res α) (f : α → Res β) : Res β :=
  match r with
  | .ret a => f a
  | .abort => .abort
  | .undefined => .undefined
  | .fuelOut => .fuelOut

/-! ## Machine integers -/

/-- Conversion of an integer value to the 32-bit `int`. -/
def toInt32 (x : Int) : Int := (x + 2147483648) % 4294967296 - 2147483648

/-- The largest `int`. -/
def INT_MAX : Int := 2147483647

/-- The smallest `int`. -/
def INT_MIN : Int := -2147483648

/-- The largest `long`. -/
def LONG_MAX : Int := 9223372036854775807

/-- The smallest `long`. -/
def LONG_MIN : Int := -9223372036854775808

/-! ## Tokens and the rule table -/

/-- Token types: the six single-character codes and the `TK_` enumeration. -/
inductive TokType where
  /-- the code of `+` -/
  | plus
  /-- the code of `-` -/
  | minus
  /-- the code of `*` -/
  | star
  /-- the code of `/` -/
  | slash
  /-- the code of `(` -/
  | lparen
  /-- the code of `)` -/
  | rparen
  | TK_NOTYPE
  | TK_DECIMAL
  | TK_HEX
  | TK_POS
  | TK_NEG
  | TK_REF
  | TK_DEREF
  | TK_EQ
  | TK_NEQ
  | TK_AND
  | TK_OR
  | TK_REG_NAME
  deriving DecidableEq, Repr

open TokType

/-- The `Token` record: `int type; char str[32]`. -/
structure Token where
  type : TokType
  str : List Char
  deriving DecidableEq, Repr

/-- The fragment of POSIX extended regular expressions used by the rule table. -/
inductive Regex where
  /-- one given character (escaped or not) -/
  | chr (c : Char)
  /-- a bracket expression: one character of a set -/
  | set (p : Char → Bool)
  /-- `X+` for a single character or bracket expression `X` -/
  | many1 (p : Char → Bool)
  /-- concatenation -/
  | seq (a b : Regex)
  /-- alternation -/
  | alt (a b : Regex)

/-- The lengths of all matches of a regular expression that start at the
beginning of `s`. -/
def Regex.lens : Regex → List Char → List Nat
  | .chr c, s =>
    match s with
    | [] => []
    | x :: _ => if x = c then [1] else []
  | .set p, s =>
    match s with
    | [] => []
    | x :: _ => if p x then [1] else []
  | .many1 p, s => (List.range (s.takeWhile p).length).map (fun n => n + 1)
  | .seq a b, s => (a.lens s).flatMap (fun n => (b.lens (s.drop n)).map (fun m => n + m))
  | .alt a b, s => a.lens s ++ b.lens s

/-- The call `regexec(&re, s, 1, &pmatch, 0) == 0 && pmatch.rm_so == 0`:
`some pmatch.rm_eo` when the leftmost match starts at offset 0, which is the
longest match starting there. -/
def regexec (r : Regex) (s : List Char) : Option Nat :=
  (r.lens s).foldl (fun best n => match best with
    | none => some n
    | some b => some (max b n)) none

/-- The regular expression matching a given string of ordinary characters. -/
def Regex.str : List Char → Regex
  | [] => .many1 (fun _ => false)
  | [c] => .chr c
  | c :: cs => .seq (.chr c) (Regex.str cs)

/-- The bracket expression `[0-9]`. -/
def isDec (c : Char) : Bool := decide ('0' ≤ c) && decide (c ≤ '9')

/-- The bracket expression `[a-fA-F0-9]`. -/
def isHex (c : Char) : Bool :=
  (decide ('a' ≤ c) && decide (c ≤ 'f')) || (decide ('A' ≤ c) && decide (c ≤ 'F'))
    || (decide ('0' ≤ c) && decide (c ≤ '9'))

/-- The pattern `\$(\$0|ra|sp|gp|tp|t[0-6]|s[0-9]|s1[01]|a[0-7])`. -/
def regNameRegex : Regex :=
  .seq (.chr '$')
    (.alt (.seq (.chr '$') (.chr '0'))
    (.alt (.seq (.chr 'r') (.chr 'a'))
    (.alt (.seq (.chr 's') (.chr 'p'))
    (.alt (.seq (.chr 'g') (.chr 'p'))
    (.alt (.seq (.chr 't') (.chr 'p'))
    (.alt (.seq (.chr 't') (.set (fun c => decide ('0' ≤ c) && decide (c ≤ '6'))))
    (.alt (.seq (.chr 's') (.set isDec))
    (.alt (.seq (.chr 's') (.seq (.chr '1') (.set (fun c => decide ('0' ≤ c) && decide (c ≤ '1')))))
          (.seq (.chr 'a') (.set (fun c => decide ('0' ≤ c) && decide (c ≤ '7'))))))))))))

/-- The table `rules[]`, in its order. -/
def rules : List (Regex × TokType) :=
  [ (.chr '+', plus),
    (.chr '-', minus),
    (.chr '*', star),
    (.chr '/', slash),
    (.chr '(', lparen),
    (.chr ')', rparen),
    (.many1 (fun c => c == ' '), TK_NOTYPE),
    (.seq (.chr '=') (.chr '='), TK_EQ),
    (.seq (.chr '!') (.chr '='), TK_NEQ),
    (.seq (.chr '&') (.chr '&'), TK_AND),
    (.seq (.chr '|') (.chr '|'), TK_OR),
    (.seq (.chr '0') (.seq (.chr 'x') (.many1 isHex)), TK_HEX),
    (.many1 isDec, TK_DECIMAL),
    (regNameRegex, TK_REG_NAME) ]

/-- The inner `for` loop of `make_token`: the first rule of the table that
matches at the start of `s`, with the length of its match. -/
def firstMatch : List (Regex × TokType) → List Char → Option (Nat × TokType)
  | [], _ => none
  | (r, ty) :: rs, s =>
    match regexec r s with
    | some n => some (n, ty)
    | none => firstMatch rs s

/-! ## The tokenizer -/

/-- How `make_token` ends. -/
inductive LexResult where
  /-- `return true`, with `tokens[0 .. nr_token)` -/
  | ok (tokens : List Token)
  /-- `return false`: no rule matches at `position` -/
  | noMatch (position : Nat)
  /-- `assert(nr_token < 32)` or `assert(0)` fails -/
  | assertFail
  /-- the copy of the lexeme runs past `str[32]` -/
  | overrun
  /-- the model ran out of fuel -/
  | fuelOut
  deriving DecidableEq, Repr

/-- One round of the `while` loop of `make_token`. -/
inductive LexStep where
  /-- the loop goes on with a new position and token array -/
  | next (position : Nat) (tokens : List Token)
  /-- the function ends -/
  | stop (r : LexResult)
  deriving DecidableEq, Repr

/-- The body of the `while` loop of `make_token`, its condition included. -/
def make_token_step (e : List Char) (position : Nat) (tokens : List Token) : LexStep :=
  match e.drop position with
  | [] => .stop (.ok tokens)
  | c :: cs =>
    match firstMatch rules (c :: cs) with
    | none => .stop (.noMatch position)
    | some (substr_len, ty) =>
      match ty with
      | TK_NOTYPE => .next (position + substr_len) tokens
      | TK_POS | TK_NEG | TK_REF | TK_DEREF => .stop .assertFail
      | _ =>
        if tokens.length < 32 then
          if substr_len < 32 then
            .next (position + substr_len) (tokens ++ [⟨ty, (c :: cs).take substr_len⟩])
          else .stop .overrun
        else .stop .assertFail

/-- The `while` loop of `make_token`. -/
def make_token_loop (e : List Char) : Nat → Nat → List Token → LexResult
  | 0, _, _ => .fuelOut
  | fuel + 1, position, tokens =>
    match make_token_step e position tokens with
    | .next position' tokens' => make_token_loop e fuel position' tokens'
    | .stop r => r

/-- The function `make_token`: every round consumes at least one character, so
`e.length + 1` rounds are enough. -/
def make_token (e : List Char) : LexResult :=
  make_token_loop e (e.length + 1) 0 []

/-! ## The C library calls of the evaluator -/

/-- The C library's `isspace` in the C locale. -/
def isspace (c : Char) : Bool := c == ' ' || (decide ('\t' ≤ c) && decide (c ≤ '\r'))

/-- The value `strtol` gives a character as a digit. -/
def digitVal (c : Char) : Option Nat :=
  if '0' ≤ c ∧ c ≤ '9' then some (c.toNat - 48)
  else if 'a' ≤ c ∧ c ≤ 'z' then some (c.toNat - 87)
  else if 'A' ≤ c ∧ c ≤ 'Z' then some (c.toNat - 55)
  else none

/-- The digit loop of `strtol`: it stops at the first character that is not a
digit of the base. -/
def strtolDigits (base : Nat) : List Char → Nat → Nat
  | [], acc => acc
  | c :: cs, acc =>
    match digitVal c with
    | some d => if d < base then strtolDigits base cs (acc * base + d) else acc
    | none => acc

/-- The C library's `strtol(s, NULL, base)` for base 10 and 16: white space,
an optional sign, for base 16 an optional `0x`, the digits; the result is
clamped to the range of `long`. -/
def strtol (s : List Char) (base : Nat) : Int :=
  let s1 := s.dropWhile isspace
  let neg : Bool := match s1 with
    | c :: _ => c == '-'
    | [] => false
  let s2 := match s1 with
    | c :: r => if c == '-' || c == '+' then r else s1
    | [] => s1
  let s3 := match s2 with
    | c :: x :: r => if base == 16 && c == '0' && (x == 'x' || x == 'X') then r else s2
    | _ => s2
  let n : Int := (strtolDigits base s3 0 : Nat)
  let v : Int := if neg then -n else n
  max LONG_MIN (min LONG_MAX v)

/-- The C library's `atoi`, as glibc defines it: `(int) strtol(s, NULL, 10)`. -/
def atoi (s : List Char) : Int := toInt32 (strtol s 10)

/-! ## The evaluator -/

/-- The element `tokens[i]`. The evaluator reads only indices of tokens that
`make_token` has written. -/
def tokAt (tokens : List Token) (i : Int) : Token :=
  tokens.getD i.toNat ⟨TK_NOTYPE, []⟩

/-- The counting loop of `check_parentheses`: `n` rounds from index `i`. -/
def parenCountLoop (tokens : List Token) : Nat → Int → Int → Int
  | 0, _, count => count
  | n + 1, i, count =>
    if (tokAt tokens i).type = lparen then parenCountLoop tokens n (i + 1) (count + 1)
    else if (tokAt tokens i).type = rparen then parenCountLoop tokens n (i + 1) (count - 1)
    else parenCountLoop tokens n (i + 1) count

/-- The function `check_parentheses`. -/
def check_parentheses (tokens : List Token) (p q : Int) : Res Bool :=
  if (tokAt tokens p).type ≠ lparen ∨ (tokAt tokens q).type ≠ rparen then .ret false
  else
    let count := parenCountLoop tokens (q + 1 - p).toNat p 0
    if count = 0 then .ret true else .abort

/-- The locals of the operator scan of `eval`: row `k` of `op_priority` holds
the `op_count[k]` positions recorded so far. -/
structure OpScan where
  op_priority : Nat → List Int
  paren_count : Int

/-- The statement `op_priority[k][op_count[k] ++] = i`; a row has 10 entries. -/
def recordOp (st : OpScan) (k : Nat) (i : Int) : Res OpScan :=
  if (st.op_priority k).length < 10 then
    .ret { st with op_priority := fun j => if j = k then st.op_priority k ++ [i] else st.op_priority j }
  else .undefined

/-- The body of the scan loop of `eval`. -/
def scanToken (tokens : List Token) (st : OpScan) (i : Int) : Res OpScan :=
  if (tokAt tokens i).type = lparen then .ret { st with paren_count := st.paren_count + 1 }
  else if (tokAt tokens i).type = rparen then .ret { st with paren_count := st.paren_count - 1 }
  else if st.paren_count = 0 then
    match (tokAt tokens i).type with
    | TK_POS | TK_NEG | TK_REF | TK_DEREF => recordOp st 0 i
    | .star | .slash => recordOp st 1 i
    | .plus | .minus => recordOp st 2 i
    | TK_EQ | TK_NEQ => recordOp st 3 i
    | TK_AND | TK_OR => recordOp st 4 i
    | TK_DECIMAL | TK_HEX => .ret st
    | _ => .abort
  else .ret st

/-- The scan loop of `eval`: `n` rounds from index `i`. -/
def scanLoop (tokens : List Token) : Nat → Int → OpScan → Res OpScan
  | 0, _, st => .ret st
  | n + 1, i, st =>
    match scanToken tokens st i with
    | .ret st' => scanLoop tokens n (i + 1) st'
    | .abort => .abort
    | .undefined => .undefined
    | .fuelOut => .fuelOut

/-- The loop of `eval` that picks the main operator: from row `i - 1` down to
row 0, the first non-empty row gives `(highest_prior, main_op)`; `none` when
`highest_prior` stays -1. -/
def selectMain (op_priority : Nat → List Int) : Nat → Option (Nat × Int)
  | 0 => none
  | i + 1 =>
    match op_priority i with
    | [] => selectMain op_priority i
    | x :: xs => if i > 0 then some (i, xs.getLastD x) else some (i, x)

/-- The scan of `eval` over `tokens[p .. q]` and its choice of the main
operator: `none` when no operator was recorded (`highest_prior` stays -1). -/
def findMainOp (tokens : List Token) (p q : Int) : Res (Option (Nat × Int)) :=
  match scanLoop tokens (q + 1 - p).toNat p ⟨fun _ => [], 0⟩ with
  | .ret st => .ret (selectMain st.op_priority 5)
  | .abort => .abort
  | .undefined => .undefined
  | .fuelOut => .fuelOut

/-- The final `switch` of `eval` on two `int` operands. -/
def binop (ty : TokType) (val1 val2 : Int) : Res Int :=
  match ty with
  | .plus => .ret (toInt32 (val1 + val2))
  | .minus => .ret (toInt32 (val1 - val2))
  | .star => .ret (toInt32 (val1 * val2))
  | .slash =>
    if val2 = 0 then .undefined
    else if val1 = INT_MIN ∧ val2 = -1 then .undefined
    else .ret (Int.tdiv val1 val2)
  | TK_EQ => .ret (if val1 = val2 then 1 else 0)
  | TK_NEQ => .ret (if val1 ≠ val2 then 1 else 0)
  | TK_AND => .ret (if val1 ≠ 0 ∧ val2 ≠ 0 then 1 else 0)
  | TK_OR => .ret (if val1 ≠ 0 ∨ val2 ≠ 0 then 1 else 0)
  | _ => .abort

/-- The `switch` of `eval` for a unary main operator. -/
def unop (M : Int → Int → Int) (ty : TokType) (the_val : Int) : Res Int :=
  match ty with
  | TK_POS => .ret the_val
  | TK_NEG => .ret (toInt32 (-the_val))
  | TK_DEREF => .ret (M the_val 4)
  | _ => .abort

/-- The function `eval`. `R name` is `isa_reg_str2val(name, &success)` with the
flag it sets, `M addr len` is `vaddr_read(addr, len)`. -/
def eval (R : List Char → Int × Bool) (M : Int → Int → Int) (tokens : List Token) :
    Nat → Int → Int → Res Int
  | 0, _, _ => .fuelOut
  | fuel + 1, p, q =>
    if p > q then .abort
    else if p = q then
      match (tokAt tokens p).type with
      | TK_DECIMAL => .ret (atoi (tokAt tokens p).str)
      | TK_HEX => .ret (strtol (tokAt tokens p).str 16)
      | TK_REG_NAME =>
        if (R ((tokAt tokens p).str.drop 1)).2 then
          .ret (toInt32 (R ((tokAt tokens p).str.drop 1)).1)
        else .ret 0
      | _ => .abort
    else
      match check_parentheses tokens p q with
      | .ret true => eval R M tokens fuel (p + 1) (q - 1)
      | .ret false =>
        match findMainOp tokens p q with
        | .ret none => .abort
        | .ret (some (highest_prior, main_op)) =>
          if highest_prior = 0 then
            match eval R M tokens fuel (main_op + 1) q with
            | .ret v => unop M (tokAt tokens main_op).type (toInt32 v)
            | r => r
          else
            match eval R M tokens fuel p (main_op - 1) with
            | .ret v1 =>
              match eval R M tokens fuel (main_op + 1) q with
              | .ret v2 => binop (tokAt tokens main_op).type (toInt32 v1) (toInt32 v2)
              | r => r
            | r => r
        | .abort => .abort
        | .undefined => .undefined
        | .fuelOut => .fuelOut
      | .abort => .abort
      | .undefined => .undefined
      | .fuelOut => .fuelOut

/-- The function `require_unary_op`. -/
def require_unary_op (tk_type : TokType) : Bool :=
  match tk_type with
  | .plus | .minus | .star | .slash | .lparen => true
  | _ => false

/-- The `for` loop of `expr` that rewrites `-` and `*` in place, from the
token after one whose (already rewritten) type is `prev`; `prev` is `none` at
index 0. -/
def unaryPass : Option TokType → List Token → List Token
  | _, [] => []
  | prev, t :: ts =>
    let first : Bool := match prev with
      | none => true
      | some ty => require_unary_op ty
    let ty1 := if t.type = minus ∧ first then TK_NEG else t.type
    let ty2 := if ty1 = star ∧ first then TK_DEREF else ty1
    ⟨ty2, t.str⟩ :: unaryPass (some ty2) ts

/-- The function `expr`: how the call ends, and the value of `*success` after
it. A range of `n` tokens needs at most `n + 1` nested calls of `eval`. -/
def expr (R : List Char → Int × Bool) (M : Int → Int → Int) (e : List Char) (success : Bool) :
    Res Int × Bool :=
  match make_token e with
  | .noMatch _ => (.ret 0, false)
  | .ok tokens =>
    (eval R M (unaryPass none tokens) (tokens.length + 1) 0 ((tokens.length : Int) - 1), success)
  | .assertFail => (.abort, success)
  | .overrun => (.undefined, success)
  | .fuelOut => (.fuelOut, success)

/-! ## The watchpoint pool -/

/-- The constant `NR_WP`. -/
abbrev NR_WP : Nat := 32

/-- The `WP` record. A pointer to a record of `wp_pool` is the index of the
record; `none` is `NULL`. -/
structure WP where
  NO : Int
  next : Option (Fin NR_WP)
  expr : List Char
  old_val : Int
  val : Int
  deriving DecidableEq, Repr

/-- Modelled from the spec: the values of `nemu_state.state`, which a header
outside these files declares; `watchpoint_check` writes `NEMU_STOP` to signal
the simulation to halt. -/
inductive NemuState where
  | NEMU_RUNNING
  | NEMU_STOP
  | NEMU_END
  | NEMU_ABORT
  | NEMU_QUIT
  deriving DecidableEq, Repr

/-- The global state of `watchpoint.c`, with the simulator state it writes. -/
structure Pool where
  wp_pool : Fin NR_WP → WP
  head : Option (Fin NR_WP)
  free_ : Option (Fin NR_WP)
  nemu_state : NemuState

/-- The assignment of a new content to the record `*wp`. -/
def setWP (wp_pool : Fin NR_WP → WP) (wp : Fin NR_WP) (w : WP) : Fin NR_WP → WP :=
  fun i => if i = wp then w else wp_pool i

/-- The state at program start: static storage is zero-initialised. -/
def bootPool (s : NemuState) : Pool :=
  { wp_pool := fun _ => ⟨0, none, [], 0, 0⟩, head := none, free_ := none, nemu_state := s }

/-- The function `init_wp_pool`. -/
def init_wp_pool (st : Pool) : Pool :=
  { st with
    wp_pool := fun i =>
      { st.wp_pool i with
        NO := (i.val : Int)
        next := if i.val = NR_WP - 1 then none else some (i + 1) }
    head := none
    free_ := some 0 }

/-- The function `new_wp`: the new state and the returned pointer. -/
def new_wp (st : Pool) : Res (Pool × Fin NR_WP) :=
  match st.free_ with
  | none => .abort
  | some wp =>
    .ret ({ st with
            wp_pool := setWP st.wp_pool wp { st.wp_pool wp with next := st.head }
            head := some wp
            free_ := (st.wp_pool wp).next }, wp)

/-- The function `free_wp`. -/
def free_wp (st : Pool) (wp : Fin NR_WP) : Pool :=
  { st with
    wp_pool := setWP st.wp_pool wp { st.wp_pool wp with next := st.free_ }
    free_ := some wp }

/-- The function `set_wp`: the new state and the returned flag. `args` is
`none` for a null pointer. A string of 32 characters or more does not fit
`expr[32]` with its terminator. -/
def set_wp (R : List Char → Int × Bool) (M : Int → Int → Int) (args : Option (List Char))
    (st : Pool) : Res (Pool × Bool) :=
  match args with
  | none => .ret (st, false)
  | some a =>
    match new_wp st with
    | .ret (st1, wp) =>
      if a.length < 32 then
        match expr R M a true with
        | (.ret v, success) =>
          .ret ({ st1 with
                  wp_pool := setWP st1.wp_pool wp
                    { st1.wp_pool wp with expr := a, val := toInt32 v } }, success)
        | (.abort, _) => .abort
        | (.undefined, _) => .undefined
        | (.fuelOut, _) => .fuelOut
      else .undefined
    | .abort => .abort
    | .undefined => .undefined
    | .fuelOut => .fuelOut

/-- The function `del_wp`; `&wp_pool[n]` is a record of the pool for
`0 <= n < NR_WP` only. -/
def del_wp (st : Pool) (n : Int) : Res Pool :=
  if h : 0 ≤ n ∧ n < NR_WP then
    .ret (free_wp st ⟨n.toNat, by omega⟩)
  else .undefined

/-- The `while` loop of `watchpoint_check`, for at most `fuel` rounds: the C
loop has no bound of its own, and its body does not change `curr`. -/
def watchpoint_check_loop (R : List Char → Int × Bool) (M : Int → Int → Int) :
    Nat → Pool → Option (Fin NR_WP) → Res Pool
  | 0, _, _ => .fuelOut
  | fuel + 1, st, curr =>
    match curr with
    | none => .ret st
    | some c =>
      match expr R M (st.wp_pool c).expr false with
      | (.ret v, _) =>
        if (st.wp_pool c).val ≠ toInt32 v then
          .ret { st with
                 wp_pool := setWP st.wp_pool c
                   { st.wp_pool c with old_val := (st.wp_pool c).val, val := toInt32 v }
                 nemu_state := .NEMU_STOP }
        else watchpoint_check_loop R M fuel st curr
      | (.abort, _) => .abort
      | (.undefined, _) => .undefined
      | (.fuelOut, _) => .fuelOut

/-- The function `watchpoint_check`, for at most `fuel` rounds of its loop. -/
def watchpoint_check (R : List Char → Int × Bool) (M : Int → Int → Int) (fuel : Nat)
    (st : Pool) : Res Pool :=
  watchpoint_check_loop R M fuel st st.head

/-- The records met by following `next` from `curr`, as `watchpoints_display`
does from `head`; `none` when the walk is not over after `fuel` records. -/
def walk (wp_pool : Fin NR_WP → WP) : Nat → Option (Fin NR_WP) → Option (List (Fin NR_WP))
  | 0, _ => none
  | fuel + 1, curr =>
    match curr with
    | none => some []
    | some c => (walk wp_pool fuel (wp_pool c).next).map (fun l => c :: l)

/-- The active list: a list without a cycle has at most `NR_WP` records. -/
def activeList (st : Pool) : Option (List (Fin NR_WP)) := walk st.wp_pool (NR_WP + 1) st.head

/-- The free list. -/
def freeList (st : Pool) : Option (List (Fin NR_WP)) := walk st.wp_pool (NR_WP + 1) st.free_

/-! ## Auxiliary definitions for the statements -/

/-- A register file in which no name resolves. -/
def noRegs : List Char → Int × Bool := fun _ => (0, false)

/-- A register file in which only `sp` resolves, to `v`. -/
def spRegs (v : Int) : List Char → Int × Bool :=
  fun name => if name = ['s', 'p'] then (v, true) else (0, false)

/-- A memory that holds `a + 7` in the word at address `a`. -/
def demoMem : Int → Int → Int := fun addr _ => addr + 7

/-- The state of the loop of `make_token` after `n` rounds: the position and
the tokens, or `none` when the function has ended before. -/
def make_token_rounds (e : List Char) : Nat → Option (Nat × List Token)
  | 0 => some (0, [])
  | n + 1 =>
    match make_token_rounds e n with
    | some (position, tokens) =>
      match make_token_step e position tokens with
      | .next position' tokens' => some (position', tokens')
      | .stop _ => none
    | none => none

/-- A sequence of calls of `set_wp`, one per expression, each on a non-null
argument. -/
def set_wps (R : List Char → Int × Bool) (M : Int → Int → Int) :
    List (List Char) → Pool → Res Pool
  | [], st => .ret st
  | a :: rest, st => (set_wp R M (some a) st).bind (fun r => set_wps R M rest r.1)

/-- The pool after `init_wp_pool` at program start. -/
def initPool : Pool := init_wp_pool (bootPool .NEMU_RUNNING)

/-- The pool a run has returned with its flag; `initPool` when the run has not
returned. -/
def poolOf (r : Res (Pool × Bool)) : Pool :=
  match r with
  | .ret (st, _) => st
  | _ => initPool

/-- The pool after `init_wp_pool` and `set_wp("$sp")` while `sp` holds 1. -/
def spWatched : Pool := poolOf (set_wp (spRegs 1) demoMem (some "$sp".toList) initPool)

/-- The value of a decimal digit. -/
def decDigit (c : Char) : Nat := c.toNat - 48

/-- The base-10 value of a string of decimal digits, most significant first. -/
def decimalValue : List Char → Nat
  | [] => 0
  | c :: cs => decDigit c * 10 ^ cs.length + decimalValue cs

/-- The value of a hexadecimal digit in either case. -/
def hexDigit (c : Char) : Nat :=
  if 'a' ≤ c then c.toNat - 87 else if 'A' ≤ c then c.toNat - 55 else c.toNat - 48

/-- The base-16 value of a string of hexadecimal digits, most significant
first. -/
def hexValue : List Char → Nat
  | [] => 0
  | c :: cs => hexDigit c * 16 ^ cs.length + hexValue cs

/-- The binary operators of an expression. -/
inductive BinOp where
  | mul
  | div
  | add
  | sub
  | eq
  | ne
  | land
  | lor
  deriving DecidableEq, Repr

/-- The text of a binary operator. -/
def BinOp.text : BinOp → List Char
  | .mul => ['*']
  | .div => ['/']
  | .add => ['+']
  | .sub => ['-']
  | .eq => ['=', '=']
  | .ne => ['!', '=']
  | .land => ['&', '&']
  | .lor => ['|', '|']

/-- The token type of a binary operator. -/
def BinOp.tok : BinOp → TokType
  | .mul => .star
  | .div => .slash
  | .add => .plus
  | .sub => .minus
  | .eq => TK_EQ
  | .ne => TK_NEQ
  | .land => TK_AND
  | .lor => TK_OR

/-- The binding level of a binary operator, tightest first: 1 for `*` `/`,
2 for `+` `-`, 3 for `==` `!=`, 4 for `&&` `||`. -/
def BinOp.level : BinOp → Nat
  | .mul => 1
  | .div => 1
  | .add => 2
  | .sub => 2
  | .eq => 3
  | .ne => 3
  | .land => 4
  | .lor => 4

/-- The value of a binary operator on integers: the division truncates, a
comparison and a logical operator give 1 or 0. -/
def BinOp.apply : BinOp → Int → Int → Int
  | .mul, x, y => x * y
  | .div, x, y => Int.tdiv x y
  | .add, x, y => x + y
  | .sub, x, y => x - y
  | .eq, x, y => if x = y then 1 else 0
  | .ne, x, y => if x ≠ y then 1 else 0
  | .land, x, y => if x ≠ 0 ∧ y ≠ 0 then 1 else 0
  | .lor, x, y => if x ≠ 0 ∨ y ≠ 0 then 1 else 0

/-- An integer that an `int` holds. -/
def inInt (x : Int) : Prop := INT_MIN ≤ x ∧ x ≤ INT_MAX

instance (x : Int) : Decidable (inInt x) := inferInstanceAs (Decidable (INT_MIN ≤ x ∧ x ≤ INT_MAX))

/-- A decimal literal of the evaluator: a non-empty string of decimal digits
that fits the token text and whose value an `int` holds. -/
def IsDecLit (a : List Char) : Prop :=
  a ≠ [] ∧ (∀ c ∈ a, isDec c = true) ∧ a.length < 32 ∧ (decimalValue a : Int) ≤ INT_MAX

instance (a : List Char) : Decidable (IsDecLit a) :=
  inferInstanceAs (Decidable (a ≠ [] ∧ (∀ c ∈ a, isDec c = true) ∧ a.length < 32
    ∧ (decimalValue a : Int) ≤ INT_MAX))

/-- The text `o1 x1 o2 x2 ...` of operators and literals. -/
def chainText : List (BinOp × List Char) → List Char
  | [] => []
  | (o, x) :: rest => o.text ++ (x ++ chainText rest)

/-- The tokens of `o1 x1 o2 x2 ...`. -/
def chainTokens : List (BinOp × List Char) → List Token
  | [] => []
  | (o, x) :: rest => ⟨o.tok, o.text⟩ :: ⟨TK_DECIMAL, x⟩ :: chainTokens rest

/-- The left fold `((v o1 x1) o2 x2) ...`. -/
def chainValue (v : Int) : List (BinOp × List Char) → Int
  | [] => v
  | (o, x) :: rest => chainValue (o.apply v (decimalValue x)) rest

/-- No step of the left fold divides by zero or leaves the range of `int`. -/
def chainInRange (v : Int) : List (BinOp × List Char) → Prop
  | [] => True
  | (o, x) :: rest =>
    (o = .div → decimalValue x ≠ 0) ∧ inInt (o.apply v (decimalValue x))
      ∧ chainInRange (o.apply v (decimalValue x)) rest

/-- A sequence of `n` calls of `new_wp`. -/
def new_wps : Nat → Pool → Res Pool
  | 0, st => .ret st
  | n + 1, st => (new_wp st).bind (fun r => new_wps n r.1)

/-- The globals of `watchpoint.c` when a call of `new_wp` ends, by its `return`
or at the failed `assert(0)`, which stands before the first assignment. -/
def new_wp_globals (st : Pool) : Pool :=
  match st.free_ with
  | none => st
  | some wp =>
    { st with
      wp_pool := setWP st.wp_pool wp { st.wp_pool wp with next := st.head }
      head := some wp
      free_ := (st.wp_pool wp).next }

/-- The shape of the pool after `init_wp_pool` and `j` allocations in a row:
the records `j - 1, ..., 0` are linked from `head` and the records
`j, ..., NR_WP - 1` from `free_`. -/
structure Allocated (j : Nat) (st : Pool) : Prop where
  head_eq : st.head.map Fin.val = if j = 0 then none else some (j - 1)
  free_eq : st.free_.map Fin.val = if j = NR_WP then none else some j
  NO_eq : ∀ i : Fin NR_WP, (st.wp_pool i).NO = (i.val : Int)
  next_eq : ∀ i : Fin NR_WP, (st.wp_pool i).next.map Fin.val
    = if i.val < j then (if i.val = 0 then none else some (i.val - 1))
      else (if i.val = NR_WP - 1 then none else some (i.val + 1))

/-- Following the spec's words for the tokenizer: `lexemes` is a reading of
`s` from its start to its end in which every lexeme, with its token type, is
what the first matching rule of the table matches at the position reached. -/
def isLexing : List Char → List (TokType × List Char) → Bool
  | s, [] => s.isEmpty
  | s, (ty, x) :: rest =>
    decide (firstMatch rules s = some (x.length, ty)) && decide (x = s.take x.length)
      && isLexing (s.drop x.length) rest

/-- Following the spec's words for the tokenizer: the tokens of a reading, a
lexeme of the white-space kind giving none. -/
def emittedTokens (lexemes : List (TokType × List Char)) : List Token :=
  (lexemes.filter (fun l => l.1 != TK_NOTYPE)).map (fun l => ⟨l.1, l.2⟩)

/-- Every character that a match of the regular expression holds satisfies
`P`. -/
def Regex.charsIn (P : Char → Prop) : Regex → Prop
  | .chr c => P c
  | .set p => ∀ c, p c = true → P c
  | .many1 p => ∀ c, p c = true → P c
  | .seq a b => a.charsIn P ∧ b.charsIn P
  | .alt a b => a.charsIn P ∧ b.charsIn P

/-- The characters of a lexeme of a token type: spaces for the white-space
kind, no space for any other. -/
def lexemeChar (ty : TokType) (c : Char) : Prop :=
  if ty = TK_NOTYPE then c = ' ' else c ≠ ' '

/-- Following the spec's words for the disambiguation: the kinds of a
preceding token after which a `-` or a `*` is unary: binary-plus, binary-minus,
star, slash, left-paren. -/
def precedesUnary (ty : TokType) : Bool :=
  decide (ty = plus ∨ ty = minus ∨ ty = star ∨ ty = slash ∨ ty = lparen)

/-- The tokens of `-1*-(+2--3)` as `make_token` leaves them. -/
def negTokens : List Token :=
  [⟨minus, ['-']⟩, ⟨TK_DECIMAL, ['1']⟩, ⟨star, ['*']⟩, ⟨minus, ['-']⟩, ⟨lparen, ['(']⟩,
    ⟨plus, ['+']⟩, ⟨TK_DECIMAL, ['2']⟩, ⟨minus, ['-']⟩, ⟨minus, ['-']⟩, ⟨TK_DECIMAL, ['3']⟩,
    ⟨rparen, [')']⟩]

/-! ## Theorems: the watchpoint pool -/

/-- The walk along `next` reads nothing but the `next` fields. -/
theorem walk_congr (pool1 pool2 : Fin NR_WP → WP)
    (hnext : ∀ i, (pool1 i).next = (pool2 i).next) (fuel : Nat) (curr : Option (Fin NR_WP)) :
    walk pool1 fuel curr = walk pool2 fuel curr := by
  induction fuel generalizing curr with
  | zero => rfl
  | succ n ih =>
    cases curr with
    | none => rfl
    | some c => simp only [walk, hnext c, ih]

/-- C7 (code bug): the loop of `watchpoint_check` never advances `curr`. After
`init_wp_pool` and `set_wp("5")` the scan is still running after any number of
rounds, and with the watchpoints `$sp` and `5` a change of `sp` is never
detected, because the unchanged head `5` is re-evaluated forever. -/
theorem watchpoint_check_head_unchanged_diverges :
    (∀ (R : List Char → Int × Bool) (M : Int → Int → Int),
      ∃ st, set_wp R M (some "5".toList) initPool = .ret (st, true)
        ∧ activeList st = some [0]
        ∧ ∀ fuel, watchpoint_check R M fuel st = .fuelOut)
    ∧ (∃ st, set_wps (spRegs 1) demoMem ["$sp".toList, "5".toList] initPool = .ret st
        ∧ activeList st = some [1, 0]
        ∧ (st.wp_pool 0).expr = "$sp".toList
        ∧ (st.wp_pool 0).val = 1
        ∧ expr (spRegs 2) demoMem (st.wp_pool 0).expr false = (.ret 2, false)
        ∧ ∀ fuel, watchpoint_check (spRegs 2) demoMem fuel st = .fuelOut) := by
  constructor
  · intro R M
    refine ⟨_, rfl, rfl, ?_⟩
    intro fuel
    induction fuel with
    | zero => rfl
    | succ n ih => exact ih
  · refine ⟨_, rfl, rfl, rfl, rfl, rfl, ?_⟩
    intro fuel
    induction fuel with
    | zero => rfl
    | succ n ih => exact ih

/-- C8: when the head record stores `v` and its expression now evaluates to a
different `int` value, `watchpoint_check` returns after its first round with
that record's `old_val = v` and `val` the new value and the simulator state
`NEMU_STOP`; the record's number, expression and link, every other record,
both list heads and hence both lists are unchanged. -/
theorem watchpoint_check_trigger (R : List Char → Int × Bool) (M : Int → Int → Int)
    (st : Pool) (h : Fin NR_WP) (w : Int) (flag : Bool) (fuel : Nat)
    (hhead : st.head = some h)
    (hexpr : expr R M (st.wp_pool h).expr false = (.ret w, flag))
    (hne : toInt32 w ≠ (st.wp_pool h).val) :
    ∃ st', watchpoint_check R M (fuel + 1) st = .ret st'
      ∧ (st'.wp_pool h).old_val = (st.wp_pool h).val
      ∧ (st'.wp_pool h).val = toInt32 w
      ∧ st'.nemu_state = .NEMU_STOP
      ∧ (st'.wp_pool h).NO = (st.wp_pool h).NO
      ∧ (st'.wp_pool h).expr = (st.wp_pool h).expr
      ∧ (st'.wp_pool h).next = (st.wp_pool h).next
      ∧ (∀ i, i ≠ h → st'.wp_pool i = st.wp_pool i)
      ∧ st'.head = st.head
      ∧ st'.free_ = st.free_
      ∧ activeList st' = activeList st
      ∧ freeList st' = freeList st := by
  have hne' : ¬ (st.wp_pool h).val = toInt32 w := fun hh => hne hh.symm
  have hnext : ∀ i, (setWP st.wp_pool h
      { st.wp_pool h with old_val := (st.wp_pool h).val, val := toInt32 w } i).next
        = (st.wp_pool i).next := by
    intro i
    by_cases hi : i = h
    · subst hi; simp [setWP]
    · simp [setWP, hi]
  refine ⟨{ st with
            wp_pool := setWP st.wp_pool h
              { st.wp_pool h with old_val := (st.wp_pool h).val, val := toInt32 w }
            nemu_state := .NEMU_STOP }, ?_, ?_, ?_, rfl, ?_, ?_, ?_, ?_, rfl, rfl, ?_, ?_⟩
  · simp [watchpoint_check, watchpoint_check_loop, hhead, hexpr, hne']
  · simp [setWP]
  · simp [setWP]
  · simp [setWP]
  · simp [setWP]
  · simp [setWP]
  · intro i hi
    simp [setWP, hi]
  · exact walk_congr _ _ hnext _ _
  · exact walk_congr _ _ hnext _ _

/-- Witness of C8: the watchpoint `$sp` was set while `sp` held 1; at the scan
`sp` holds 2. -/
theorem watchpoint_check_trigger_witness :
    ∃ st', watchpoint_check (spRegs 2) demoMem 1 spWatched = .ret st'
      ∧ (st'.wp_pool 0).old_val = (spWatched.wp_pool 0).val
      ∧ (st'.wp_pool 0).val = toInt32 2
      ∧ st'.nemu_state = .NEMU_STOP
      ∧ (st'.wp_pool 0).NO = (spWatched.wp_pool 0).NO
      ∧ (st'.wp_pool 0).expr = (spWatched.wp_pool 0).expr
      ∧ (st'.wp_pool 0).next = (spWatched.wp_pool 0).next
      ∧ (∀ i, i ≠ 0 → st'.wp_pool i = spWatched.wp_pool i)
      ∧ st'.head = spWatched.head
      ∧ st'.free_ = spWatched.free_
      ∧ activeList st' = activeList spWatched
      ∧ freeList st' = freeList spWatched :=
  watchpoint_check_trigger (spRegs 2) demoMem spWatched 0 2 false 0 rfl rfl (by decide)

/-- C9 (code bug): `del_wp` links the record into the free list without
unlinking it from the active list. After `init_wp_pool`, three calls of
`set_wp` and `del_wp(1)`, the walk from `head` meets 2, 1 and then the whole
free list 3 .. 31, and record 1 is at the head of the free list as well. -/
theorem del_wp_leaves_record_active (R : List Char → Int × Bool) (M : Int → Int → Int) :
    ∃ st3 st4, set_wps R M ["1".toList, "2".toList, "3".toList] initPool = .ret st3
      ∧ activeList st3 = some [2, 1, 0]
      ∧ del_wp st3 1 = .ret st4
      ∧ activeList st4 = some [2, 1, 3, 4, 5, 6, 7, 8, 9, 10, 11, 12, 13, 14, 15, 16, 17, 18,
          19, 20, 21, 22, 23, 24, 25, 26, 27, 28, 29, 30, 31]
      ∧ freeList st4 = some [1, 3, 4, 5, 6, 7, 8, 9, 10, 11, 12, 13, 14, 15, 16, 17, 18,
          19, 20, 21, 22, 23, 24, 25, 26, 27, 28, 29, 30, 31] := by
  exact ⟨_, _, rfl, rfl, rfl, rfl, rfl⟩

/-- C10 (code bug): `set_wp` writes `val` and never `old_val`. After
`init_wp_pool`, `set_wp("5")` returns true and leaves record 0 at the head of
the active list with expression `5`, `val = 5` and `old_val = 0`. -/
theorem set_wp_leaves_old_val (R : List Char → Int × Bool) (M : Int → Int → Int) :
    ∃ st, set_wp R M (some "5".toList) initPool = .ret (st, true)
      ∧ st.head = some 0
      ∧ st.wp_pool 0 = ⟨0, none, ['5'], 0, 5⟩ := by
  exact ⟨_, rfl, rfl, rfl⟩

/-! ## Theorems: the evaluator on register operands -/

/-- C3 (code bug): the operator scan of `eval` has no case for `TK_REG_NAME`,
so a register name at depth 0 of a range of several tokens runs into the
`default: assert(0)`; `$sp+1` and `*$sp` abort whatever the register file
holds, while the single token `$sp` is resolved. -/
theorem register_operand_aborts (R : List Char → Int × Bool) (M : Int → Int → Int)
    (success : Bool) :
    expr R M "$sp+1".toList success = (.abort, success)
    ∧ expr R M "*$sp".toList success = (.abort, success)
    ∧ (∀ tokens st i, (tokAt tokens i).type = TK_REG_NAME → st.paren_count = 0 →
        scanToken tokens st i = .abort)
    ∧ expr R M "$sp".toList success
        = (if (R ['s', 'p']).2 then .ret (toInt32 (R ['s', 'p']).1) else .ret 0, success) := by
  refine ⟨rfl, rfl, ?_, rfl⟩
  intro tokens st i hty hpc
  simp [scanToken, hty, hpc]

/-! ## Theorems: the tokenizer -/

/-- Every match of a regular expression of the fragment takes at least one
character and at most the whole string. -/
theorem lens_bounds (r : Regex) : ∀ (s : List Char) (n : Nat), n ∈ r.lens s → 1 ≤ n ∧ n ≤ s.length := by
  induction r with
  | chr c =>
    intro s n h
    cases s with
    | nil => simp [Regex.lens] at h
    | cons x xs =>
      simp only [Regex.lens] at h
      split at h <;> simp at h
      subst h; simp
  | set p =>
    intro s n h
    cases s with
    | nil => simp [Regex.lens] at h
    | cons x xs =>
      simp only [Regex.lens] at h
      split at h <;> simp at h
      subst h; simp
  | many1 p =>
    intro s n h
    simp only [Regex.lens, List.mem_map, List.mem_range] at h
    obtain ⟨k, hk, rfl⟩ := h
    have := (List.takeWhile_sublist (l := s) p).length_le
    omega
  | seq a b iha ihb =>
    intro s n h
    simp only [Regex.lens, List.mem_flatMap, List.mem_map] at h
    obtain ⟨k, hk, m, hm, rfl⟩ := h
    have h1 := iha s k hk
    have h2 := ihb (s.drop k) m hm
    simp only [List.length_drop] at h2
    omega
  | alt a b iha ihb =>
    intro s n h
    simp only [Regex.lens, List.mem_append] at h
    rcases h with h | h
    · exact iha s n h
    · exact ihb s n h

/-- The fold of `regexec` from a first candidate returns a candidate. -/
theorem regexec_fold_some (l : List Nat) (b : Nat) :
    ∃ m, l.foldl (fun best n => match best with
      | none => some n
      | some b => some (max b n)) (some b) = some m ∧ (m = b ∨ m ∈ l) ∧ b ≤ m
        ∧ ∀ x ∈ l, x ≤ m := by
  induction l generalizing b with
  | nil => exact ⟨b, rfl, Or.inl rfl, le_refl _, by simp⟩
  | cons x xs ih =>
    obtain ⟨m, hm, hmem, hle, hall⟩ := ih (max b x)
    refine ⟨m, by simpa [List.foldl] using hm, ?_, ?_, ?_⟩
    · rcases hmem with h | h
      · rcases Nat.le_total b x with hbx | hbx
        · right; simp [h, Nat.max_eq_right hbx]
        · left; simp [h, Nat.max_eq_left hbx]
      · right; simp [h]
    · exact le_trans (Nat.le_max_left b x) hle
    · intro y hy
      simp only [List.mem_cons] at hy
      rcases hy with rfl | hy
      · exact le_trans (Nat.le_max_right b y) hle
      · exact hall y hy

/-- What `regexec` returns is the length of a match, and the longest. -/
theorem regexec_some {r : Regex} {s : List Char} {n : Nat} (h : regexec r s = some n) :
    n ∈ r.lens s ∧ ∀ x ∈ r.lens s, x ≤ n := by
  unfold regexec at h
  cases hl : r.lens s with
  | nil => rw [hl] at h; simp at h
  | cons x xs =>
    rw [hl] at h
    obtain ⟨m, hm, hmem, hle, hall⟩ := regexec_fold_some xs x
    simp only [List.foldl] at h
    rw [hm] at h
    cases h
    constructor
    · rcases hmem with h | h
      · simp [h]
      · simp [h]
    · intro y hy
      simp only [List.mem_cons] at hy
      rcases hy with rfl | hy
      · exact hle
      · exact hall y hy

/-- No match at the start of the string: `regexec` fails. -/
theorem regexec_none_iff (r : Regex) (s : List Char) : regexec r s = none ↔ r.lens s = [] := by
  unfold regexec
  cases hl : r.lens s with
  | nil => simp
  | cons x xs =>
    obtain ⟨m, hm, -⟩ := regexec_fold_some xs x
    simp only [List.foldl]
    rw [hm]
    simp

/-- The match a rule table finds takes at least one character and at most the
whole string. -/
theorem firstMatch_bounds (rs : List (Regex × TokType)) (s : List Char) (n : Nat) (ty : TokType)
    (h : firstMatch rs s = some (n, ty)) : 1 ≤ n ∧ n ≤ s.length := by
  induction rs with
  | nil => simp [firstMatch] at h
  | cons r rs ih =>
    obtain ⟨r, ty'⟩ := r
    simp only [firstMatch] at h
    cases hr : regexec r s with
    | none => rw [hr] at h; exact ih h
    | some m =>
      rw [hr] at h
      simp only [Option.some.injEq, Prod.mk.injEq] at h
      obtain ⟨rfl, -⟩ := h
      exact lens_bounds r s m (regexec_some hr).1

/-- A round of the loop of `make_token` that goes on has moved the position
forward, and not past the end of the string. -/
theorem make_token_step_next {e : List Char} {p p' : Nat} {toks toks' : List Token}
    (h : make_token_step e p toks = .next p' toks') : p < p' ∧ p' ≤ e.length := by
  unfold make_token_step at h
  cases hd : e.drop p with
  | nil => rw [hd] at h; simp at h
  | cons c cs =>
    rw [hd] at h
    simp only at h
    have hlen : (c :: cs).length = e.length - p := by rw [← hd, List.length_drop]
    cases hm : firstMatch rules (c :: cs) with
    | none => rw [hm] at h; simp at h
    | some r =>
      obtain ⟨n, ty⟩ := r
      rw [hm] at h
      have hb := firstMatch_bounds rules (c :: cs) n ty hm
      rw [hlen] at hb
      cases ty <;> simp only [] at h <;>
        first
        | (cases h <;> omega)
        | (split_ifs at h <;> cases h <;> omega)

/-- The loop of `make_token` gives the same result for every fuel that covers
the rest of the string. -/
theorem make_token_loop_fuel (e : List Char) (f1 : Nat) :
    ∀ (f2 p : Nat) (toks : List Token), p ≤ e.length → e.length + 1 - p ≤ f1 →
      e.length + 1 - p ≤ f2 → make_token_loop e f1 p toks = make_token_loop e f2 p toks := by
  induction f1 with
  | zero => intro f2 p toks hp h1 h2; omega
  | succ a ih =>
    intro f2 p toks hp h1 h2
    cases f2 with
    | zero => omega
    | succ b =>
      simp only [make_token_loop]
      cases hs : make_token_step e p toks with
      | stop r => rfl
      | next p' toks' =>
        have hb := make_token_step_next hs
        exact ih b p' toks' hb.2 (by omega) (by omega)

/-- The loop of `make_token` never runs out of its fuel. -/
theorem make_token_loop_ne_fuelOut (e : List Char) (f : Nat) :
    ∀ (p : Nat) (toks : List Token), p ≤ e.length → e.length + 1 - p ≤ f →
      make_token_loop e f p toks ≠ .fuelOut := by
  induction f with
  | zero => intro p toks hp h1; omega
  | succ a ih =>
    intro p toks hp h1
    simp only [make_token_loop]
    cases hs : make_token_step e p toks with
    | stop r =>
      simp only
      unfold make_token_step at hs
      intro hr
      subst hr
      revert hs
      cases e.drop p with
      | nil => simp
      | cons c cs =>
        simp only
        cases firstMatch rules (c :: cs) with
        | none => simp
        | some r =>
          obtain ⟨n, ty⟩ := r
          cases ty <;> simp only [] <;> first | (simp; done) | (split_ifs <;> simp)
    | next p' toks' =>
      have hb := make_token_step_next hs
      exact ih p' toks' hb.2 (by omega)

/-- The rest of `make_token` from a state of its loop. -/
theorem make_token_loop_next {e : List Char} {p p' : Nat} {toks toks' : List Token}
    (h : make_token_step e p toks = .next p' toks') :
    make_token_loop e (e.length + 1 - p) p toks
      = make_token_loop e (e.length + 1 - p') p' toks' := by
  have hb := make_token_step_next h
  obtain ⟨g, hg⟩ : ∃ g, e.length + 1 - p = g + 1 := ⟨e.length - p, by omega⟩
  rw [hg]
  simp only [make_token_loop, h]
  exact make_token_loop_fuel e g _ p' toks' hb.2 (by omega) (le_refl _)

/-- The rest of `make_token` from a state in which its loop ends. -/
theorem make_token_loop_stop {e : List Char} {p : Nat} {toks : List Token} {r : LexResult}
    (h : make_token_step e p toks = .stop r) :
    make_token_loop e (e.length + 1 - p + 1) p toks = r := by
  simp only [make_token_loop, h]

/-- A state the loop of `make_token` reaches is within the string, and the
result of `make_token` is the result of the loop from that state. -/
theorem make_token_rounds_loop (e : List Char) (n : Nat) :
    ∀ (p : Nat) (toks : List Token), make_token_rounds e n = some (p, toks) →
      p ≤ e.length ∧ make_token e = make_token_loop e (e.length + 1 - p) p toks := by
  induction n with
  | zero =>
    intro p toks h
    simp only [make_token_rounds, Option.some.injEq, Prod.mk.injEq] at h
    obtain ⟨rfl, rfl⟩ := h
    exact ⟨Nat.zero_le _, rfl⟩
  | succ n ih =>
    intro p toks h
    simp only [make_token_rounds] at h
    cases hr : make_token_rounds e n with
    | none => rw [hr] at h; simp at h
    | some st =>
      obtain ⟨p0, toks0⟩ := st
      rw [hr] at h
      simp only at h
      cases hs : make_token_step e p0 toks0 with
      | stop r => rw [hs] at h; simp at h
      | next p1 toks1 =>
        rw [hs] at h
        simp only [Option.some.injEq, Prod.mk.injEq] at h
        obtain ⟨rfl, rfl⟩ := h
        obtain ⟨-, h0⟩ := ih p0 toks0 hr
        exact ⟨(make_token_step_next hs).2, h0.trans (make_token_loop_next hs)⟩

/-- C6: when the loop of `make_token` reaches a position that holds a character
at which no rule of the table matches, `make_token` returns false there, and
`expr` returns 0 with the flag set to false, whatever the flag was and whatever
the register file and the memory hold. -/
theorem expr_lexical_error (e : List Char) (n position : Nat) (tokens : List Token)
    (hreach : make_token_rounds e n = some (position, tokens))
    (hchar : position < e.length)
    (hnone : firstMatch rules (e.drop position) = none) :
    make_token e = .noMatch position
      ∧ ∀ (R : List Char → Int × Bool) (M : Int → Int → Int) (success : Bool),
          expr R M e success = (.ret 0, false) := by
  have hmk : make_token e = .noMatch position := by
    obtain ⟨-, h0⟩ := make_token_rounds_loop e n position tokens hreach
    rw [h0]
    obtain ⟨g, hg⟩ : ∃ g, e.length + 1 - position = g + 1 := ⟨e.length - position, by omega⟩
    rw [hg]
    simp only [make_token_loop, make_token_step]
    cases hd : e.drop position with
    | nil =>
      have := congrArg List.length hd
      simp only [List.length_drop, List.length_nil] at this
      omega
    | cons c cs =>
      rw [hd] at hnone
      simp only [hnone]
  refine ⟨hmk, ?_⟩
  intro R M success
  simp only [expr, hmk]

/-- Witness of C6: `1 & 2` after two rounds at position 2, `3 = 3` after two
rounds at position 2, `0x` after one round at position 1, `$pc` at once. -/
theorem expr_lexical_error_witness :
    (make_token "1 & 2".toList = .noMatch 2
      ∧ ∀ (R : List Char → Int × Bool) (M : Int → Int → Int) (success : Bool),
          expr R M "1 & 2".toList success = (.ret 0, false))
    ∧ (make_token "3 = 3".toList = .noMatch 2
      ∧ ∀ (R : List Char → Int × Bool) (M : Int → Int → Int) (success : Bool),
          expr R M "3 = 3".toList success = (.ret 0, false))
    ∧ (make_token "0x".toList = .noMatch 1
      ∧ ∀ (R : List Char → Int × Bool) (M : Int → Int → Int) (success : Bool),
          expr R M "0x".toList success = (.ret 0, false))
    ∧ (make_token "$pc".toList = .noMatch 0
      ∧ ∀ (R : List Char → Int × Bool) (M : Int → Int → Int) (success : Bool),
          expr R M "$pc".toList success = (.ret 0, false)) :=
  ⟨expr_lexical_error "1 & 2".toList 2 2 [⟨TK_DECIMAL, ['1']⟩] (by decide) (by decide) (by decide),
   expr_lexical_error "3 = 3".toList 2 2 [⟨TK_DECIMAL, ['3']⟩] (by decide) (by decide) (by decide),
   expr_lexical_error "0x".toList 1 1 [⟨TK_DECIMAL, ['0']⟩] (by decide) (by decide) (by decide),
   expr_lexical_error "$pc".toList 0 0 [] (by decide) (by decide) (by decide)⟩

/-! ## Theorems: the rules on literals and operators -/

/-- The result of `regexec` is the longest of the matches at the start. -/
theorem regexec_eq_some_iff (r : Regex) (s : List Char) (n : Nat) :
    regexec r s = some n ↔ n ∈ r.lens s ∧ ∀ x ∈ r.lens s, x ≤ n := by
  constructor
  · exact regexec_some
  · rintro ⟨hmem, hmax⟩
    cases hr : regexec r s with
    | none =>
      rw [regexec_none_iff] at hr
      rw [hr] at hmem
      simp at hmem
    | some m =>
      obtain ⟨h1, h2⟩ := regexec_some hr
      have := hmax m h1
      have := h2 n hmem
      congr 1
      omega

/-- The rule `X+`: the match is the longest run of characters of `X`. -/
theorem regexec_many1 (p : Char → Bool) (s : List Char) :
    regexec (.many1 p) s
      = if (s.takeWhile p).length = 0 then none else some (s.takeWhile p).length := by
  split
  · rename_i h0
    rw [regexec_none_iff]
    simp [Regex.lens, h0]
  · rename_i h0
    rw [regexec_eq_some_iff]
    simp only [Regex.lens, List.mem_map, List.mem_range]
    constructor
    · exact ⟨(s.takeWhile p).length - 1, by omega, by omega⟩
    · rintro x ⟨k, hk, rfl⟩
      omega

/-- A rule of one character on a non-empty string. -/
theorem regexec_chr_cons (c x : Char) (xs : List Char) :
    regexec (.chr c) (x :: xs) = if x = c then some 1 else none := by
  by_cases h : x = c <;> simp [regexec, Regex.lens, h]

/-- A rule that starts with a character, on a non-empty string. -/
theorem regexec_seq_chr_cons (c x : Char) (b : Regex) (xs : List Char) :
    regexec (.seq (.chr c) b) (x :: xs)
      = if x = c then (regexec b xs).map (fun m => 1 + m) else none := by
  by_cases h : x = c
  · simp only [h, if_true]
    cases hb : regexec b xs with
    | none =>
      rw [regexec_none_iff] at hb
      simp only [Option.map_none']
      rw [regexec_none_iff]
      simp [Regex.lens, hb]
    | some m =>
      obtain ⟨h1, h2⟩ := regexec_some hb
      simp only [Option.map_some']
      rw [regexec_eq_some_iff]
      simp only [Regex.lens, if_true, List.flatMap_cons, List.flatMap_nil, List.append_nil,
        List.drop_succ_cons, List.drop_zero, List.mem_map]
      constructor
      · exact ⟨m, h1, rfl⟩
      · rintro y ⟨k, hk, rfl⟩
        have := h2 k hk
        omega
  · simp only [h, if_false]
    rw [regexec_none_iff]
    simp [Regex.lens, h]

/-- No rule matches the empty string. -/
theorem regexec_nil (r : Regex) : regexec r [] = none := by
  rw [regexec_none_iff]
  cases hl : r.lens [] with
  | nil => rfl
  | cons x xs =>
    have := lens_bounds r [] x (by simp [hl])
    simp only [List.length_nil] at this
    omega

/-- A rule of another type than the one found is skipped. -/
theorem firstMatch_cons_of_ne {r : Regex} {ty ty' : TokType} {rs : List (Regex × TokType)}
    {s : List Char} {n : Nat} (hne : ty ≠ ty')
    (h : firstMatch ((r, ty) :: rs) s = some (n, ty')) : firstMatch rs s = some (n, ty') := by
  simp only [firstMatch] at h
  cases hr : regexec r s with
  | none => rw [hr] at h; exact h
  | some m =>
    rw [hr] at h
    simp only [Option.some.injEq, Prod.mk.injEq] at h
    exact absurd h.2 hne

/-- The only rule of a type is the one that has matched. -/
theorem firstMatch_cons_self {r : Regex} {ty : TokType} {rs : List (Regex × TokType)}
    {s : List Char} {n : Nat} (hrs : ∀ x ∈ rs, x.2 ≠ ty)
    (h : firstMatch ((r, ty) :: rs) s = some (n, ty)) : regexec r s = some n := by
  simp only [firstMatch] at h
  cases hr : regexec r s with
  | none =>
    rw [hr] at h
    exfalso
    clear hr
    induction rs with
    | nil => simp [firstMatch] at h
    | cons a rs ih =>
      obtain ⟨r', ty'⟩ := a
      exact ih (fun x hx => hrs x (by simp [hx]))
        (firstMatch_cons_of_ne (hrs (r', ty') (by simp)) h)
  | some m =>
    rw [hr] at h
    simp only [Option.some.injEq, Prod.mk.injEq] at h
    rw [h.1]

/-- A decimal token: the match is the longest run of decimal digits. -/
theorem firstMatch_dec_inv {s : List Char} {n : Nat}
    (h : firstMatch rules s = some (n, TK_DECIMAL)) :
    n = (s.takeWhile isDec).length ∧ 0 < n := by
  unfold rules at h
  have h1 := firstMatch_cons_of_ne (by decide) h
  have h2 := firstMatch_cons_of_ne (by decide) h1
  have h3 := firstMatch_cons_of_ne (by decide) h2
  have h4 := firstMatch_cons_of_ne (by decide) h3
  have h5 := firstMatch_cons_of_ne (by decide) h4
  have h6 := firstMatch_cons_of_ne (by decide) h5
  have h7 := firstMatch_cons_of_ne (by decide) h6
  have h8 := firstMatch_cons_of_ne (by decide) h7
  have h9 := firstMatch_cons_of_ne (by decide) h8
  have h10 := firstMatch_cons_of_ne (by decide) h9
  have h11 := firstMatch_cons_of_ne (by decide) h10
  have h12 := firstMatch_cons_of_ne (by decide) h11
  have h13 := firstMatch_cons_self (by simp) h12
  rw [regexec_many1] at h13
  split at h13
  · simp at h13
  · simp only [Option.some.injEq] at h13
    omega

/-- A hexadecimal token: `0x` and the longest run of hexadecimal digits. -/
theorem firstMatch_hex_inv {s : List Char} {n : Nat}
    (h : firstMatch rules s = some (n, TK_HEX)) :
    ∃ r, s = '0' :: 'x' :: r ∧ n = 2 + (r.takeWhile isHex).length
      ∧ 0 < (r.takeWhile isHex).length := by
  unfold rules at h
  have h1 := firstMatch_cons_of_ne (by decide) h
  have h2 := firstMatch_cons_of_ne (by decide) h1
  have h3 := firstMatch_cons_of_ne (by decide) h2
  have h4 := firstMatch_cons_of_ne (by decide) h3
  have h5 := firstMatch_cons_of_ne (by decide) h4
  have h6 := firstMatch_cons_of_ne (by decide) h5
  have h7 := firstMatch_cons_of_ne (by decide) h6
  have h8 := firstMatch_cons_of_ne (by decide) h7
  have h9 := firstMatch_cons_of_ne (by decide) h8
  have h10 := firstMatch_cons_of_ne (by decide) h9
  have h11 := firstMatch_cons_of_ne (by decide) h10
  have h12 := firstMatch_cons_self (by simp) h11
  cases s with
  | nil => rw [regexec_nil] at h12; simp at h12
  | cons a s1 =>
    rw [regexec_seq_chr_cons] at h12
    split at h12
    · rename_i ha
      subst ha
      cases s1 with
      | nil => rw [regexec_nil] at h12; simp at h12
      | cons b r =>
        rw [regexec_seq_chr_cons] at h12
        split at h12
        · rename_i hb
          subst hb
          rw [regexec_many1] at h12
          split at h12
          · simp at h12
          · simp only [Option.map_some', Option.some.injEq] at h12
            exact ⟨r, rfl, by omega, by omega⟩
        · simp at h12
    · simp at h12

/-! ## Theorems: the values of literals -/

/-- A character between two characters is the character of a code between
their codes. -/
theorem char_between (c lo hi : Char) (h1 : lo ≤ c) (h2 : c ≤ hi) :
    ∃ n, lo.toNat ≤ n ∧ n ≤ hi.toNat ∧ c = Char.ofNat n :=
  ⟨c.toNat, h1, h2, (Char.ofNat_toNat c).symm⟩

/-- The ten characters of `[0-9]`. -/
theorem isDec_mem (c : Char) (h : isDec c = true) :
    c = '0' ∨ c = '1' ∨ c = '2' ∨ c = '3' ∨ c = '4' ∨ c = '5' ∨ c = '6' ∨ c = '7'
      ∨ c = '8' ∨ c = '9' := by
  simp only [isDec, Bool.and_eq_true, decide_eq_true_eq] at h
  obtain ⟨n, h1, h2, rfl⟩ := char_between c _ _ h.1 h.2
  have h1' : 48 ≤ n := h1
  have h2' : n ≤ 57 := h2
  clear h h1 h2
  interval_cases n <;> decide

/-- The twenty-two characters of `[a-fA-F0-9]`. -/
theorem isHex_mem (c : Char) (h : isHex c = true) :
    c = 'a' ∨ c = 'b' ∨ c = 'c' ∨ c = 'd' ∨ c = 'e' ∨ c = 'f' ∨ c = 'A' ∨ c = 'B'
      ∨ c = 'C' ∨ c = 'D' ∨ c = 'E' ∨ c = 'F' ∨ c = '0' ∨ c = '1' ∨ c = '2' ∨ c = '3'
      ∨ c = '4' ∨ c = '5' ∨ c = '6' ∨ c = '7' ∨ c = '8' ∨ c = '9' := by
  simp only [isHex, Bool.and_eq_true, Bool.or_eq_true, decide_eq_true_eq] at h
  rcases h with (h | h) | h
  · obtain ⟨n, h1, h2, rfl⟩ := char_between c _ _ h.1 h.2
    have h1' : 97 ≤ n := h1
    have h2' : n ≤ 102 := h2
    clear h h1 h2
    interval_cases n <;> decide
  · obtain ⟨n, h1, h2, rfl⟩ := char_between c _ _ h.1 h.2
    have h1' : 65 ≤ n := h1
    have h2' : n ≤ 70 := h2
    clear h h1 h2
    interval_cases n <;> decide
  · obtain ⟨n, h1, h2, rfl⟩ := char_between c _ _ h.1 h.2
    have h1' : 48 ≤ n := h1
    have h2' : n ≤ 57 := h2
    clear h h1 h2
    interval_cases n <;> decide

/-- What `strtol` and the tokenizer need to know of a decimal digit. -/
theorem isDec_facts (c : Char) (h : isDec c = true) :
    digitVal c = some (decDigit c) ∧ decDigit c < 10 ∧ isspace c = false
      ∧ (c == '-') = false ∧ (c == '+') = false ∧ isHex c = true := by
  have hm := isDec_mem c h
  rcases hm with rfl | rfl | rfl | rfl | rfl | rfl | rfl | rfl | rfl | rfl <;> decide

/-- What `strtol` needs to know of a hexadecimal digit. -/
theorem isHex_facts (c : Char) (h : isHex c = true) :
    digitVal c = some (hexDigit c) ∧ hexDigit c < 16 := by
  have hm := isHex_mem c h
  rcases hm with rfl | rfl | rfl | rfl | rfl | rfl | rfl | rfl | rfl | rfl | rfl | rfl | rfl
    | rfl | rfl | rfl | rfl | rfl | rfl | rfl | rfl | rfl <;> decide

/-- The digit loop of `strtol` in base 10 on a string of decimal digits. -/
theorem strtolDigits_dec (ds : List Char) (h : ∀ c ∈ ds, isDec c = true) (acc : Nat) :
    strtolDigits 10 ds acc = acc * 10 ^ ds.length + decimalValue ds := by
  induction ds generalizing acc with
  | nil => simp [strtolDigits, decimalValue]
  | cons c cs ih =>
    obtain ⟨h1, h2, -⟩ := isDec_facts c (h c (by simp))
    simp only [strtolDigits, h1, h2, if_true, decimalValue, List.length_cons]
    rw [ih (fun x hx => h x (by simp [hx]))]
    ring

/-- The digit loop of `strtol` in base 16 on a string of hexadecimal digits. -/
theorem strtolDigits_hex (hs : List Char) (h : ∀ c ∈ hs, isHex c = true) (acc : Nat) :
    strtolDigits 16 hs acc = acc * 16 ^ hs.length + hexValue hs := by
  induction hs generalizing acc with
  | nil => simp [strtolDigits, hexValue]
  | cons c cs ih =>
    obtain ⟨h1, h2⟩ := isHex_facts c (h c (by simp))
    simp only [strtolDigits, h1, h2, if_true, hexValue, List.length_cons]
    rw [ih (fun x hx => h x (by simp [hx]))]
    ring

/-- The call `strtol(s, NULL, 10)` on a non-empty string of decimal digits. -/
theorem strtol_dec (ds : List Char) (hne : ds ≠ []) (h : ∀ c ∈ ds, isDec c = true) :
    strtol ds 10 = min LONG_MAX (decimalValue ds : Int) := by
  cases ds with
  | nil => exact absurd rfl hne
  | cons c cs =>
    obtain ⟨-, -, h3, h4, h5, -⟩ := isDec_facts c (h c (by simp))
    have hd := strtolDigits_dec (c :: cs) h 0
    have hnn : (0 : Int) ≤ (decimalValue (c :: cs) : Int) := Int.natCast_nonneg _
    cases cs with
    | nil =>
      simp only [strtol, List.dropWhile_cons, h3, h4, h5, Bool.or_self, Bool.false_eq_true,
        if_false, hd, zero_mul, zero_add]
      simp only [LONG_MIN, LONG_MAX]
      omega
    | cons x r =>
      have h16 : ((10 : Nat) == 16) = false := by decide
      simp only [strtol, List.dropWhile_cons, h3, h4, h5, Bool.or_self, Bool.false_eq_true,
        if_false, h16, Bool.false_and, hd, zero_mul, zero_add]
      simp only [LONG_MIN, LONG_MAX]
      omega

/-- The call `atoi(s)` on a non-empty string of decimal digits whose value an
`int` holds. -/
theorem atoi_dec (ds : List Char) (hne : ds ≠ []) (h : ∀ c ∈ ds, isDec c = true)
    (hv : (decimalValue ds : Int) ≤ INT_MAX) : atoi ds = decimalValue ds := by
  have : (0 : Int) ≤ (decimalValue ds : Int) := Int.natCast_nonneg _
  simp only [atoi, strtol_dec ds hne h, toInt32, LONG_MAX]
  simp only [INT_MAX] at hv
  omega

/-- The call `strtol(s, NULL, 16)` on `0x` and a string of hexadecimal
digits. -/
theorem strtol_hex (hs : List Char) (h : ∀ c ∈ hs, isHex c = true) :
    strtol ('0' :: 'x' :: hs) 16 = min LONG_MAX (hexValue hs : Int) := by
  have hd := strtolDigits_hex hs h 0
  have : (0 : Int) ≤ (hexValue hs : Int) := Int.natCast_nonneg _
  simp [strtol, isspace, hd, LONG_MIN, LONG_MAX]
  omega

/-! ## Theorems: a single literal -/

/-- A round of the loop of `make_token` leaves the tokens alone or appends one
whose text is what a rule of its type has matched, shorter than 32. -/
theorem make_token_step_tokens {e : List Char} {p p' : Nat} {toks toks' : List Token}
    (h : make_token_step e p toks = .next p' toks') :
    toks' = toks ∨ ∃ s n ty, firstMatch rules s = some (n, ty) ∧ n < 32
      ∧ toks' = toks ++ [⟨ty, s.take n⟩] := by
  unfold make_token_step at h
  cases hd : e.drop p with
  | nil => rw [hd] at h; simp at h
  | cons c cs =>
    rw [hd] at h
    simp only at h
    cases hm : firstMatch rules (c :: cs) with
    | none => rw [hm] at h; simp at h
    | some r =>
      obtain ⟨n, ty⟩ := r
      rw [hm] at h
      cases ty <;> simp only [] at h <;>
        first
        | (cases h; left; rfl)
        | (cases h; done)
        | (split_ifs at h with h1 h2
           cases h
           right
           exact ⟨c :: cs, n, _, hm, h2, rfl⟩)

/-- Every token `make_token` returns is one a rule has matched. -/
theorem make_token_loop_tokens (P : Token → Prop)
    (hP : ∀ s n ty, firstMatch rules s = some (n, ty) → n < 32 → P ⟨ty, s.take n⟩)
    (e : List Char) (fuel : Nat) :
    ∀ (p : Nat) (toks out : List Token), make_token_loop e fuel p toks = .ok out →
      (∀ t ∈ toks, P t) → ∀ t ∈ out, P t := by
  induction fuel with
  | zero => intro p toks out h; simp [make_token_loop] at h
  | succ f ih =>
    intro p toks out h htoks
    simp only [make_token_loop] at h
    cases hs : make_token_step e p toks with
    | stop r =>
      rw [hs] at h
      simp only at h
      subst h
      unfold make_token_step at hs
      revert hs
      cases e.drop p with
      | nil =>
        simp only [LexStep.stop.injEq, LexResult.ok.injEq]
        intro hh; subst hh; exact htoks
      | cons c cs =>
        simp only
        cases firstMatch rules (c :: cs) with
        | none => simp
        | some r =>
          obtain ⟨n, ty⟩ := r
          cases ty <;> simp only [] <;> first | (simp; done) | (split_ifs <;> simp)
    | next p' toks' =>
      rw [hs] at h
      simp only at h
      refine ih p' toks' out h ?_
      rcases make_token_step_tokens hs with rfl | ⟨s, n, ty, hm, hn, rfl⟩
      · exact htoks
      · intro t ht
        simp only [List.mem_append, List.mem_singleton] at ht
        rcases ht with ht | rfl
        · exact htoks t ht
        · exact hP s n ty hm hn

/-- The text of a decimal token is a non-empty string of decimal digits and
the text of a hexadecimal token is `0x` and a non-empty string of hexadecimal
digits. -/
theorem make_token_literal_text {e : List Char} {out : List Token}
    (h : make_token e = .ok out) (t : Token) (ht : t ∈ out) :
    (t.type = TK_DECIMAL → t.str ≠ [] ∧ ∀ c ∈ t.str, isDec c = true)
    ∧ (t.type = TK_HEX → ∃ digits, t.str = '0' :: 'x' :: digits ∧ digits ≠ []
        ∧ ∀ c ∈ digits, isHex c = true) := by
  refine make_token_loop_tokens
    (fun t => (t.type = TK_DECIMAL → t.str ≠ [] ∧ ∀ c ∈ t.str, isDec c = true)
      ∧ (t.type = TK_HEX → ∃ digits, t.str = '0' :: 'x' :: digits ∧ digits ≠ []
          ∧ ∀ c ∈ digits, isHex c = true)) ?_ e _ 0 [] out h (by simp) t ht
  intro s n ty hm hn
  constructor
  · intro hty
    simp only at hty
    subst hty
    obtain ⟨h1, h2⟩ := firstMatch_dec_inv hm
    have htake : s.take n = s.takeWhile isDec := by
      rw [h1]
      exact (List.prefix_iff_eq_take.mp (List.takeWhile_prefix isDec)).symm
    simp only [htake]
    constructor
    · intro hnil
      rw [hnil] at h1
      simp at h1
      omega
    · intro c hc
      exact (List.mem_takeWhile_imp hc)
  · intro hty
    simp only at hty
    subst hty
    obtain ⟨r, rfl, h1, h2⟩ := firstMatch_hex_inv hm
    refine ⟨r.takeWhile isHex, ?_, ?_, ?_⟩
    · have htake : r.take (r.takeWhile isHex).length = r.takeWhile isHex :=
        (List.prefix_iff_eq_take.mp (List.takeWhile_prefix isHex)).symm
      rw [h1]
      simp only [Nat.add_comm 2, List.take_succ_cons, htake]
    · intro hnil
      rw [hnil] at h2
      simp at h2
    · intro c hc
      exact (List.mem_takeWhile_imp hc)

/-- C4 (as amended): when the input tokenizes to a single decimal token whose
base-10 value an `int` holds, `expr` returns that value, and when it tokenizes
to a single hexadecimal token `0x` and digits whose base-16 value a `long`
holds, `expr` returns that value; the flag is left as it was. -/
theorem expr_single_literal (R : List Char → Int × Bool) (M : Int → Int → Int)
    (e : List Char) (t : Token) (success : Bool) (htok : make_token e = .ok [t]) :
    (t.type = TK_DECIMAL →
      (∀ c ∈ t.str, isDec c = true) ∧
        ((decimalValue t.str : Int) ≤ INT_MAX →
          expr R M e success = (.ret (decimalValue t.str : Int), success)))
    ∧ (t.type = TK_HEX →
      ∃ digits, t.str = '0' :: 'x' :: digits ∧ (∀ c ∈ digits, isHex c = true) ∧
        ((hexValue digits : Int) ≤ LONG_MAX →
          expr R M e success = (.ret (hexValue digits : Int), success))) := by
  obtain ⟨hdec, hhex⟩ := make_token_literal_text htok t (by simp)
  obtain ⟨ty, str⟩ := t
  constructor
  · intro hty
    simp only at hty
    subst hty
    obtain ⟨hne, hall⟩ := hdec rfl
    refine ⟨hall, ?_⟩
    intro hv
    simp only at hne hall hv ⊢
    have ha := atoi_dec str hne hall hv
    simp [expr, htok, unaryPass, eval, tokAt, ha]
  · intro hty
    simp only at hty
    subst hty
    obtain ⟨digits, hstr, hne, hall⟩ := hhex rfl
    refine ⟨digits, hstr, hall, ?_⟩
    intro hv
    simp only at hstr
    subst hstr
    have ha := strtol_hex digits hall
    have hnn : (0 : Int) ≤ (hexValue digits : Int) := Int.natCast_nonneg _
    have hmin : min LONG_MAX (hexValue digits : Int) = (hexValue digits : Int) :=
      min_eq_right hv
    simp [expr, htok, unaryPass, eval, tokAt, ha, hmin]

/-- Witness of C4: `42` and `0x2A`, also with blanks around the literal. -/
theorem expr_single_literal_witness :
    (expr noRegs demoMem "42".toList true = (.ret 42, true)
      ∧ expr noRegs demoMem " 42 ".toList true = (.ret 42, true))
    ∧ expr noRegs demoMem "0x2A".toList true = (.ret 42, true) :=
  ⟨⟨((expr_single_literal noRegs demoMem "42".toList ⟨TK_DECIMAL, "42".toList⟩ true
        (by decide)).1 rfl).2 (by decide),
    ((expr_single_literal noRegs demoMem " 42 ".toList ⟨TK_DECIMAL, "42".toList⟩ true
        (by decide)).1 rfl).2 (by decide)⟩,
   by
    obtain ⟨digits, hstr, -, hval⟩ :=
      (expr_single_literal noRegs demoMem "0x2A".toList ⟨TK_HEX, "0x2A".toList⟩ true
        (by decide)).2 rfl
    have hd : digits = ['2', 'A'] := by
      simp only [String.toList] at hstr
      simpa using hstr.symm
    subst hd
    exact hval (by decide)⟩

/-- Counterexample to C4 as stated: the decimal literal `4294967296` and the
hexadecimal literal `0x10000000000000000` fit the token text, and `expr`
returns 0, resp. the largest `long`, instead of their values. -/
theorem expr_single_literal_counterexample :
    (make_token "4294967296".toList = .ok [⟨TK_DECIMAL, "4294967296".toList⟩]
      ∧ "4294967296".toList.length < 32
      ∧ decimalValue "4294967296".toList = 4294967296
      ∧ expr noRegs demoMem "4294967296".toList true = (.ret 0, true))
    ∧ (make_token "0x10000000000000000".toList
          = .ok [⟨TK_HEX, "0x10000000000000000".toList⟩]
      ∧ "0x10000000000000000".toList.length < 32
      ∧ hexValue "10000000000000000".toList = 18446744073709551616
      ∧ expr noRegs demoMem "0x10000000000000000".toList true
          = (.ret 9223372036854775807, true)) := by
  refine ⟨⟨by decide, by decide, by decide, by decide⟩, ⟨by decide, by decide, by decide, by decide⟩⟩

/-! ## Theorems: the tokens of literals and operators -/

/-- A decimal digit is none of the characters an operator starts with. -/
theorem isDec_not_op (c : Char) (h : isDec c = true) :
    c ≠ '+' ∧ c ≠ '-' ∧ c ≠ '*' ∧ c ≠ '/' ∧ c ≠ '(' ∧ c ≠ ')' ∧ c ≠ ' ' ∧ c ≠ '='
      ∧ c ≠ '!' ∧ c ≠ '&' ∧ c ≠ '|' ∧ c ≠ 'x' := by
  have hm := isDec_mem c h
  rcases hm with rfl | rfl | rfl | rfl | rfl | rfl | rfl | rfl | rfl | rfl <;> decide

/-- The rule table on a decimal literal followed by something that is neither
a digit nor `x`. -/
theorem firstMatch_dec (ds rest : List Char) (hne : ds ≠ [])
    (hds : ∀ c ∈ ds, isDec c = true)
    (hrest : ∀ c ∈ rest.head?, isDec c = false ∧ c ≠ 'x') :
    firstMatch rules (ds ++ rest) = some (ds.length, TK_DECIMAL) := by
  cases ds with
  | nil => exact absurd rfl hne
  | cons d ds' =>
    obtain ⟨n1, n2, n3, n4, n5, n6, n7, n8, n9, n10, n11, -⟩ := isDec_not_op d (hds d (by simp))
    have hsp : ((d :: (ds' ++ rest)).takeWhile (fun c => c == ' ')).length = 0 := by
      simp [List.takeWhile_cons, n7]
    have hx : regexec (.seq (.chr 'x') (.many1 isHex)) (ds' ++ rest) = none := by
      cases ds' with
      | nil =>
        cases rest with
        | nil => exact regexec_nil _
        | cons r rs =>
          have := (hrest r (by simp)).2
          simp [regexec_seq_chr_cons, this]
      | cons d2 ds2 =>
        have := (isDec_not_op d2 (hds d2 (by simp))).2.2.2.2.2.2.2.2.2.2.2
        simp [regexec_seq_chr_cons, this]
    have htw : (d :: ds' ++ rest).takeWhile isDec = d :: ds' := by
      rw [List.takeWhile_append_of_pos hds]
      cases rest with
      | nil => simp
      | cons r rs =>
        have := (hrest r (by simp)).1
        simp [List.takeWhile_cons, this]
    have hdec : regexec (.many1 isDec) (d :: ds' ++ rest) = some (d :: ds').length := by
      rw [regexec_many1, htw]
      simp
    simp only [List.cons_append] at hdec ⊢
    simp only [rules, firstMatch, regexec_chr_cons, regexec_seq_chr_cons, regexec_many1, hsp,
      n1, n2, n3, n4, n5, n6, n8, n9, n10, n11, if_false, if_true, hx, Option.map_none',
      ite_self, hdec]

/-- The rule table on the text of a binary operator. -/
theorem firstMatch_op (o : BinOp) (rest : List Char) :
    firstMatch rules (o.text ++ rest) = some (o.text.length, o.tok) := by
  cases o <;>
    simp [rules, firstMatch, regexec_chr_cons, regexec_seq_chr_cons, regexec_many1, BinOp.text,
      BinOp.tok, List.takeWhile_cons]

/-- A round of the loop of `make_token` on a lexeme that a rule of an emitted
type matches. -/
theorem make_token_loop_emit {e : List Char} {p : Nat} {toks : List Token}
    {x rest : List Char} {ty : TokType} (hd : e.drop p = x ++ rest)
    (hm : firstMatch rules (x ++ rest) = some (x.length, ty))
    (hty : ty ≠ TK_NOTYPE ∧ ty ≠ TK_POS ∧ ty ≠ TK_NEG ∧ ty ≠ TK_REF ∧ ty ≠ TK_DEREF)
    (hx : x.length < 32) (htoks : toks.length < 32) :
    make_token_loop e (e.length + 1 - p) p toks
      = make_token_loop e (e.length + 1 - (p + x.length)) (p + x.length)
          (toks ++ [⟨ty, x⟩])
      ∧ e.drop (p + x.length) = rest := by
  have hdrop : e.drop (p + x.length) = rest := by
    rw [← List.drop_drop, hd, List.drop_left]
  refine ⟨make_token_loop_next ?_, hdrop⟩
  have hb := firstMatch_bounds _ _ _ _ hm
  unfold make_token_step
  rw [hd]
  cases hxr : x ++ rest with
  | nil =>
    rw [hxr] at hb
    obtain ⟨hb1, hb2⟩ := hb
    simp only [List.length_nil] at hb2
    omega
  | cons c cs =>
    rw [hxr] at hm
    simp only [hm]
    have htake : List.take x.length (c :: cs) = x := by
      rw [← hxr, List.take_left]
    obtain ⟨t1, t2, t3, t4, t5⟩ := hty
    cases ty <;> simp only [htoks, hx, if_true, htake] <;> contradiction

/-- The loop of `make_token` at the end of the string. -/
theorem make_token_loop_end {e : List Char} {p : Nat} {toks : List Token}
    (hd : e.drop p = []) (hp : p ≤ e.length) :
    make_token_loop e (e.length + 1 - p) p toks = .ok toks := by
  obtain ⟨g, hg⟩ : ∃ g, e.length + 1 - p = g + 1 := ⟨e.length - p, by omega⟩
  rw [hg]
  simp [make_token_loop, make_token_step, hd]

/-- The loop of `make_token` on a decimal literal followed by operators and
decimal literals. -/
theorem make_token_loop_chain (e : List Char) (rest : List (BinOp × List Char)) :
    ∀ (p : Nat) (toks : List Token) (x : List Char),
      e.drop p = x ++ chainText rest →
      x ≠ [] → (∀ c ∈ x, isDec c = true) → x.length < 32 →
      (∀ y ∈ rest, y.2 ≠ [] ∧ (∀ c ∈ y.2, isDec c = true) ∧ y.2.length < 32) →
      toks.length + 1 + 2 * rest.length ≤ 32 →
      make_token_loop e (e.length + 1 - p) p toks
        = .ok (toks ++ ⟨TK_DECIMAL, x⟩ :: chainTokens rest) := by
  induction rest with
  | nil =>
    intro p toks x hd hne hx hlen _ htoks
    simp only [chainText, List.append_nil] at hd
    have hm := firstMatch_dec x [] hne hx (by simp)
    obtain ⟨h1, h2⟩ := @make_token_loop_emit e p toks x [] TK_DECIMAL (by simpa using hd) hm
      (by decide) hlen (by simp at htoks; omega)
    rw [h1]
    have hp : p + x.length ≤ e.length := by
      have := congrArg List.length hd
      simp only [List.length_drop] at this
      have hpos : 0 < x.length := List.length_pos.mpr hne
      omega
    rw [make_token_loop_end h2 hp]
    simp [chainTokens]
  | cons y rest ih =>
    intro p toks x hd hne hx hlen hrest htoks
    obtain ⟨o, z⟩ := y
    simp only [chainText] at hd
    simp only [List.length_cons] at htoks
    have hhead : ∀ c ∈ (o.text ++ (z ++ chainText rest)).head?,
        isDec c = false ∧ c ≠ 'x' := by
      cases o <;> simp [BinOp.text] <;> decide
    have hm := firstMatch_dec x _ hne hx hhead
    obtain ⟨h1, h2⟩ := @make_token_loop_emit e p toks x _ TK_DECIMAL hd hm (by decide) hlen (by omega)
    rw [h1]
    have hm2 := firstMatch_op o (z ++ chainText rest)
    have hoty : o.tok ≠ TK_NOTYPE ∧ o.tok ≠ TK_POS ∧ o.tok ≠ TK_NEG ∧ o.tok ≠ TK_REF
        ∧ o.tok ≠ TK_DEREF := by
      cases o <;> simp [BinOp.tok]
    have holen : o.text.length < 32 := by
      cases o <;> simp [BinOp.text]
    obtain ⟨h3, h4⟩ := @make_token_loop_emit e _ (toks ++ [⟨TK_DECIMAL, x⟩]) _ _ _ h2 hm2 hoty holen
      (by simp only [List.length_append, List.length_singleton]; omega)
    rw [h3]
    obtain ⟨hz1, hz2, hz3⟩ := hrest (o, z) (by simp)
    rw [ih _ _ z h4 hz1 hz2 hz3 (fun y hy => hrest y (by simp [hy]))
      (by simp only [List.length_append, List.length_singleton]; omega)]
    simp [chainTokens]

/-- The tokens of a decimal literal followed by operators and decimal
literals. -/
theorem make_token_chain (x : List Char) (rest : List (BinOp × List Char))
    (hne : x ≠ []) (hx : ∀ c ∈ x, isDec c = true) (hlen : x.length < 32)
    (hrest : ∀ y ∈ rest, y.2 ≠ [] ∧ (∀ c ∈ y.2, isDec c = true) ∧ y.2.length < 32)
    (hcount : 1 + 2 * rest.length ≤ 32) :
    make_token (x ++ chainText rest) = .ok (⟨TK_DECIMAL, x⟩ :: chainTokens rest) := by
  have := make_token_loop_chain (x ++ chainText rest) rest 0 [] x rfl hne hx hlen hrest
    (by simpa using hcount)
  simpa [make_token] using this

/-! ## Theorems: one step of the evaluator -/

/-- Sequencing after a run that returns. -/
theorem Res.ret_bind {α β : Type} (a : α) (f : α → Res β) : (Res.ret a).bind f = f a := rfl

/-- The conversion to `int` changes no value that an `int` holds. -/
theorem toInt32_of_inInt {x : Int} (h : inInt x) : toInt32 x = x := by
  simp only [inInt, INT_MIN, INT_MAX] at h
  simp only [toInt32]
  omega

/-- The value of a decimal literal is an `int`. -/
theorem IsDecLit.inInt {a : List Char} (h : IsDecLit a) : inInt (decimalValue a : Int) := by
  have hnn : (0 : Int) ≤ (decimalValue a : Int) := Int.natCast_nonneg _
  obtain ⟨-, -, -, hv⟩ := h
  simp only [Sdb.inInt, INT_MIN, INT_MAX] at hv ⊢
  omega

/-- The truncated quotient of two `int`s with a non-zero divisor leaves the
range of `int` only for `INT_MIN / -1`. -/
theorem binop_div_guard {x y : Int} (hr : inInt (Int.tdiv x y)) :
    ¬ (x = INT_MIN ∧ y = -1) := by
  rintro ⟨rfl, rfl⟩
  simp only [inInt, INT_MIN, INT_MAX] at hr
  have : Int.tdiv (-2147483648) (-1) = 2147483648 := by decide
  rw [this] at hr
  omega

/-- The `switch` of `eval` on a binary operator computes the value of the
operator when no divisor is zero and the result is an `int`. -/
theorem binop_apply (o : BinOp) (x y : Int) (hdiv : o = .div → y ≠ 0)
    (hr : inInt (o.apply x y)) : binop o.tok x y = .ret (o.apply x y) := by
  cases o
  · simp [binop, BinOp.tok, BinOp.apply, toInt32_of_inInt (show inInt (x * y) from hr)]
  · have h0 : y ≠ 0 := hdiv rfl
    have hg := binop_div_guard (show inInt (Int.tdiv x y) from hr)
    simp [binop, BinOp.tok, BinOp.apply, h0, hg]
  · simp [binop, BinOp.tok, BinOp.apply, toInt32_of_inInt (show inInt (x + y) from hr)]
  · simp [binop, BinOp.tok, BinOp.apply, toInt32_of_inInt (show inInt (x - y) from hr)]
  · simp [binop, BinOp.tok, BinOp.apply]
  · simp [binop, BinOp.tok, BinOp.apply]
  · simp [binop, BinOp.tok, BinOp.apply]
  · simp [binop, BinOp.tok, BinOp.apply]

/-- The evaluator on a single decimal token. -/
theorem eval_single_dec (R : List Char → Int × Bool) (M : Int → Int → Int)
    (tokens : List Token) (fuel : Nat) (p : Int)
    (h : (tokAt tokens p).type = TK_DECIMAL) :
    eval R M tokens (fuel + 1) p p = .ret (atoi (tokAt tokens p).str) := by
  simp [eval, h]

/-- The evaluator on a range that is not a parenthesized whole and whose main
operator is binary. -/
theorem eval_binary (R : List Char → Int × Bool) (M : Int → Int → Int)
    (tokens : List Token) (fuel : Nat) (p q : Int) (k : Nat) (m l r : Int)
    (hpq : p < q) (hcp : check_parentheses tokens p q = .ret false)
    (hmain : findMainOp tokens p q = .ret (some (k, m))) (hk : k ≠ 0)
    (hl : l = m - 1) (hr : r = m + 1) :
    eval R M tokens (fuel + 1) p q
      = (eval R M tokens fuel p l).bind (fun v1 =>
          (eval R M tokens fuel r q).bind (fun v2 =>
            binop (tokAt tokens m).type (toInt32 v1) (toInt32 v2))) := by
  subst hl hr
  have h1 : ¬ p > q := by omega
  have h2 : ¬ p = q := by omega
  simp only [eval, h1, h2, if_false, hcp, hmain, hk]
  cases eval R M tokens fuel p (m - 1) <;> simp only [Res.bind]
  cases eval R M tokens fuel (m + 1) q <;> simp only [Res.bind]

/-- The evaluator on a range that is not a parenthesized whole and whose main
operator is unary. -/
theorem eval_unary (R : List Char → Int × Bool) (M : Int → Int → Int)
    (tokens : List Token) (fuel : Nat) (p q : Int) (m r : Int)
    (hpq : p < q) (hcp : check_parentheses tokens p q = .ret false)
    (hmain : findMainOp tokens p q = .ret (some (0, m))) (hr : r = m + 1) :
    eval R M tokens (fuel + 1) p q
      = (eval R M tokens fuel r q).bind (fun v =>
          unop M (tokAt tokens m).type (toInt32 v)) := by
  subst hr
  have h1 : ¬ p > q := by omega
  have h2 : ¬ p = q := by omega
  simp only [eval, h1, h2, if_false, hcp, hmain, if_true]
  cases eval R M tokens fuel (m + 1) q <;> simp only [Res.bind]

/-- The rewriting pass of `expr` changes no token of `o1 x1 o2 x2 ...` that
follows a decimal literal. -/
theorem unaryPass_chain (rest : List (BinOp × List Char)) :
    unaryPass (some TK_DECIMAL) (chainTokens rest) = chainTokens rest := by
  induction rest with
  | nil => rfl
  | cons y rest ih =>
    obtain ⟨o, x⟩ := y
    simp only [chainTokens, unaryPass, require_unary_op]
    have : (if (if o.tok = TokType.minus ∧ false = true then TK_NEG else o.tok) = TokType.star
        ∧ false = true then TK_DEREF
        else if o.tok = TokType.minus ∧ false = true then TK_NEG else o.tok) = o.tok := by
      simp
    simp only [this]
    simp [ih]

/-! ## Theorems: precedence -/

/-- The rewriting pass of `expr` changes no token of `x0 o1 x1 o2 x2 ...`. -/
theorem unaryPass_dec_chain (x : List Char) (rest : List (BinOp × List Char)) :
    unaryPass none (⟨TK_DECIMAL, x⟩ :: chainTokens rest) = ⟨TK_DECIMAL, x⟩ :: chainTokens rest := by
  simp [unaryPass, unaryPass_chain]

/-- The evaluator on five tokens `x0 o1 x1 o2 x2` when the main operator is
`o1` and then `o2`. -/
theorem eval_five_right (R : List Char → Int × Bool) (M : Int → Int → Int)
    (t0 t1 t2 t3 t4 : Token) (k1 k2 : Nat)
    (h0 : t0.type = TK_DECIMAL) (h2 : t2.type = TK_DECIMAL) (h4 : t4.type = TK_DECIMAL)
    (hm1 : findMainOp [t0, t1, t2, t3, t4] 0 4 = .ret (some (k1, 1))) (hk1 : k1 ≠ 0)
    (hm2 : findMainOp [t0, t1, t2, t3, t4] 2 4 = .ret (some (k2, 3))) (hk2 : k2 ≠ 0) :
    eval R M [t0, t1, t2, t3, t4] 6 0 4
      = (binop t3.type (toInt32 (atoi t2.str)) (toInt32 (atoi t4.str))).bind (fun v =>
          binop t1.type (toInt32 (atoi t0.str)) (toInt32 v)) := by
  have hc1 : check_parentheses [t0, t1, t2, t3, t4] 0 4 = .ret false := by
    simp [check_parentheses, tokAt, h0]
  have hc2 : check_parentheses [t0, t1, t2, t3, t4] 2 4 = .ret false := by
    simp [check_parentheses, tokAt, h2]
  rw [eval_binary R M _ 5 0 4 k1 1 0 2 (by decide) hc1 hm1 hk1 (by decide) (by decide)]
  rw [eval_single_dec R M _ 4 0 (by simpa [tokAt] using h0)]
  rw [eval_binary R M _ 4 2 4 k2 3 2 4 (by decide) hc2 hm2 hk2 (by decide) (by decide)]
  rw [eval_single_dec R M _ 3 2 (by simpa [tokAt] using h2)]
  rw [eval_single_dec R M _ 3 4 (by simpa [tokAt] using h4)]
  simp only [Res.ret_bind]
  rfl

/-- The evaluator on five tokens `x0 o1 x1 o2 x2` when the main operator is
`o2` and then `o1`. -/
theorem eval_five_left (R : List Char → Int × Bool) (M : Int → Int → Int)
    (t0 t1 t2 t3 t4 : Token) (k1 k2 : Nat)
    (h0 : t0.type = TK_DECIMAL) (h2 : t2.type = TK_DECIMAL) (h4 : t4.type = TK_DECIMAL)
    (hm1 : findMainOp [t0, t1, t2, t3, t4] 0 4 = .ret (some (k1, 3))) (hk1 : k1 ≠ 0)
    (hm2 : findMainOp [t0, t1, t2, t3, t4] 0 2 = .ret (some (k2, 1))) (hk2 : k2 ≠ 0) :
    eval R M [t0, t1, t2, t3, t4] 6 0 4
      = (binop t1.type (toInt32 (atoi t0.str)) (toInt32 (atoi t2.str))).bind (fun v =>
          binop t3.type (toInt32 v) (toInt32 (atoi t4.str))) := by
  have hc1 : check_parentheses [t0, t1, t2, t3, t4] 0 4 = .ret false := by
    simp [check_parentheses, tokAt, h0]
  have hc2 : check_parentheses [t0, t1, t2, t3, t4] 0 2 = .ret false := by
    simp [check_parentheses, tokAt, h0]
  rw [eval_binary R M _ 5 0 4 k1 3 2 4 (by decide) hc1 hm1 hk1 (by decide) (by decide)]
  rw [eval_binary R M _ 4 0 2 k2 1 0 2 (by decide) hc2 hm2 hk2 (by decide) (by decide)]
  rw [eval_single_dec R M _ 3 0 (by simpa [tokAt] using h0)]
  rw [eval_single_dec R M _ 3 2 (by simpa [tokAt] using h2)]
  rw [eval_single_dec R M _ 4 4 (by simpa [tokAt] using h4)]
  simp only [Res.ret_bind]
  rfl

/-- The evaluator on the four tokens of `-x*y`. -/
theorem eval_neg_mul (R : List Char → Int × Bool) (M : Int → Int → Int)
    (s0 x s2 y : List Char) :
    eval R M [⟨TK_NEG, s0⟩, ⟨TK_DECIMAL, x⟩, ⟨.star, s2⟩, ⟨TK_DECIMAL, y⟩] 5 0 3
      = binop .star (toInt32 (toInt32 (-(toInt32 (atoi x))))) (toInt32 (atoi y)) := by
  rw [eval_binary R M [⟨TK_NEG, s0⟩, ⟨TK_DECIMAL, x⟩, ⟨.star, s2⟩, ⟨TK_DECIMAL, y⟩]
    4 0 3 1 2 1 3 (by decide) rfl rfl (by decide) (by decide) (by decide)]
  rw [eval_unary R M [⟨TK_NEG, s0⟩, ⟨TK_DECIMAL, x⟩, ⟨.star, s2⟩, ⟨TK_DECIMAL, y⟩]
    3 0 1 0 1 (by decide) rfl rfl (by decide)]
  rw [eval_single_dec R M [⟨TK_NEG, s0⟩, ⟨TK_DECIMAL, x⟩, ⟨.star, s2⟩, ⟨TK_DECIMAL, y⟩] 2 1 rfl,
    eval_single_dec R M [⟨TK_NEG, s0⟩, ⟨TK_DECIMAL, x⟩, ⟨.star, s2⟩, ⟨TK_DECIMAL, y⟩] 3 3 rfl]
  rfl

/-- The tokens of `-a*b`. -/
theorem make_token_neg_mul (a b : List Char) (ha : IsDecLit a) (hb : IsDecLit b) :
    make_token ('-' :: a ++ '*' :: b)
      = .ok [⟨.minus, ['-']⟩, ⟨TK_DECIMAL, a⟩, ⟨.star, ['*']⟩, ⟨TK_DECIMAL, b⟩] := by
  obtain ⟨ha1, ha2, ha3, -⟩ := ha
  obtain ⟨hb1, hb2, hb3, -⟩ := hb
  have he : '-' :: a ++ '*' :: b = BinOp.sub.text ++ (a ++ chainText [(BinOp.mul, b)]) := by
    simp [BinOp.text, chainText]
  rw [he]
  have h1 := @make_token_loop_emit (BinOp.sub.text ++ (a ++ chainText [(BinOp.mul, b)])) 0 []
    BinOp.sub.text (a ++ chainText [(BinOp.mul, b)]) .minus rfl (firstMatch_op .sub _)
    (by decide) (by decide) (by decide)
  have h2 := make_token_loop_chain (BinOp.sub.text ++ (a ++ chainText [(BinOp.mul, b)]))
    [(BinOp.mul, b)] (0 + BinOp.sub.text.length) ([] ++ [⟨.minus, BinOp.sub.text⟩]) a h1.2
    ha1 ha2 ha3 (by simpa using ⟨hb1, hb2, hb3⟩) (by simp)
  have h3 := h1.1.trans h2
  simpa [make_token, chainTokens, BinOp.text, BinOp.tok] using h3

/-- C1: precedence. For decimal literals `a`, `b`, `c` and binary operators
`lo`, `hi` with `lo` of a strictly lower-binding level than `hi`, `expr` on
`a lo b hi c` returns `a lo (b hi c)` and on `a hi b lo c` returns
`(a hi b) lo c`, and on `-a*b` it returns `(-a)*b`, in each case provided no
divisor is zero and no intermediate result leaves the range of `int`; the flag
is left as it was. -/
theorem expr_precedence (R : List Char → Int × Bool) (M : Int → Int → Int)
    (a b c : List Char) (lo hi : BinOp) (success : Bool)
    (ha : IsDecLit a) (hb : IsDecLit b) (hc : IsDecLit c) (hlev : hi.level < lo.level) :
    ((hi = .div → decimalValue c ≠ 0) →
      inInt (hi.apply (decimalValue b) (decimalValue c)) →
      inInt (lo.apply (decimalValue a) (hi.apply (decimalValue b) (decimalValue c))) →
      expr R M (a ++ lo.text ++ b ++ hi.text ++ c) success
        = (.ret (lo.apply (decimalValue a) (hi.apply (decimalValue b) (decimalValue c))),
            success))
    ∧ ((hi = .div → decimalValue b ≠ 0) →
      inInt (hi.apply (decimalValue a) (decimalValue b)) →
      inInt (lo.apply (hi.apply (decimalValue a) (decimalValue b)) (decimalValue c)) →
      expr R M (a ++ hi.text ++ b ++ lo.text ++ c) success
        = (.ret (lo.apply (hi.apply (decimalValue a) (decimalValue b)) (decimalValue c)),
            success))
    ∧ (inInt (-(decimalValue a : Int) * (decimalValue b : Int)) →
      expr R M ('-' :: a ++ '*' :: b) success
        = (.ret (-(decimalValue a : Int) * (decimalValue b : Int)), success)) := by
  have hA := atoi_dec a ha.1 ha.2.1 ha.2.2.2
  have hB := atoi_dec b hb.1 hb.2.1 hb.2.2.2
  have hC := atoi_dec c hc.1 hc.2.1 hc.2.2.2
  have hAi := toInt32_of_inInt ha.inInt
  have hBi := toInt32_of_inInt hb.inInt
  have hCi := toInt32_of_inInt hc.inInt
  have hlo : lo ≠ .div := by
    intro h; subst h; cases hi <;> simp [BinOp.level] at hlev
  have hlit : ∀ x : List Char, IsDecLit x → x ≠ [] ∧ (∀ c ∈ x, isDec c = true) ∧ x.length < 32 :=
    fun x hx => ⟨hx.1, hx.2.1, hx.2.2.1⟩
  refine ⟨?_, ?_, ?_⟩
  · intro hdiv hr1 hr2
    have hlex : make_token (a ++ lo.text ++ b ++ hi.text ++ c)
        = .ok (⟨TK_DECIMAL, a⟩ :: chainTokens [(lo, b), (hi, c)]) := by
      have := make_token_chain a [(lo, b), (hi, c)] ha.1 ha.2.1 ha.2.2.1
        (by simpa using ⟨hlit b hb, hlit c hc⟩) (by simp)
      simpa [chainText, List.append_assoc] using this
    simp only [expr, hlex, unaryPass_dec_chain]
    simp only [chainTokens, List.length_cons, List.length_nil]
    have hev : eval R M [⟨TK_DECIMAL, a⟩, ⟨lo.tok, lo.text⟩, ⟨TK_DECIMAL, b⟩, ⟨hi.tok, hi.text⟩,
        ⟨TK_DECIMAL, c⟩] 6 0 4
        = (binop hi.tok (toInt32 (atoi b)) (toInt32 (atoi c))).bind (fun v =>
            binop lo.tok (toInt32 (atoi a)) (toInt32 v)) := by
      refine eval_five_right R M _ _ _ _ _ lo.level hi.level rfl rfl rfl ?_ ?_ ?_ ?_
      · cases lo <;> cases hi <;> simp [BinOp.level] at hlev <;> rfl
      · cases lo <;> simp [BinOp.level]
      · cases hi <;> rfl
      · cases hi <;> simp [BinOp.level]
    have hq : ((0 + 1 + 1 + 1 + 1 + 1 : Nat) : Int) - 1 = 4 := by decide
    rw [hq]
    rw [hev, hA, hB, hC, hAi, hBi, hCi, binop_apply hi _ _ (by simpa using hdiv) hr1]
    simp only [Res.ret_bind, toInt32_of_inInt hr1]
    rw [binop_apply lo _ _ (fun h => absurd h hlo) hr2]
  · intro hdiv hr1 hr2
    have hlex : make_token (a ++ hi.text ++ b ++ lo.text ++ c)
        = .ok (⟨TK_DECIMAL, a⟩ :: chainTokens [(hi, b), (lo, c)]) := by
      have := make_token_chain a [(hi, b), (lo, c)] ha.1 ha.2.1 ha.2.2.1
        (by simpa using ⟨hlit b hb, hlit c hc⟩) (by simp)
      simpa [chainText, List.append_assoc] using this
    simp only [expr, hlex, unaryPass_dec_chain]
    simp only [chainTokens, List.length_cons, List.length_nil]
    have hev : eval R M [⟨TK_DECIMAL, a⟩, ⟨hi.tok, hi.text⟩, ⟨TK_DECIMAL, b⟩, ⟨lo.tok, lo.text⟩,
        ⟨TK_DECIMAL, c⟩] 6 0 4
        = (binop hi.tok (toInt32 (atoi a)) (toInt32 (atoi b))).bind (fun v =>
            binop lo.tok (toInt32 v) (toInt32 (atoi c))) := by
      refine eval_five_left R M _ _ _ _ _ lo.level hi.level rfl rfl rfl ?_ ?_ ?_ ?_
      · cases lo <;> cases hi <;> simp [BinOp.level] at hlev <;> rfl
      · cases lo <;> simp [BinOp.level]
      · cases hi <;> rfl
      · cases hi <;> simp [BinOp.level]
    have hq : ((0 + 1 + 1 + 1 + 1 + 1 : Nat) : Int) - 1 = 4 := by decide
    rw [hq]
    rw [hev, hA, hB, hC, hAi, hBi, hCi, binop_apply hi _ _ (by simpa using hdiv) hr1]
    simp only [Res.ret_bind, toInt32_of_inInt hr1]
    rw [binop_apply lo _ _ (fun h => absurd h hlo) hr2]
  · intro hr
    simp only [expr, make_token_neg_mul a b ha hb]
    have hup : unaryPass none [⟨.minus, ['-']⟩, ⟨TK_DECIMAL, a⟩, ⟨.star, ['*']⟩, ⟨TK_DECIMAL, b⟩]
        = [⟨TK_NEG, ['-']⟩, ⟨TK_DECIMAL, a⟩, ⟨.star, ['*']⟩, ⟨TK_DECIMAL, b⟩] := by
      simp [unaryPass, require_unary_op]
    rw [hup]
    simp only [List.length_cons, List.length_nil]
    have hq : ((0 + 1 + 1 + 1 + 1 : Nat) : Int) - 1 = 3 := by decide
    rw [hq]
    rw [eval_neg_mul R M ['-'] a ['*'] b]
    have hnA : inInt (-(decimalValue a : Int)) := by
      have := ha.inInt
      have hnn : (0 : Int) ≤ (decimalValue a : Int) := Int.natCast_nonneg _
      simp only [inInt, INT_MIN, INT_MAX] at this ⊢
      omega
    simp only [hA, hB, hAi, hBi, toInt32_of_inInt hnA]
    have := binop_apply .mul (-(decimalValue a : Int)) (decimalValue b) (by simp) hr
    simpa [BinOp.tok, BinOp.apply] using this

/-- Witness of C1: `2+3*4` gives 14 and `2*3+4` gives 10, `1==1&&0` gives 0,
`1!=2||0` gives 1, `-2*3` gives -6. -/
theorem expr_precedence_witness :
    expr noRegs demoMem "2+3*4".toList true = (.ret 14, true)
    ∧ expr noRegs demoMem "2*3+4".toList true = (.ret 10, true)
    ∧ expr noRegs demoMem "-2*3".toList true = (.ret (-6), true)
    ∧ expr noRegs demoMem "1==1&&0".toList true = (.ret 0, true)
    ∧ expr noRegs demoMem "1!=2||0".toList true = (.ret 1, true) :=
  have h1 := expr_precedence noRegs demoMem "2".toList "3".toList "4".toList .add .mul true
    ⟨by decide, by decide, by decide, by decide⟩ ⟨by decide, by decide, by decide, by decide⟩
    ⟨by decide, by decide, by decide, by decide⟩ (by decide)
  have h2 := expr_precedence noRegs demoMem "1".toList "1".toList "0".toList .land .eq true
    ⟨by decide, by decide, by decide, by decide⟩ ⟨by decide, by decide, by decide, by decide⟩
    ⟨by decide, by decide, by decide, by decide⟩ (by decide)
  have h3 := expr_precedence noRegs demoMem "1".toList "2".toList "0".toList .lor .ne true
    ⟨by decide, by decide, by decide, by decide⟩ ⟨by decide, by decide, by decide, by decide⟩
    ⟨by decide, by decide, by decide, by decide⟩ (by decide)
  ⟨h1.1 (by decide) (by decide) (by decide),
   h1.2.1 (by decide) (by decide) (by decide),
   h1.2.2 (by decide),
   h2.2.1 (by decide) (by decide) (by decide),
   h3.2.1 (by decide) (by decide) (by decide)⟩

/-! ## Theorems: the operator scan on a chain of one level -/

/-- The scan loop, one more round at the end. -/
theorem scanLoop_succ (tokens : List Token) (n : Nat) :
    ∀ (i : Int) (st : OpScan),
      scanLoop tokens (n + 1) i st
        = (scanLoop tokens n i st).bind (fun st' => scanToken tokens st' (i + n)) := by
  induction n with
  | zero =>
    intro i st
    simp only [scanLoop, Res.bind]
    simp only [Nat.cast_zero, add_zero]
    cases scanToken tokens st i <;> rfl
  | succ n ih =>
    intro i st
    rw [scanLoop]
    cases hs : scanToken tokens st i with
    | ret st' =>
      simp only
      rw [ih (i + 1) st']
      conv_rhs => rw [scanLoop]
      simp only [hs]
      have : i + 1 + (n : Int) = i + ((n + 1 : Nat) : Int) := by push_cast; ring
      rw [this]
    | abort => simp [scanLoop, hs, Res.bind]
    | undefined => simp [scanLoop, hs, Res.bind]
    | fuelOut => simp [scanLoop, hs, Res.bind]

/-- The tokens of `o1 x1 o2 x2 ...` by index. -/
theorem chainTokens_getD (L : List (BinOp × List Char)) :
    ∀ (i : Nat) (o : BinOp) (x : List Char) (d : Token), L[i]? = some (o, x) →
      (chainTokens L).getD (2 * i) d = ⟨o.tok, o.text⟩
        ∧ (chainTokens L).getD (2 * i + 1) d = ⟨TK_DECIMAL, x⟩ := by
  induction L with
  | nil => intro i o x d h; simp at h
  | cons y L ih =>
    intro i o x d h
    obtain ⟨o', x'⟩ := y
    cases i with
    | zero =>
      simp only [List.getElem?_cons_zero, Option.some.injEq, Prod.mk.injEq] at h
      obtain ⟨rfl, rfl⟩ := h
      simp [chainTokens]
    | succ i =>
      simp only [List.getElem?_cons_succ] at h
      have := ih i o x d h
      have e1 : 2 * (i + 1) = 2 * i + 1 + 1 := by ring
      have e2 : 2 * (i + 1) + 1 = 2 * i + 1 + 1 + 1 := by ring
      simp only [chainTokens, e1, e2, List.getD_cons_succ]
      exact this

/-- The tokens of `x0 o1 x1 o2 x2 ...` by index. -/
theorem tokAt_chain (x0 : List Char) (L : List (BinOp × List Char)) (i : Nat) (o : BinOp)
    (x : List Char) (h : L[i]? = some (o, x)) :
    tokAt (⟨TK_DECIMAL, x0⟩ :: chainTokens L) 0 = ⟨TK_DECIMAL, x0⟩
      ∧ tokAt (⟨TK_DECIMAL, x0⟩ :: chainTokens L) (2 * (i : Int) + 1) = ⟨o.tok, o.text⟩
      ∧ tokAt (⟨TK_DECIMAL, x0⟩ :: chainTokens L) (2 * (i : Int) + 2) = ⟨TK_DECIMAL, x⟩ := by
  obtain ⟨h1, h2⟩ := chainTokens_getD L i o x ⟨TK_NOTYPE, []⟩ h
  refine ⟨rfl, ?_, ?_⟩
  · have : (2 * (i : Int) + 1).toNat = 2 * i + 1 := by omega
    simp only [tokAt, this, List.getD_cons_succ]
    exact h1
  · have : (2 * (i : Int) + 2).toNat = 2 * i + 1 + 1 := by omega
    simp only [tokAt, this, List.getD_cons_succ]
    exact h2

/-- The rows of the scan after `m` operators of level `lev` at the odd
positions. -/
theorem scanLoop_chain (x0 : List Char) (L : List (BinOp × List Char)) (lev : Nat) (m : Nat) :
    m ≤ 10 → m ≤ L.length → (∀ i, i < m → ∀ o x, L[i]? = some (o, x) → o.level = lev) →
      scanLoop (⟨TK_DECIMAL, x0⟩ :: chainTokens L) (2 * m + 1) 0 ⟨fun _ => [], 0⟩
        = .ret ⟨fun j => if j = lev then (List.range m).map (fun (i : Nat) => 2 * (i : Int) + 1) else [],
            0⟩ := by
  induction m with
  | zero =>
    intro _ _ _
    simp [scanLoop, scanToken, tokAt]
  | succ m ih =>
    intro h10 hlen hlev
    have hm := ih (by omega) (by omega) (fun i hi => hlev i (by omega))
    have e : 2 * (m + 1) + 1 = 2 * m + 1 + 1 + 1 := by ring
    rw [e, scanLoop_succ, scanLoop_succ, hm]
    simp only [Res.ret_bind]
    obtain ⟨y, hy⟩ : ∃ y, L[m]? = some y := by
      rw [List.getElem?_eq_getElem (by omega)]
      exact ⟨_, rfl⟩
    obtain ⟨o, x⟩ := y
    obtain ⟨-, t1, t2⟩ := tokAt_chain x0 L m o x hy
    have hl := hlev m (by omega) o x hy
    have p1 : (0 : Int) + ((2 * m + 1 : Nat) : Int) = 2 * (m : Int) + 1 := by push_cast; ring
    have p2 : (0 : Int) + ((2 * m + 1 + 1 : Nat) : Int) = 2 * (m : Int) + 2 := by
      push_cast; ring
    rw [p1, p2]
    have hrec : scanToken (⟨TK_DECIMAL, x0⟩ :: chainTokens L)
        ⟨fun j => if j = lev then (List.range m).map (fun (i : Nat) => 2 * (i : Int) + 1) else [], 0⟩
        (2 * (m : Int) + 1)
        = .ret ⟨fun j => if j = lev then (List.range (m + 1)).map (fun (i : Nat) => 2 * (i : Int) + 1)
            else [], 0⟩ := by
      have hlt : m < 10 := by omega
      have hrow : ∀ k : Nat, k = lev →
          recordOp ⟨fun j => if j = lev then (List.range m).map (fun (i : Nat) => 2 * (i : Int) + 1)
            else [], 0⟩ k (2 * (m : Int) + 1)
          = .ret ⟨fun j => if j = lev then (List.range (m + 1)).map (fun (i : Nat) => 2 * (i : Int) + 1)
            else [], 0⟩ := by
        intro k hk
        subst hk
        simp only [recordOp, if_true, List.length_map, List.length_range, hlt]
        congr 2
        funext j
        by_cases hj : j = k
        · simp [hj, List.range_succ]
        · simp [hj]
      simp only [scanToken, t1]
      cases o <;> simp only [BinOp.tok, BinOp.level] at hl ⊢ <;>
        simp only [reduceCtorEq, if_false, if_true] <;> exact hrow _ hl
    rw [hrec]
    simp only [Res.ret_bind]
    simp [scanToken, t2]

/-- The main operator of a chain of `m >= 1` operators of one binary level is
the last one. -/
theorem findMainOp_chain (x0 : List Char) (L : List (BinOp × List Char)) (lev : Nat) (m : Nat)
    (h10 : m + 1 ≤ 10) (hlen : m + 1 ≤ L.length)
    (hlev : ∀ i, i < m + 1 → ∀ o x, L[i]? = some (o, x) → o.level = lev) :
    findMainOp (⟨TK_DECIMAL, x0⟩ :: chainTokens L) 0 (2 * (m : Int) + 2)
      = .ret (some (lev, 2 * (m : Int) + 1)) := by
  have hn : ((2 * (m : Int) + 2) + 1 - 0).toNat = 2 * (m + 1) + 1 := by omega
  simp only [findMainOp, hn, scanLoop_chain x0 L lev (m + 1) h10 hlen hlev]
  obtain ⟨y, hy⟩ : ∃ y, L[m]? = some y := by
    rw [List.getElem?_eq_getElem (by omega)]
    exact ⟨_, rfl⟩
  obtain ⟨o, x⟩ := y
  have hl := hlev m (by omega) o x hy
  have hlast : ∀ (k : Nat) (l : List Int) (a : Int),
      (match l ++ [a] with
        | [] => (none : Option (Nat × Int))
        | z :: zs => some (k, zs.getLast?.getD z)) = some (k, a) := by
    intro k l a
    cases l with
    | nil => simp
    | cons z zs => simp
  have hrange : (List.range (m + 1)).map (fun (i : Nat) => 2 * (i : Int) + 1)
      = (List.range m).map (fun (i : Nat) => 2 * (i : Int) + 1) ++ [2 * (m : Int) + 1] := by
    simp [List.range_succ]
  have hcases : lev = 1 ∨ lev = 2 ∨ lev = 3 ∨ lev = 4 := by
    cases o <;> simp [BinOp.level] at hl <;> omega
  rcases hcases with rfl | rfl | rfl | rfl <;>
    (simp [selectMain, hrange]; exact hlast _ _ _)

/-! ## Theorems: left associativity -/

/-- The left fold over two chains in a row. -/
theorem chainValue_append (v : Int) (l1 l2 : List (BinOp × List Char)) :
    chainValue v (l1 ++ l2) = chainValue (chainValue v l1) l2 := by
  induction l1 generalizing v with
  | nil => rfl
  | cons y l1 ih =>
    obtain ⟨o, x⟩ := y
    show chainValue (o.apply v (decimalValue x)) (l1 ++ l2) = _
    rw [ih]
    rfl

/-- The range condition over two chains in a row. -/
theorem chainInRange_append (v : Int) (l1 l2 : List (BinOp × List Char)) :
    chainInRange v (l1 ++ l2) ↔ chainInRange v l1 ∧ chainInRange (chainValue v l1) l2 := by
  induction l1 generalizing v with
  | nil => simp [chainInRange, chainValue]
  | cons y l1 ih =>
    obtain ⟨o, x⟩ := y
    show ((o = .div → decimalValue x ≠ 0) ∧ inInt (o.apply v (decimalValue x))
        ∧ chainInRange (o.apply v (decimalValue x)) (l1 ++ l2))
      ↔ ((o = .div → decimalValue x ≠ 0) ∧ inInt (o.apply v (decimalValue x))
        ∧ chainInRange (o.apply v (decimalValue x)) l1)
        ∧ chainInRange (chainValue (o.apply v (decimalValue x)) l1) l2
    rw [ih]
    tauto

/-- Under the range condition the left fold is an `int`. -/
theorem chainValue_inInt (v : Int) (l : List (BinOp × List Char)) (hv : inInt v)
    (h : chainInRange v l) : inInt (chainValue v l) := by
  induction l generalizing v with
  | nil => exact hv
  | cons y l ih =>
    obtain ⟨o, x⟩ := y
    simp only [chainInRange] at h
    exact ih _ h.2.1 h.2.2

/-- The evaluator on the first `m` operators of a chain of one binary level:
the left fold. -/
theorem eval_chain (R : List Char → Int × Bool) (M : Int → Int → Int) (x0 : List Char)
    (L : List (BinOp × List Char)) (lev : Nat) (hx0 : IsDecLit x0) (m : Nat) :
    m ≤ 10 → m ≤ L.length →
    (∀ i, i < m → ∀ o x, L[i]? = some (o, x) → o.level = lev ∧ IsDecLit x) →
    chainInRange (decimalValue x0) (L.take m) →
    ∀ fuel, m + 1 ≤ fuel →
      eval R M (⟨TK_DECIMAL, x0⟩ :: chainTokens L) fuel 0 (2 * (m : Int))
        = .ret (chainValue (decimalValue x0) (L.take m)) := by
  induction m with
  | zero =>
    intro _ _ _ _ fuel hf
    obtain ⟨f, rfl⟩ : ∃ f, fuel = f + 1 := ⟨fuel - 1, by omega⟩
    have := eval_single_dec R M (⟨TK_DECIMAL, x0⟩ :: chainTokens L) f 0 rfl
    simp only [Nat.cast_zero, mul_zero, List.take_zero, chainValue]
    rw [this]
    have ht : tokAt (⟨TK_DECIMAL, x0⟩ :: chainTokens L) 0 = ⟨TK_DECIMAL, x0⟩ := rfl
    rw [ht, atoi_dec x0 hx0.1 hx0.2.1 hx0.2.2.2]
  | succ m ih =>
    intro h10 hlen hL hrange fuel hf
    obtain ⟨f, rfl⟩ : ∃ f, fuel = f + 1 := ⟨fuel - 1, by omega⟩
    obtain ⟨y, hy⟩ : ∃ y, L[m]? = some y := by
      rw [List.getElem?_eq_getElem (by omega)]
      exact ⟨_, rfl⟩
    obtain ⟨o, x⟩ := y
    obtain ⟨t0, t1, t2⟩ := tokAt_chain x0 L m o x hy
    obtain ⟨hol, hx⟩ := hL m (by omega) o x hy
    have htake : L.take (m + 1) = L.take m ++ [(o, x)] := by
      rw [List.take_succ, hy]
      rfl
    rw [htake, chainInRange_append] at hrange
    obtain ⟨hr1, hr2⟩ := hrange
    simp only [chainInRange, and_true] at hr2
    have hq : 2 * ((m + 1 : Nat) : Int) = 2 * (m : Int) + 2 := by push_cast; ring
    have hcp : check_parentheses (⟨TK_DECIMAL, x0⟩ :: chainTokens L) 0 (2 * (m : Int) + 2)
        = .ret false := by
      simp [check_parentheses, t0]
    have hmain := findMainOp_chain x0 L lev m h10 hlen
      (fun i hi o' x' h' => (hL i hi o' x' h').1)
    have hlev0 : lev ≠ 0 := by
      cases o <;> simp [BinOp.level] at hol <;> omega
    rw [hq, eval_binary R M _ f 0 (2 * (m : Int) + 2) lev (2 * (m : Int) + 1) (2 * (m : Int))
      (2 * (m : Int) + 2) (by omega) hcp hmain hlev0 (by ring) (by ring)]
    rw [ih (by omega) (by omega) (fun i hi => hL i (by omega)) hr1 f (by omega)]
    obtain ⟨g, rfl⟩ : ∃ g, f = g + 1 := ⟨f - 1, by omega⟩
    rw [eval_single_dec R M _ g (2 * (m : Int) + 2) (by rw [t2])]
    simp only [Res.ret_bind, t1, t2]
    have hv1 := chainValue_inInt _ _ hx0.inInt hr1
    rw [atoi_dec x hx.1 hx.2.1 hx.2.2.2, toInt32_of_inInt hv1, toInt32_of_inInt hx.inInt,
      binop_apply o _ _ (fun h => by exact_mod_cast hr2.1 h) hr2.2, htake, chainValue_append]
    rfl

/-- C2: left associativity. For a decimal literal `x0` followed by at most 10
operators of one binary level, each with a decimal literal, every literal
fitting the token text (fewer than 32 characters) and of a value that an
`int` holds (at most `INT_MAX`), `expr` returns the left fold
`((x0 o1 x1) o2 x2) ...`, provided no divisor is zero and no intermediate
result leaves the range of `int`; the flag is left as it was. -/
theorem expr_left_assoc (R : List Char → Int × Bool) (M : Int → Int → Int) (x0 : List Char)
    (rest : List (BinOp × List Char)) (lev : Nat) (success : Bool)
    (h10 : rest.length ≤ 10) (hx0 : IsDecLit x0)
    (hrest : ∀ y ∈ rest, y.1.level = lev ∧ IsDecLit y.2)
    (hrange : chainInRange (decimalValue x0) rest) :
    expr R M (x0 ++ chainText rest) success
      = (.ret (chainValue (decimalValue x0) rest), success) := by
  have hlex := make_token_chain x0 rest hx0.1 hx0.2.1 hx0.2.2.1
    (fun y hy => ⟨(hrest y hy).2.1, (hrest y hy).2.2.1, (hrest y hy).2.2.2.1⟩) (by omega)
  simp only [expr, hlex, unaryPass_dec_chain]
  have hlenT : (chainTokens rest).length = 2 * rest.length := by
    clear hlex hrange hrest h10
    induction rest with
    | nil => rfl
    | cons y rest ih =>
      obtain ⟨o, x⟩ := y
      simp only [chainTokens, List.length_cons, ih]
      ring
  have hq : (((⟨TK_DECIMAL, x0⟩ :: chainTokens rest : List Token).length : Nat) : Int) - 1
      = 2 * (rest.length : Int) := by
    simp only [List.length_cons, hlenT]
    push_cast
    ring
  rw [hq]
  have := eval_chain R M x0 rest lev hx0 rest.length h10 (le_refl _)
    (fun i hi o x h => hrest (o, x) (List.getElem?_mem h))
    (by simpa using hrange)
    ((⟨TK_DECIMAL, x0⟩ :: chainTokens rest : List Token).length + 1)
    (by simp only [List.length_cons, hlenT]; omega)
  rw [this, List.take_length]

/-- Witness of C2: `10-3-2` gives 5, and `100/5/2*3` gives 30. -/
theorem expr_left_assoc_witness :
    expr noRegs demoMem "10-3-2".toList true = (.ret 5, true)
    ∧ expr noRegs demoMem "100/5/2*3".toList true = (.ret 30, true) :=
  ⟨expr_left_assoc noRegs demoMem "10".toList [(.sub, "3".toList), (.sub, "2".toList)] 2 true
      (by decide) (by decide) (by decide)
      ⟨by decide, by decide, by decide, by decide, trivial⟩,
   expr_left_assoc noRegs demoMem "100".toList
      [(.div, "5".toList), (.div, "2".toList), (.mul, "3".toList)] 1 true
      (by decide) (by decide) (by decide)
      ⟨by decide, by decide, by decide, by decide, by decide, by decide, trivial⟩⟩

/-- Counterexample to C2 as written, which puts no bound on the literals or on
the results: `4294967296-1` gives -1 where the left fold is 4294967295, because
`atoi` returns an `int`; `2147483647+1` gives -2147483648 where the left fold
is 2147483648, because the operands and the sum are `int`s; and `1/0` gives no
value, because the division is by zero. -/
theorem expr_left_assoc_counterexample :
    ("4294967296-1".toList = "4294967296".toList ++ chainText [(.sub, "1".toList)]
      ∧ chainValue (decimalValue "4294967296".toList) [(.sub, "1".toList)] = 4294967295
      ∧ expr noRegs demoMem "4294967296-1".toList true = (.ret (-1), true)
      ∧ expr noRegs demoMem "4294967296-1".toList true
          ≠ (.ret (chainValue (decimalValue "4294967296".toList) [(.sub, "1".toList)]), true))
    ∧ ("2147483647+1".toList = "2147483647".toList ++ chainText [(.add, "1".toList)]
      ∧ chainValue (decimalValue "2147483647".toList) [(.add, "1".toList)] = 2147483648
      ∧ expr noRegs demoMem "2147483647+1".toList true = (.ret (-2147483648), true)
      ∧ expr noRegs demoMem "2147483647+1".toList true
          ≠ (.ret (chainValue (decimalValue "2147483647".toList) [(.add, "1".toList)]), true))
    ∧ ("1/0".toList = "1".toList ++ chainText [(.div, "0".toList)]
      ∧ expr noRegs demoMem "1/0".toList true = (.undefined, true)
      ∧ expr noRegs demoMem "1/0".toList true
          ≠ (.ret (chainValue (decimalValue "1".toList) [(.div, "0".toList)]), true)) := by
  refine ⟨⟨by decide, by decide, by decide, by decide⟩,
    ⟨by decide, by decide, by decide, by decide⟩, ⟨by decide, by decide, by decide⟩⟩

/-! ## Theorems: ranges with unbalanced parentheses -/

/-- The counting loop of `check_parentheses` adds to its start value. -/
theorem parenCountLoop_acc (tokens : List Token) (n : Nat) :
    ∀ (i c : Int), parenCountLoop tokens n i c = c + parenCountLoop tokens n i 0 := by
  induction n with
  | zero => intro i c; simp [parenCountLoop]
  | succ n ih =>
    intro i c
    simp only [parenCountLoop]
    split
    · rw [ih (i + 1) (c + 1), ih (i + 1) (0 + 1)]; ring
    · split
      · rw [ih (i + 1) (c - 1), ih (i + 1) (0 - 1)]; ring
      · rw [ih (i + 1) c]

/-- The counting loop over two ranges in a row. -/
theorem parenCountLoop_add (tokens : List Token) (n1 n2 : Nat) :
    ∀ (i : Int), parenCountLoop tokens (n1 + n2) i 0
      = parenCountLoop tokens n1 i 0 + parenCountLoop tokens n2 (i + n1) 0 := by
  induction n1 with
  | zero => intro i; simp [parenCountLoop]
  | succ n1 ih =>
    intro i
    have e : n1 + 1 + n2 = (n1 + n2) + 1 := by omega
    have e2 : i + ((n1 + 1 : Nat) : Int) = i + 1 + (n1 : Int) := by push_cast; ring
    rw [e, e2]
    simp only [parenCountLoop]
    split
    · rw [parenCountLoop_acc tokens (n1 + n2), parenCountLoop_acc tokens n1 (i + 1) (0 + 1),
        ih (i + 1)]
      ring
    · split
      · rw [parenCountLoop_acc tokens (n1 + n2), parenCountLoop_acc tokens n1 (i + 1) (0 - 1),
          ih (i + 1)]
        ring
      · rw [ih (i + 1)]

/-- The count of a single token. -/
theorem parenCountLoop_one (tokens : List Token) (i : Int) :
    parenCountLoop tokens 1 i 0
      = if (tokAt tokens i).type = lparen then 1
        else if (tokAt tokens i).type = rparen then -1 else 0 := by
  simp only [parenCountLoop]
  split
  · rfl
  · split <;> rfl

/-- The body of the scan loop never runs out of fuel. -/
theorem scanToken_ne_fuelOut (tokens : List Token) (st : OpScan) (i : Int) :
    scanToken tokens st i ≠ .fuelOut := by
  unfold scanToken
  split
  · simp
  · split
    · simp
    · split
      · split <;> first | (simp only [recordOp]; split <;> simp) | simp
      · simp

/-- The scan loop never runs out of fuel. -/
theorem scanLoop_ne_fuelOut (tokens : List Token) (n : Nat) :
    ∀ (i : Int) (st : OpScan), scanLoop tokens n i st ≠ .fuelOut := by
  induction n with
  | zero => intro i st; simp [scanLoop]
  | succ n ih =>
    intro i st
    simp only [scanLoop]
    cases hs : scanToken tokens st i with
    | ret st' => exact ih _ _
    | abort => simp
    | undefined => simp
    | fuelOut => exact absurd hs (scanToken_ne_fuelOut _ _ _)

/-- What the scan has recorded after `n` tokens from `p`: the depth is the
count of the parentheses, and every recorded position lies in the range, at
depth 0, and is no parenthesis. -/
theorem scanLoop_inv (tokens : List Token) (p : Int) (n : Nat) :
    ∀ st, scanLoop tokens n p ⟨fun _ => [], 0⟩ = .ret st →
      st.paren_count = parenCountLoop tokens n p 0
      ∧ ∀ k x, x ∈ st.op_priority k →
          p ≤ x ∧ x < p + n ∧ parenCountLoop tokens (x - p).toNat p 0 = 0
            ∧ (tokAt tokens x).type ≠ lparen ∧ (tokAt tokens x).type ≠ rparen := by
  induction n with
  | zero =>
    intro st h
    simp only [scanLoop, Res.ret.injEq] at h
    subst h
    simp [parenCountLoop]
  | succ n ih =>
    intro st h
    rw [scanLoop_succ] at h
    cases hs : scanLoop tokens n p ⟨fun _ => [], 0⟩ with
    | ret st0 =>
      rw [hs, Res.ret_bind] at h
      obtain ⟨hpc, hrows⟩ := ih st0 hs
      have hcount : parenCountLoop tokens (n + 1) p 0
          = parenCountLoop tokens n p 0
            + (if (tokAt tokens (p + n)).type = lparen then 1
                else if (tokAt tokens (p + n)).type = rparen then -1 else 0) := by
        rw [parenCountLoop_add, parenCountLoop_one]
      have hold : ∀ k x, x ∈ st0.op_priority k →
          p ≤ x ∧ x < p + ((n + 1 : Nat) : Int) ∧ parenCountLoop tokens (x - p).toNat p 0 = 0
            ∧ (tokAt tokens x).type ≠ lparen ∧ (tokAt tokens x).type ≠ rparen := by
        intro k x hx
        obtain ⟨h1, h2, h3⟩ := hrows k x hx
        refine ⟨h1, ?_, h3⟩
        push_cast
        omega
      have hrec : ∀ k, (tokAt tokens (p + n)).type ≠ lparen →
          (tokAt tokens (p + n)).type ≠ rparen → st0.paren_count = 0 →
          recordOp st0 k (p + n) = .ret st →
          st.paren_count = parenCountLoop tokens (n + 1) p 0
          ∧ ∀ k x, x ∈ st.op_priority k →
              p ≤ x ∧ x < p + ((n + 1 : Nat) : Int)
                ∧ parenCountLoop tokens (x - p).toNat p 0 = 0
                ∧ (tokAt tokens x).type ≠ lparen ∧ (tokAt tokens x).type ≠ rparen := by
        intro k hl hr h0 hrec
        simp only [recordOp] at hrec
        split at hrec
        · simp only [Res.ret.injEq] at hrec
          subst hrec
          refine ⟨?_, ?_⟩
          · simp only [hcount, hl, hr, if_false, add_zero]
            exact hpc
          · intro k' x hx
            simp only at hx
            split at hx
            · simp only [List.mem_append, List.mem_singleton] at hx
              rcases hx with hx | rfl
              · exact hold k x hx
              · refine ⟨by omega, by push_cast; omega, ?_, hl, hr⟩
                have : (p + (n : Int) - p).toNat = n := by omega
                rw [this, ← hpc, h0]
            · exact hold k' x hx
        · simp at hrec
      unfold scanToken at h
      split at h
      · rename_i hl
        simp only [Res.ret.injEq] at h
        subst h
        refine ⟨?_, hold⟩
        simp only [hcount, hl, if_true, hpc]
      · rename_i hl
        split at h
        · rename_i hr
          simp only [Res.ret.injEq] at h
          subst h
          refine ⟨?_, hold⟩
          simp only [hcount, hr, reduceCtorEq, if_true, if_false, hpc]
          ring
        · rename_i hr
          split at h
          · rename_i h0
            split at h
            all_goals first
              | exact hrec _ hl hr h0 h
              | (simp only [Res.ret.injEq] at h
                 subst h
                 refine ⟨?_, hold⟩
                 simp only [hcount, hl, hr, if_false, add_zero]
                 exact hpc)
              | (simp at h; done)
          · simp only [Res.ret.injEq] at h
            subst h
            refine ⟨?_, hold⟩
            simp only [hcount, hl, hr, if_false, add_zero]
            exact hpc
    | abort => rw [hs] at h; simp [Res.bind] at h
    | undefined => rw [hs] at h; simp [Res.bind] at h
    | fuelOut => rw [hs] at h; simp [Res.bind] at h

/-- The last element of a non-empty list is in the list. -/
theorem getLastD_mem (l : List Int) : ∀ x : Int, l.getLastD x ∈ x :: l := by
  induction l with
  | nil => intro x; simp
  | cons y ys ih =>
    intro x
    have := ih y
    simp only [List.getLastD_cons]
    exact List.mem_cons_of_mem _ this

/-- The main operator is a recorded position. -/
theorem selectMain_mem (op_priority : Nat → List Int) (n : Nat) (k : Nat) (m : Int)
    (h : selectMain op_priority n = some (k, m)) : m ∈ op_priority k := by
  induction n with
  | zero => simp [selectMain] at h
  | succ n ih =>
    simp only [selectMain] at h
    cases hrow : op_priority n with
    | nil =>
      rw [hrow] at h
      exact ih h
    | cons x xs =>
      rw [hrow] at h
      simp only at h
      split at h
      · simp only [Option.some.injEq, Prod.mk.injEq] at h
        obtain ⟨rfl, rfl⟩ := h
        rw [hrow]
        exact getLastD_mem xs x
      · simp only [Option.some.injEq, Prod.mk.injEq] at h
        obtain ⟨rfl, rfl⟩ := h
        rw [hrow]
        simp

/-- The main operator of a range lies in the range, at depth 0, and is no
parenthesis. -/
theorem findMainOp_some {tokens : List Token} {p q : Int} {k : Nat} {m : Int}
    (hpq : p ≤ q) (h : findMainOp tokens p q = .ret (some (k, m))) :
    p ≤ m ∧ m ≤ q ∧ parenCountLoop tokens (m - p).toNat p 0 = 0
      ∧ (tokAt tokens m).type ≠ lparen ∧ (tokAt tokens m).type ≠ rparen := by
  unfold findMainOp at h
  cases hs : scanLoop tokens (q + 1 - p).toNat p ⟨fun _ => [], 0⟩ with
  | ret st =>
    rw [hs] at h
    simp only [Res.ret.injEq] at h
    obtain ⟨-, hrows⟩ := scanLoop_inv tokens p _ st hs
    obtain ⟨h1, h2, h3⟩ := hrows k m (selectMain_mem _ _ _ _ h)
    have : ((q + 1 - p).toNat : Int) = q + 1 - p := by omega
    refine ⟨h1, by omega, h3⟩
  | abort => rw [hs] at h; simp at h
  | undefined => rw [hs] at h; simp at h
  | fuelOut => rw [hs] at h; simp at h

/-- The scan and the choice of the main operator never run out of fuel. -/
theorem findMainOp_ne_fuelOut (tokens : List Token) (p q : Int) :
    findMainOp tokens p q ≠ .fuelOut := by
  unfold findMainOp
  cases hs : scanLoop tokens (q + 1 - p).toNat p ⟨fun _ => [], 0⟩ with
  | ret st => simp
  | abort => simp
  | undefined => simp
  | fuelOut => exact absurd hs (scanLoop_ne_fuelOut _ _ _ _)

/-- The count of the parentheses of a range, split at a position. -/
theorem parenCountLoop_split (tokens : List Token) (p m q : Int) (h1 : p ≤ m) (h2 : m ≤ q) :
    parenCountLoop tokens (q + 1 - p).toNat p 0
      = parenCountLoop tokens (m - p).toNat p 0 + parenCountLoop tokens 1 m 0
        + parenCountLoop tokens (q + 1 - (m + 1)).toNat (m + 1) 0 := by
  have e : (q + 1 - p).toNat = (m - p).toNat + (1 + (q + 1 - (m + 1)).toNat) := by omega
  rw [e, parenCountLoop_add, parenCountLoop_add]
  have e1 : p + (((m - p).toNat : Nat) : Int) = m := by omega
  have e2 : m + ((1 : Nat) : Int) = m + 1 := by simp
  rw [e1, e2]
  ring

/-- The `switch` on a unary operator never runs out of fuel. -/
theorem unop_ne_fuelOut (M : Int → Int → Int) (ty : TokType) (v : Int) :
    unop M ty v ≠ .fuelOut := by
  cases ty <;> simp [unop]

/-- The `switch` on a binary operator never runs out of fuel. -/
theorem binop_ne_fuelOut (ty : TokType) (v1 v2 : Int) : binop ty v1 v2 ≠ .fuelOut := by
  cases ty <;> simp only [binop] <;> first | (simp; done) | (split_ifs <;> simp)

/-- The function `check_parentheses` returns or fails its assertion. -/
theorem check_parentheses_cases (tokens : List Token) (p q : Int) :
    check_parentheses tokens p q = .ret false
      ∨ (check_parentheses tokens p q = .ret true
          ∧ parenCountLoop tokens (q + 1 - p).toNat p 0 = 0)
      ∨ check_parentheses tokens p q = .abort := by
  unfold check_parentheses
  split
  · left; rfl
  · simp only
    split
    · rename_i h
      right; left; exact ⟨rfl, h⟩
    · right; right; rfl

/-- With fuel for every token of the range and one more, `eval` does not run
out of fuel. -/
theorem eval_ne_fuelOut (R : List Char → Int × Bool) (M : Int → Int → Int)
    (tokens : List Token) (fuel : Nat) :
    ∀ (p q : Int), (q + 1 - p).toNat + 1 ≤ fuel → eval R M tokens fuel p q ≠ .fuelOut := by
  induction fuel with
  | zero => intro p q h; omega
  | succ f ih =>
    intro p q hf
    by_cases h1 : p > q
    · simp [eval, h1]
    by_cases h2 : p = q
    · subst h2
      simp only [eval, h1, if_false, if_true]
      split <;> first | (simp; done) | (split <;> simp)
    simp only [eval, h1, h2, if_false]
    rcases check_parentheses_cases tokens p q with hc | ⟨hc, -⟩ | hc
    · rw [hc]
      simp only
      cases hm : findMainOp tokens p q with
      | ret r =>
        cases r with
        | none => simp
        | some km =>
          obtain ⟨k, m⟩ := km
          obtain ⟨hm1, hm2, -⟩ := findMainOp_some (by omega) hm
          simp only
          by_cases hk : k = 0
          · simp only [hk, if_true]
            have := ih (m + 1) q (by omega)
            cases he : eval R M tokens f (m + 1) q with
            | ret v => exact unop_ne_fuelOut _ _ _
            | abort => simp
            | undefined => simp
            | fuelOut => exact absurd he this
          · simp only [hk, if_false]
            have hl := ih p (m - 1) (by omega)
            have hr := ih (m + 1) q (by omega)
            cases he : eval R M tokens f p (m - 1) with
            | ret v1 =>
              simp only
              cases he2 : eval R M tokens f (m + 1) q with
              | ret v2 => exact binop_ne_fuelOut _ _ _
              | abort => simp
              | undefined => simp
              | fuelOut => exact absurd he2 hr
            | abort => simp
            | undefined => simp
            | fuelOut => exact absurd he hl
      | abort => simp
      | undefined => simp
      | fuelOut => exact absurd hm (findMainOp_ne_fuelOut _ _ _)
    · rw [hc]
      exact ih (p + 1) (q - 1) (by omega)
    · rw [hc]
      simp

/-- A range whose parentheses do not balance: `eval` does not return, it ends
in a failed assertion or in undefined behaviour. -/
theorem eval_unbalanced (R : List Char → Int × Bool) (M : Int → Int → Int)
    (tokens : List Token) (fuel : Nat) :
    ∀ (p q : Int), (q + 1 - p).toNat + 1 ≤ fuel →
      parenCountLoop tokens (q + 1 - p).toNat p 0 ≠ 0 →
      eval R M tokens fuel p q = .abort ∨ eval R M tokens fuel p q = .undefined := by
  induction fuel with
  | zero => intro p q h; omega
  | succ f ih =>
    intro p q hf hbal
    by_cases h1 : p > q
    · simp [eval, h1]
    by_cases h2 : p = q
    · subst h2
      have e : (p + 1 - p).toNat = 1 := by omega
      rw [e, parenCountLoop_one] at hbal
      simp only [eval, h1, if_false, if_true]
      by_cases hl : (tokAt tokens p).type = lparen
      · simp [hl]
      · by_cases hr : (tokAt tokens p).type = rparen
        · simp [hr]
        · simp [hl, hr] at hbal
    simp only [eval, h1, h2, if_false]
    rcases check_parentheses_cases tokens p q with hc | ⟨-, hc⟩ | hc
    · rw [hc]
      simp only
      cases hm : findMainOp tokens p q with
      | ret r =>
        cases r with
        | none => simp
        | some km =>
          obtain ⟨k, m⟩ := km
          obtain ⟨hm1, hm2, hm3, hm4, hm5⟩ := findMainOp_some (by omega) hm
          have hsplit := parenCountLoop_split tokens p m q hm1 hm2
          rw [hm3, parenCountLoop_one] at hsplit
          simp only [hm4, hm5, if_false, zero_add] at hsplit
          have hright := ih (m + 1) q (by omega) (by rw [← hsplit]; exact hbal)
          simp only
          by_cases hk : k = 0
          · simp only [hk, if_true]
            rcases hright with he | he <;> simp [he]
          · simp only [hk, if_false]
            have hl := eval_ne_fuelOut R M tokens f p (m - 1) (by omega)
            cases he : eval R M tokens f p (m - 1) with
            | ret v1 =>
              simp only
              rcases hright with he2 | he2 <;> simp [he2]
            | abort => simp
            | undefined => simp
            | fuelOut => exact absurd he hl
      | abort => simp
      | undefined => simp
      | fuelOut => exact absurd hm (findMainOp_ne_fuelOut _ _ _)
    · exact absurd hc hbal
    · rw [hc]
      simp

/-- Reading past the first token. -/
theorem tokAt_cons_succ (t : Token) (ts : List Token) (i : Int) (hi : 0 ≤ i) :
    tokAt (t :: ts) (i + 1) = tokAt ts i := by
  have e : (i + 1).toNat = i.toNat + 1 := by omega
  simp [tokAt, e]

/-- The counting loop past the first token. -/
theorem parenCountLoop_cons (t : Token) (ts : List Token) (n : Nat) :
    ∀ (i c : Int), 0 ≤ i →
      parenCountLoop (t :: ts) n (i + 1) c = parenCountLoop ts n i c := by
  induction n with
  | zero => intro i c _; simp [parenCountLoop]
  | succ n ih =>
    intro i c hi
    simp only [parenCountLoop, tokAt_cons_succ t ts i hi]
    rw [ih (i + 1) (c + 1) (by omega), ih (i + 1) (c - 1) (by omega), ih (i + 1) c (by omega)]

/-- Over the whole array the counting loop ends with the number of `(` less
the number of `)`. -/
theorem parenCountLoop_countP (tokens : List Token) :
    parenCountLoop tokens tokens.length 0 0
      = (tokens.countP (fun t => decide (t.type = lparen)) : Int)
        - (tokens.countP (fun t => decide (t.type = rparen)) : Int) := by
  induction tokens with
  | nil => simp [parenCountLoop]
  | cons t ts ih =>
    have h0 : tokAt (t :: ts) 0 = t := by simp [tokAt]
    simp only [List.length_cons, parenCountLoop, h0, List.countP_cons]
    have e1 := parenCountLoop_cons t ts ts.length 0 (0 + 1) (le_refl 0)
    have e2 := parenCountLoop_cons t ts ts.length 0 (0 - 1) (le_refl 0)
    have e3 := parenCountLoop_cons t ts ts.length 0 0 (le_refl 0)
    rw [e1, e2, e3, parenCountLoop_acc ts ts.length 0 (0 + 1),
      parenCountLoop_acc ts ts.length 0 (0 - 1), ih]
    by_cases hl : t.type = lparen
    · simp [hl]
      ring
    · by_cases hr : t.type = rparen
      · simp [hr]
        ring
      · simp [hl, hr]

/-- The rewriting loop of `expr` keeps the number of tokens. -/
theorem unaryPass_length (tokens : List Token) :
    ∀ prev, (unaryPass prev tokens).length = tokens.length := by
  induction tokens with
  | nil => intro prev; simp [unaryPass]
  | cons t ts ih => intro prev; simp [unaryPass, ih]

/-- One step of the rewriting loop of `expr` changes only a `-` or a `*`. -/
theorem unaryStep_type (ty a : TokType) (first : Bool) (h1 : ty ≠ TK_NEG) (h2 : ty ≠ TK_DEREF)
    (h3 : ty ≠ minus) (h4 : ty ≠ star) :
    ((if (if a = minus ∧ first = true then TK_NEG else a) = star ∧ first = true then TK_DEREF
        else (if a = minus ∧ first = true then TK_NEG else a)) = ty) ↔ a = ty := by
  by_cases ha : a = minus
  · subst ha
    cases first <;> simp [Ne.symm h3, Ne.symm h1]
  · by_cases hb : a = star
    · subst hb
      cases first <;> simp [Ne.symm h4, Ne.symm h2]
    · simp [ha, hb]

/-- The rewriting loop of `expr` leaves every parenthesis in place and makes
none. -/
theorem unaryPass_countP (ty : TokType) (h1 : ty ≠ TK_NEG) (h2 : ty ≠ TK_DEREF)
    (h3 : ty ≠ minus) (h4 : ty ≠ star) (tokens : List Token) :
    ∀ prev, (unaryPass prev tokens).countP (fun t => decide (t.type = ty))
      = tokens.countP (fun t => decide (t.type = ty)) := by
  induction tokens with
  | nil => intro prev; simp [unaryPass]
  | cons t ts ih =>
    intro prev
    simp only [unaryPass, List.countP_cons, ih]
    congr 1
    simp only [unaryStep_type ty t.type _ h1 h2 h3 h4]

/-- C5: for every input that `make_token` tokenizes and whose number of `(`
tokens differs from its number of `)` tokens, `expr` does not report an error:
it leaves the flag as the caller passed it and returns no value, because the
run ends in a failed assertion (process abort), or in undefined behaviour when
evaluation first meets a division by zero, the division `INT_MIN / -1` or an
eleventh operator of one level. -/
theorem expr_unbalanced_parens (R : List Char → Int × Bool) (M : Int → Int → Int)
    (e : List Char) (success : Bool) (tokens : List Token)
    (htok : make_token e = .ok tokens)
    (hcount : tokens.countP (fun t => decide (t.type = lparen))
      ≠ tokens.countP (fun t => decide (t.type = rparen))) :
    (expr R M e success).2 = success
      ∧ ((expr R M e success).1 = .abort ∨ (expr R M e success).1 = .undefined) := by
  simp only [expr, htok, true_and]
  have hlen := unaryPass_length tokens none
  have hbal := parenCountLoop_countP (unaryPass none tokens)
  rw [unaryPass_countP lparen (by decide) (by decide) (by decide) (by decide),
    unaryPass_countP rparen (by decide) (by decide) (by decide) (by decide), hlen] at hbal
  have hne : parenCountLoop (unaryPass none tokens) tokens.length 0 0 ≠ 0 := by
    rw [hbal]
    intro h
    apply hcount
    omega
  have e1 : ((tokens.length : Int) - 1 + 1 - 0).toNat = tokens.length := by omega
  exact eval_unbalanced R M (unaryPass none tokens) (tokens.length + 1) 0
    ((tokens.length : Int) - 1) (by omega) (by rw [e1]; exact hne)

/-- Witness of C5: `(1+2`, `((1+2)` and `1+2)` each tokenize, and each ends in
a crash with the flag as it was. -/
theorem expr_unbalanced_parens_witness :
    ((expr noRegs demoMem "(1+2".toList true).2 = true
      ∧ ((expr noRegs demoMem "(1+2".toList true).1 = .abort
        ∨ (expr noRegs demoMem "(1+2".toList true).1 = .undefined))
    ∧ ((expr noRegs demoMem "((1+2)".toList true).2 = true
      ∧ ((expr noRegs demoMem "((1+2)".toList true).1 = .abort
        ∨ (expr noRegs demoMem "((1+2)".toList true).1 = .undefined))
    ∧ ((expr noRegs demoMem "1+2)".toList true).2 = true
      ∧ ((expr noRegs demoMem "1+2)".toList true).1 = .abort
        ∨ (expr noRegs demoMem "1+2)".toList true).1 = .undefined)) :=
  ⟨expr_unbalanced_parens noRegs demoMem "(1+2".toList true
      [⟨lparen, ['(']⟩, ⟨TK_DECIMAL, ['1']⟩, ⟨plus, ['+']⟩, ⟨TK_DECIMAL, ['2']⟩]
      (by decide) (by decide),
   expr_unbalanced_parens noRegs demoMem "((1+2)".toList true
      [⟨lparen, ['(']⟩, ⟨lparen, ['(']⟩, ⟨TK_DECIMAL, ['1']⟩, ⟨plus, ['+']⟩,
        ⟨TK_DECIMAL, ['2']⟩, ⟨rparen, [')']⟩]
      (by decide) (by decide),
   expr_unbalanced_parens noRegs demoMem "1+2)".toList true
      [⟨TK_DECIMAL, ['1']⟩, ⟨plus, ['+']⟩, ⟨TK_DECIMAL, ['2']⟩, ⟨rparen, [')']⟩]
      (by decide) (by decide)⟩

/-- Counterexample to C5 as written: `(1+2`, `((1+2)` and `1+2)` each tokenize
with unequal numbers of `(` and `)`, and on each of them `expr` ends in a failed
assertion with the flag still true: no error is reported and the process
aborts. -/
theorem expr_unbalanced_parens_counterexample :
    (make_token "(1+2".toList
        = .ok [⟨lparen, ['(']⟩, ⟨TK_DECIMAL, ['1']⟩, ⟨plus, ['+']⟩, ⟨TK_DECIMAL, ['2']⟩]
      ∧ expr noRegs demoMem "(1+2".toList true = (.abort, true))
    ∧ (make_token "((1+2)".toList
        = .ok [⟨lparen, ['(']⟩, ⟨lparen, ['(']⟩, ⟨TK_DECIMAL, ['1']⟩, ⟨plus, ['+']⟩,
            ⟨TK_DECIMAL, ['2']⟩, ⟨rparen, [')']⟩]
      ∧ expr noRegs demoMem "((1+2)".toList true = (.abort, true))
    ∧ (make_token "1+2)".toList
        = .ok [⟨TK_DECIMAL, ['1']⟩, ⟨plus, ['+']⟩, ⟨TK_DECIMAL, ['2']⟩, ⟨rparen, [')']⟩]
      ∧ expr noRegs demoMem "1+2)".toList true = (.abort, true)) := by
  refine ⟨⟨?_, ?_⟩, ⟨?_, ?_⟩, ⟨?_, ?_⟩⟩ <;> decide

/-! ## Theorems: allocation from the pool -/

/-- The pool after `init_wp_pool`, whatever the storage held before. -/
theorem init_wp_pool_allocated (st0 : Pool) : Allocated 0 (init_wp_pool st0) := by
  refine ⟨rfl, rfl, fun i => rfl, fun i => ?_⟩
  simp only [init_wp_pool, Nat.not_lt_zero, if_false]
  by_cases h : i.val = NR_WP - 1
  · simp [h]
  · simp only [h, if_false, Option.map_some']
    congr 1
    rw [Fin.val_add_one_of_lt]
    have hi := i.isLt
    have hN : NR_WP = 32 := rfl
    exact Fin.lt_iff_val_lt_val.mpr (by simp at h ⊢; omega)

/-- One allocation from a pool with a free record: `new_wp` returns the record
`j`, and it is the new head. -/
theorem new_wp_allocated {j : Nat} {st : Pool} (h : Allocated j st) (hj : j < NR_WP) :
    ∃ st1 wp, new_wp st = .ret (st1, wp) ∧ new_wp_globals st = st1 ∧ wp.val = j
      ∧ Allocated (j + 1) st1
      ∧ st1.nemu_state = st.nemu_state
      ∧ (∀ i, (st1.wp_pool i).expr = (st.wp_pool i).expr)
      ∧ (∀ i, (st1.wp_pool i).val = (st.wp_pool i).val)
      ∧ (∀ i, (st1.wp_pool i).old_val = (st.wp_pool i).old_val) := by
  have hf := h.free_eq
  simp only [Nat.ne_of_lt hj, if_false] at hf
  obtain ⟨wp, hwp, hval⟩ := Option.map_eq_some'.mp hf
  refine ⟨{ st with
      wp_pool := setWP st.wp_pool wp { st.wp_pool wp with next := st.head }
      head := some wp
      free_ := (st.wp_pool wp).next }, wp, by simp only [new_wp, hwp],
    by simp only [new_wp_globals, hwp], hval, ?_, rfl, ?_, ?_, ?_⟩
  · refine ⟨?_, ?_, ?_, ?_⟩
    · simp [hval]
    · have := h.next_eq wp
      simp only [hval, lt_irrefl, if_false] at this
      simp only [this]
      have hN : NR_WP = 32 := rfl
      by_cases h31 : j = NR_WP - 1
      · simp [h31]
      · have : j + 1 ≠ NR_WP := by omega
        simp only [h31, this, if_false]
    · intro i
      simp only [setWP]
      split
      · rename_i hi; subst hi; exact h.NO_eq _
      · exact h.NO_eq i
    · intro i
      simp only [setWP]
      split
      · rename_i hi
        subst hi
        simp only [hval, Nat.lt_succ_self, if_true]
        exact h.head_eq
      · rename_i hi
        have hne : i.val ≠ j := fun e => hi (Fin.ext (e.trans hval.symm))
        rw [h.next_eq i]
        by_cases hlt : i.val < j
        · simp [hlt, Nat.lt_succ_of_lt hlt]
        · have : ¬ i.val < j + 1 := by omega
          simp [hlt, this]
  · intro i; simp only [setWP]; split
    · rename_i hi; subst hi; rfl
    · rfl
  · intro i; simp only [setWP]; split
    · rename_i hi; subst hi; rfl
    · rfl
  · intro i; simp only [setWP]; split
    · rename_i hi; subst hi; rfl
    · rfl

/-- The walk from `head` meets the allocated records, the last allocated
first. -/
theorem walk_active {j : Nat} {st : Pool} (h : Allocated j st) :
    ∀ (n : Nat) (curr : Option (Fin NR_WP)) (fuel : Nat), n ≤ j →
      curr.map Fin.val = (if n = 0 then none else some (n - 1)) → n + 1 ≤ fuel →
      ∃ A, walk st.wp_pool fuel curr = some A ∧ A.map Fin.val = (List.range n).reverse := by
  intro n
  induction n with
  | zero =>
    intro curr fuel _ hc hf
    obtain ⟨f, rfl⟩ : ∃ f, fuel = f + 1 := ⟨fuel - 1, by omega⟩
    simp only [if_true, Option.map_eq_none'] at hc
    subst hc
    exact ⟨[], rfl, rfl⟩
  | succ n ih =>
    intro curr fuel hn hc hf
    obtain ⟨f, rfl⟩ : ∃ f, fuel = f + 1 := ⟨fuel - 1, by omega⟩
    simp only [Nat.succ_ne_zero, if_false, Nat.add_sub_cancel] at hc
    obtain ⟨c, rfl, hval⟩ := Option.map_eq_some'.mp hc
    have hnext := h.next_eq c
    rw [hval] at hnext
    have hlt : n < j := by omega
    simp only [hlt, if_true] at hnext
    obtain ⟨A, hA, hAv⟩ := ih (st.wp_pool c).next f (by omega) hnext (by omega)
    refine ⟨c :: A, by simp only [walk, hA, Option.map_some'], ?_⟩
    simp only [List.map_cons, hval, hAv, List.range_succ, List.reverse_append,
      List.reverse_cons, List.reverse_nil, List.nil_append, List.singleton_append]

/-- The walk from `free_` meets the records not yet allocated, in index
order. -/
theorem walk_free {j : Nat} {st : Pool} (h : Allocated j st) :
    ∀ (d m : Nat) (curr : Option (Fin NR_WP)) (fuel : Nat), m + d = NR_WP → j ≤ m →
      curr.map Fin.val = (if m = NR_WP then none else some m) → d + 1 ≤ fuel →
      ∃ F, walk st.wp_pool fuel curr = some F ∧ F.map Fin.val = List.range' m d := by
  have hN : NR_WP = 32 := rfl
  intro d
  induction d with
  | zero =>
    intro m curr fuel hm _ hc hf
    obtain ⟨f, rfl⟩ : ∃ f, fuel = f + 1 := ⟨fuel - 1, by omega⟩
    have hm' : m = NR_WP := by omega
    simp only [hm', if_true, Option.map_eq_none'] at hc
    subst hc
    exact ⟨[], rfl, rfl⟩
  | succ d ih =>
    intro m curr fuel hm hjm hc hf
    obtain ⟨f, rfl⟩ : ∃ f, fuel = f + 1 := ⟨fuel - 1, by omega⟩
    have hm' : m ≠ NR_WP := by omega
    simp only [hm', if_false] at hc
    obtain ⟨c, rfl, hval⟩ := Option.map_eq_some'.mp hc
    have hnext := h.next_eq c
    rw [hval] at hnext
    have hlt : ¬ m < j := by omega
    simp only [hlt, if_false] at hnext
    have hnext' : Option.map Fin.val (st.wp_pool c).next
        = if m + 1 = NR_WP then none else some (m + 1) := by
      rw [hnext]
      by_cases h31 : m = NR_WP - 1
      · have : m + 1 = NR_WP := by omega
        rw [if_pos h31, if_pos this]
      · have : m + 1 ≠ NR_WP := by omega
        rw [if_neg h31, if_neg this]
    obtain ⟨F, hF, hFv⟩ := ih (m + 1) (st.wp_pool c).next f (by omega) (by omega) hnext'
      (by omega)
    refine ⟨c :: F, by simp only [walk, hF, Option.map_some'], ?_⟩
    simp only [List.map_cons, hval, hFv, List.range'_succ]

/-- The two lists of a pool after `j` allocations in a row. -/
theorem allocated_lists {j : Nat} {st : Pool} (h : Allocated j st) (hj : j ≤ NR_WP) :
    ∃ A F, activeList st = some A ∧ A.map Fin.val = (List.range j).reverse
      ∧ freeList st = some F ∧ F.map Fin.val = List.range' j (NR_WP - j) := by
  obtain ⟨A, hA, hAv⟩ := walk_active h j st.head (NR_WP + 1) (le_refl j) h.head_eq (by omega)
  obtain ⟨F, hF, hFv⟩ := walk_free h (NR_WP - j) j st.free_ (NR_WP + 1) (by omega) (le_refl j)
    h.free_eq (by omega)
  exact ⟨A, F, hA, hAv, hF, hFv⟩

/-- Allocations in a row succeed while a record is free. -/
theorem new_wps_allocated :
    ∀ (n j : Nat) (st : Pool), Allocated j st → j + n ≤ NR_WP →
      ∃ st1, new_wps n st = .ret st1 ∧ Allocated (j + n) st1
        ∧ st1.nemu_state = st.nemu_state
        ∧ (∀ i, (st1.wp_pool i).expr = (st.wp_pool i).expr)
        ∧ (∀ i, (st1.wp_pool i).val = (st.wp_pool i).val)
        ∧ (∀ i, (st1.wp_pool i).old_val = (st.wp_pool i).old_val) := by
  intro n
  induction n with
  | zero => intro j st h _; exact ⟨st, rfl, h, rfl, fun _ => rfl, fun _ => rfl, fun _ => rfl⟩
  | succ n ih =>
    intro j st h hj
    obtain ⟨st1, wp, h1, -, -, h2, h3, h4, h5, h6⟩ := new_wp_allocated h (by omega)
    obtain ⟨st2, g1, g2, g3, g4, g5, g6⟩ := ih (j + 1) st1 h2 (by omega)
    refine ⟨st2, by simp only [new_wps, h1, Res.bind, g1], ?_, g3.trans h3,
      fun i => (g4 i).trans (h4 i), fun i => (g5 i).trans (h5 i),
      fun i => (g6 i).trans (h6 i)⟩
    have e : j + (n + 1) = j + 1 + n := by omega
    rw [e]
    exact g2

/-- An allocation too many: the run fails the assertion of `new_wp`. -/
theorem new_wps_exhausted :
    ∀ (n j : Nat) (st : Pool), Allocated j st → j ≤ NR_WP → NR_WP < j + n →
      new_wps n st = .abort := by
  have hN : NR_WP = 32 := rfl
  intro n
  induction n with
  | zero => intro j st _ h1 h2; omega
  | succ n ih =>
    intro j st h h1 h2
    by_cases hj : j < NR_WP
    · obtain ⟨st1, wp, g1, -, -, g2, -⟩ := new_wp_allocated h hj
      simp only [new_wps, g1, Res.bind]
      exact ih (j + 1) st1 g2 (by omega) (by omega)
    · have hj' : j = NR_WP := by omega
      have hf := h.free_eq
      simp only [hj', if_true, Option.map_eq_none'] at hf
      simp only [new_wps, new_wp, hf, Res.bind]

/-- C12: after `init_wp_pool`, whatever the storage held before, every number
`k <= 32` of calls of `new_wp` in a row returns; after 32 of them the active
list holds the 32 records and the free list is empty, a further call fails the
assertion of `new_wp`, and a call on any pool whose free list is empty fails
that assertion with the globals (the 32 records with all their fields, `head`
and `free_`) as they were before the call. -/
theorem new_wp_exhaustion (st0 : Pool) :
    (∀ k, k ≤ NR_WP → ∃ st, new_wps k (init_wp_pool st0) = .ret st
        ∧ (st.free_ = none ↔ k = NR_WP))
    ∧ (∃ st A, new_wps NR_WP (init_wp_pool st0) = .ret st
        ∧ activeList st = some A ∧ A.map Fin.val = (List.range NR_WP).reverse
        ∧ freeList st = some []
        ∧ new_wp st = .abort ∧ new_wp_globals st = st)
    ∧ new_wps (NR_WP + 1) (init_wp_pool st0) = .abort
    ∧ (∀ st : Pool, st.free_ = none → new_wp st = .abort ∧ new_wp_globals st = st) := by
  have hN : NR_WP = 32 := rfl
  have hlast : ∀ st : Pool, st.free_ = none → new_wp st = .abort ∧ new_wp_globals st = st := by
    intro st hf
    simp only [new_wp, new_wp_globals, hf, and_self]
  refine ⟨?_, ?_, ?_, hlast⟩
  · intro k hk
    obtain ⟨st, h1, h2, -⟩ := new_wps_allocated k 0 _ (init_wp_pool_allocated st0) (by omega)
    refine ⟨st, h1, ?_⟩
    have hf := h2.free_eq
    rw [Nat.zero_add] at hf
    constructor
    · intro hnone
      by_contra hne
      rw [hnone, if_neg hne] at hf
      simp at hf
    · intro hk'
      rw [if_pos hk'] at hf
      exact Option.map_eq_none'.mp hf
  · obtain ⟨st, h1, h2, -⟩ := new_wps_allocated NR_WP 0 _ (init_wp_pool_allocated st0) (by omega)
    rw [Nat.zero_add] at h2
    obtain ⟨A, F, hA, hAv, hF, hFv⟩ := allocated_lists h2 (le_refl _)
    have hf := h2.free_eq
    simp only [if_true, Option.map_eq_none'] at hf
    have hFnil : F = [] := by
      simpa using hFv
    rw [hFnil] at hF
    exact ⟨st, A, h1, hA, hAv, hF, hlast st hf⟩
  · exact new_wps_exhausted (NR_WP + 1) 0 _ (init_wp_pool_allocated st0) (by omega) (by omega)

/-! ## Theorems: creation and listing of watchpoints -/

/-- One call of `set_wp` that returns: the record `j` is the new head and holds
the expression and its value as an `int`. -/
theorem set_wp_allocated (R : List Char → Int × Bool) (M : Int → Int → Int)
    {j : Nat} {st : Pool} (h : Allocated j st) (hj : j < NR_WP) (a : List Char)
    (hfit : a.length < 32) (v : Int) (hret : (expr R M a true).1 = .ret v) :
    ∃ st1 wp, set_wp R M (some a) st = .ret (st1, (expr R M a true).2) ∧ wp.val = j
      ∧ Allocated (j + 1) st1
      ∧ (st1.wp_pool wp).expr = a ∧ (st1.wp_pool wp).val = toInt32 v
      ∧ (∀ i, i ≠ wp → (st1.wp_pool i).expr = (st.wp_pool i).expr
          ∧ (st1.wp_pool i).val = (st.wp_pool i).val) := by
  obtain ⟨st1, wp, h1, -, h2, h3, -, h4, h5, -⟩ := new_wp_allocated h hj
  have hex : expr R M a true = (.ret v, (expr R M a true).2) := by
    rw [← hret]
  refine ⟨{ st1 with
      wp_pool := setWP st1.wp_pool wp ({ st1.wp_pool wp with expr := a, val := toInt32 v }) },
    wp, ?_, h2, ?_, ?_, ?_, ?_⟩
  · simp only [set_wp, h1, hfit, if_true]
    rw [hex]
  · refine ⟨h3.head_eq, h3.free_eq, ?_, ?_⟩
    · intro i
      simp only [setWP]
      split
      · rename_i hi; subst hi; exact h3.NO_eq _
      · exact h3.NO_eq i
    · intro i
      simp only [setWP]
      split
      · rename_i hi; subst hi; exact h3.next_eq _
      · exact h3.next_eq i
  · simp [setWP]
  · simp [setWP]
  · intro i hi
    simp only [setWP, hi, if_false]
    exact ⟨h4 i, h5 i⟩

/-- Calls of `set_wp` in a row that each return: the records are taken in index
order and hold the expressions in the order of creation. -/
theorem set_wps_allocated (R : List Char → Int × Bool) (M : Int → Int → Int) :
    ∀ (es : List (List Char)) (j : Nat) (st : Pool), Allocated j st →
      j + es.length ≤ NR_WP →
      (∀ e ∈ es, e.length < 32 ∧ ∃ v, (expr R M e true).1 = .ret v) →
      ∃ st1, set_wps R M es st = .ret st1 ∧ Allocated (j + es.length) st1
        ∧ (∀ i : Fin NR_WP, i.val < j → (st1.wp_pool i).expr = (st.wp_pool i).expr
            ∧ (st1.wp_pool i).val = (st.wp_pool i).val)
        ∧ (∀ i : Fin NR_WP, j ≤ i.val → i.val < j + es.length →
            (st1.wp_pool i).expr = es.getD (i.val - j) []
            ∧ ∀ v, (expr R M (es.getD (i.val - j) []) true).1 = .ret v →
                (st1.wp_pool i).val = toInt32 v) := by
  intro es
  induction es with
  | nil =>
    intro j st h _ _
    exact ⟨st, rfl, h, fun _ _ => ⟨rfl, rfl⟩, fun i h1 h2 => by simp at h2; omega⟩
  | cons a rest ih =>
    intro j st h hlen hes
    simp only [List.length_cons] at hlen
    obtain ⟨hfit, v, hv⟩ := hes a (by simp)
    obtain ⟨st1, wp, g1, g2, g3, g4, g5, g6⟩ := set_wp_allocated R M h (by omega) a hfit v hv
    obtain ⟨st2, k1, k2, k3, k4⟩ := ih (j + 1) st1 g3 (by omega)
      (fun e he => hes e (by simp [he]))
    refine ⟨st2, by simp only [set_wps, g1, Res.bind, k1], ?_, ?_, ?_⟩
    · have e : j + (rest.length + 1) = j + 1 + rest.length := by omega
      simp only [List.length_cons]
      rw [e]
      exact k2
    · intro i hi
      have hne : i ≠ wp := fun e => by rw [e, g2] at hi; omega
      exact ⟨((k3 i (by omega)).1).trans (g6 i hne).1, ((k3 i (by omega)).2).trans (g6 i hne).2⟩
    · intro i hi1 hi2
      simp only [List.length_cons] at hi2
      by_cases hij : i.val = j
      · have hiw : i = wp := Fin.ext (hij.trans g2.symm)
        subst hiw
        have e0 : i.val - j = 0 := by omega
        simp only [e0, List.getD_cons_zero]
        refine ⟨((k3 i (by omega)).1).trans g4, ?_⟩
        intro w hw
        rw [hv] at hw
        cases hw
        exact ((k3 i (by omega)).2).trans g5
      · obtain ⟨d, hd⟩ : ∃ d, i.val - j = d + 1 := ⟨i.val - j - 1, by omega⟩
        have hd' : i.val - (j + 1) = d := by omega
        have := k4 i (by omega) (by omega)
        rw [hd'] at this
        simp only [hd, List.getD_cons_succ]
        exact this

/-- A list read at all its indices in order. -/
theorem range_map_getD (es : List (List Char)) :
    (List.range es.length).map (fun n => es.getD n []) = es := by
  apply List.ext_getElem
  · simp
  · intro n h1 h2
    simp only [List.getElem_map, List.getElem_range, List.getD_eq_getElem?_getD,
      List.getElem?_eq_getElem h2, Option.getD_some]

/-- A field of the records of a list, read through their indices. -/
theorem map_through_val {β : Type} (A : List (Fin NR_WP)) (f : Fin NR_WP → β) (g : Nat → β)
    (h : ∀ i ∈ A, f i = g i.val) : A.map f = (A.map Fin.val).map g := by
  rw [List.map_map]
  exact List.map_congr_left (fun i hi => h i hi)

/-- The conversion to `int` of a value that is an `int` already. -/
theorem toInt32_toInt32 (x : Int) : toInt32 (toInt32 x) = toInt32 x := by
  simp only [toInt32]
  omega

/-- C11: after `init_wp_pool`, whatever the storage held before, and calls of
`set_wp` on expressions `e1 .. ek` (`1 <= k <= 32`, each fitting `expr[32]` and
each evaluated to a value), the walk from `head` that `watchpoints_display`
makes visits exactly `k` records, with numbers `k-1, ..., 0` and expressions
`ek, ..., e1`; each of them shows the value of its expression as an `int`; the
free list holds the records `k .. 31` in index order; and after the single
creation of `$sp` the one listed value is the value of `expr("$sp")`. -/
theorem set_wps_listing (R : List Char → Int × Bool) (M : Int → Int → Int) (st0 : Pool)
    (es : List (List Char)) (hk1 : 1 ≤ es.length) (hk : es.length ≤ NR_WP)
    (hes : ∀ e ∈ es, e.length < 32 ∧ ∃ v, (expr R M e true).1 = .ret v) :
    ∃ st A F, set_wps R M es (init_wp_pool st0) = .ret st
      ∧ activeList st = some A
      ∧ A.length = es.length
      ∧ A.map Fin.val = (List.range es.length).reverse
      ∧ A.map (fun i => (st.wp_pool i).NO) = (List.range es.length).reverse.map Int.ofNat
      ∧ A.map (fun i => (st.wp_pool i).expr) = es.reverse
      ∧ (∀ i ∈ A, ∀ v, (expr R M (st.wp_pool i).expr true).1 = .ret v →
          (st.wp_pool i).val = toInt32 v)
      ∧ freeList st = some F
      ∧ F.map Fin.val = List.range' es.length (NR_WP - es.length)
      ∧ (es = ["$sp".toList] →
          A = [0] ∧ (expr R M "$sp".toList true).1 = .ret (st.wp_pool 0).val) := by
  obtain ⟨st, h1, h2, -, h4⟩ := set_wps_allocated R M es 0 _ (init_wp_pool_allocated st0)
    (by omega) hes
  rw [Nat.zero_add] at h2
  obtain ⟨A, F, hA, hAv, hF, hFv⟩ := allocated_lists h2 hk
  have hmem : ∀ i ∈ A, i.val < es.length := by
    intro i hi
    have : i.val ∈ A.map Fin.val := List.mem_map_of_mem _ hi
    rw [hAv] at this
    simpa using this
  have hlen : A.length = es.length := by
    have := congrArg List.length hAv
    simpa using this
  have hval : ∀ i ∈ A, ∀ v, (expr R M (st.wp_pool i).expr true).1 = .ret v →
      (st.wp_pool i).val = toInt32 v := by
    intro i hi v hv
    obtain ⟨g1, g2⟩ := h4 i (Nat.zero_le _) (by have := hmem i hi; omega)
    rw [g1] at hv
    exact g2 v hv
  refine ⟨st, A, F, h1, hA, hlen, hAv, ?_, ?_, hval, hF, hFv, ?_⟩
  · rw [map_through_val A _ (fun n => (n : Int)) (fun i _ => h2.NO_eq i), hAv]
    rfl
  · rw [map_through_val A _ (fun n => es.getD n [])
      (fun i hi => (h4 i (Nat.zero_le _) (by have := hmem i hi; omega)).1), hAv,
      List.map_reverse, range_map_getD]
  · intro hsp
    subst hsp
    have hA0 : A = [0] := by
      have h0 : A.map Fin.val = [0] := hAv
      match A, h0 with
      | [a], h0 =>
        simp only [List.map_cons, List.map_nil, List.cons.injEq, and_true] at h0
        have : a = 0 := Fin.ext h0
        rw [this]
    refine ⟨hA0, ?_⟩
    have hx : expr R M "$sp".toList true
        = (if (R ['s', 'p']).2 then .ret (toInt32 (R ['s', 'p']).1) else .ret 0, true) := rfl
    have g := hval 0 (by rw [hA0]; simp)
    have g1 := (h4 0 (Nat.zero_le _) (by simp)).1
    simp only [Fin.val_zero, Nat.sub_zero, List.getD_cons_zero] at g1
    rw [g1] at g
    rw [hx] at g ⊢
    by_cases hr : (R ['s', 'p']).2 = true
    · simp only [hr, if_true] at g ⊢
      rw [g _ rfl, toInt32_toInt32]
    · simp only [hr, if_false] at g ⊢
      rw [g _ rfl]
      rfl

/-- Witness of C11: the creations of `$sp`, `5` and `1+2` while `sp` holds 7,
and the single creation of `$sp`. -/
theorem set_wps_listing_witness :
    (∃ st A F, set_wps (spRegs 7) demoMem ["$sp".toList, "5".toList, "1+2".toList]
          (init_wp_pool (bootPool .NEMU_RUNNING)) = .ret st
      ∧ activeList st = some A
      ∧ A.length = 3
      ∧ A.map Fin.val = [2, 1, 0]
      ∧ A.map (fun i => (st.wp_pool i).NO) = [2, 1, 0]
      ∧ A.map (fun i => (st.wp_pool i).expr) = ["1+2".toList, "5".toList, "$sp".toList]
      ∧ (∀ i ∈ A, ∀ v, (expr (spRegs 7) demoMem (st.wp_pool i).expr true).1 = .ret v →
          (st.wp_pool i).val = toInt32 v)
      ∧ freeList st = some F
      ∧ F.map Fin.val = List.range' 3 29
      ∧ (["$sp".toList, "5".toList, "1+2".toList] = ["$sp".toList] →
          A = [0] ∧ (expr (spRegs 7) demoMem "$sp".toList true).1 = .ret (st.wp_pool 0).val))
    ∧ (∃ st A F, set_wps (spRegs 7) demoMem ["$sp".toList]
          (init_wp_pool (bootPool .NEMU_RUNNING)) = .ret st
      ∧ activeList st = some A
      ∧ A.length = 1
      ∧ A.map Fin.val = [0]
      ∧ A.map (fun i => (st.wp_pool i).NO) = [0]
      ∧ A.map (fun i => (st.wp_pool i).expr) = ["$sp".toList]
      ∧ (∀ i ∈ A, ∀ v, (expr (spRegs 7) demoMem (st.wp_pool i).expr true).1 = .ret v →
          (st.wp_pool i).val = toInt32 v)
      ∧ freeList st = some F
      ∧ F.map Fin.val = List.range' 1 31
      ∧ (["$sp".toList] = ["$sp".toList] →
          A = [0] ∧ (expr (spRegs 7) demoMem "$sp".toList true).1 = .ret (st.wp_pool 0).val)) :=
  ⟨set_wps_listing (spRegs 7) demoMem (bootPool .NEMU_RUNNING)
      ["$sp".toList, "5".toList, "1+2".toList] (by decide) (by decide)
      (by
        intro e he
        simp only [List.mem_cons, List.mem_singleton, List.not_mem_nil, or_false] at he
        rcases he with rfl | rfl | rfl
        · exact ⟨by decide, 7, rfl⟩
        · exact ⟨by decide, 5, rfl⟩
        · exact ⟨by decide, 3, rfl⟩),
   set_wps_listing (spRegs 7) demoMem (bootPool .NEMU_RUNNING) ["$sp".toList]
      (by decide) (by decide)
      (by
        intro e he
        simp only [List.mem_singleton] at he
        subst he
        exact ⟨by decide, 7, rfl⟩)⟩

/-! ## Theorems: the tokenizer keeps the text -/

/-- A round of the loop of `make_token` that goes on: the first matching rule
at the position, and what the round does with its match. -/
theorem make_token_step_next_inv {e : List Char} {p p' : Nat} {toks toks' : List Token}
    (h : make_token_step e p toks = .next p' toks') :
    ∃ n ty, firstMatch rules (e.drop p) = some (n, ty) ∧ p' = p + n
      ∧ ((ty = TK_NOTYPE ∧ toks' = toks)
        ∨ (ty ≠ TK_NOTYPE ∧ toks.length < 32 ∧ n < 32
            ∧ toks' = toks ++ [⟨ty, (e.drop p).take n⟩])) := by
  unfold make_token_step at h
  cases hd : e.drop p with
  | nil => rw [hd] at h; simp at h
  | cons c cs =>
    rw [hd] at h
    simp only at h
    cases hm : firstMatch rules (c :: cs) with
    | none => rw [hm] at h; simp at h
    | some r =>
      obtain ⟨n, ty⟩ := r
      rw [hm] at h
      refine ⟨n, ty, rfl, ?_⟩
      cases ty <;> simp only [] at h <;>
        first
        | (cases h; exact ⟨rfl, Or.inl ⟨rfl, rfl⟩⟩)
        | (cases h; done)
        | (split_ifs at h with h1 h2
           cases h
           exact ⟨rfl, Or.inr ⟨by simp, h1, h2, rfl⟩⟩)

/-- A round of the loop of `make_token` that returns true: the end of the
input. -/
theorem make_token_step_ok_inv {e : List Char} {p : Nat} {toks out : List Token}
    (h : make_token_step e p toks = .stop (.ok out)) : e.drop p = [] ∧ out = toks := by
  unfold make_token_step at h
  cases hd : e.drop p with
  | nil => rw [hd] at h; simp only [LexStep.stop.injEq, LexResult.ok.injEq] at h; exact ⟨rfl, h.symm⟩
  | cons c cs =>
    rw [hd] at h
    simp only at h
    cases hm : firstMatch rules (c :: cs) with
    | none => rw [hm] at h; simp at h
    | some r =>
      obtain ⟨n, ty⟩ := r
      rw [hm] at h
      cases ty <;> simp only [] at h <;>
        first
        | (cases h; done)
        | (split_ifs at h <;> cases h)

/-- The loop of `make_token`, when it returns true, has read the rest of the
input lexeme by lexeme. -/
theorem make_token_loop_lexing (e : List Char) (fuel : Nat) :
    ∀ (p : Nat) (toks out : List Token), make_token_loop e fuel p toks = .ok out →
      ∃ lexemes, isLexing (e.drop p) lexemes = true ∧ out = toks ++ emittedTokens lexemes
        ∧ (toks.length ≤ 32 → out.length ≤ 32)
        ∧ (∀ t ∈ emittedTokens lexemes, t.str.length < 32) := by
  induction fuel with
  | zero => intro p toks out h; simp [make_token_loop] at h
  | succ f ih =>
    intro p toks out h
    simp only [make_token_loop] at h
    cases hs : make_token_step e p toks with
    | stop r =>
      rw [hs] at h
      simp only at h
      subst h
      obtain ⟨h1, h2⟩ := make_token_step_ok_inv hs
      refine ⟨[], ?_, ?_, ?_, ?_⟩
      · simp [isLexing, h1]
      · simp [emittedTokens, h2]
      · intro hl; rw [h2]; exact hl
      · simp [emittedTokens]
    | next p' toks' =>
      rw [hs] at h
      simp only at h
      obtain ⟨n, ty, hm, hp', hcase⟩ := make_token_step_next_inv hs
      obtain ⟨hn1, hn2⟩ := firstMatch_bounds _ _ _ _ hm
      obtain ⟨lex, g1, g2, g3, g4⟩ := ih p' toks' out h
      have hlen : ((e.drop p).take n).length = n := by
        rw [List.length_take]; omega
      have hdrop : (e.drop p).drop n = e.drop p' := by
        rw [List.drop_drop, hp', Nat.add_comm]
      have hlexing : isLexing (e.drop p) ((ty, (e.drop p).take n) :: lex) = true := by
        simp only [isLexing, hlen, hm, decide_True, Bool.true_and, hdrop, g1]
      refine ⟨(ty, (e.drop p).take n) :: lex, hlexing, ?_, ?_, ?_⟩
      · rcases hcase with ⟨hty, htoks⟩ | ⟨hty, -, -, htoks⟩
        · subst hty
          rw [g2, htoks]
          simp [emittedTokens]
        · rw [g2, htoks]
          simp [emittedTokens, hty]
      · intro hl
        rcases hcase with ⟨-, htoks⟩ | ⟨-, hl', -, htoks⟩
        · exact g3 (by rw [htoks]; exact hl)
        · exact g3 (by rw [htoks]; simp; omega)
      · intro t ht
        rcases hcase with ⟨hty, -⟩ | ⟨hty, -, hn, -⟩
        · subst hty
          exact g4 t (by simpa [emittedTokens] using ht)
        · simp only [emittedTokens, List.filter_cons, bne_iff_ne, ne_eq, hty, not_false_eq_true,
            decide_True, if_true, List.map_cons, List.mem_cons] at ht
          rcases ht with rfl | ht
          · simp only [hlen]; exact hn
          · exact g4 t ht

/-- The characters of a match are characters of the regular expression. -/
theorem lens_charsIn (P : Char → Prop) (r : Regex) (h : r.charsIn P) :
    ∀ (s : List Char) (n : Nat), n ∈ r.lens s → ∀ c ∈ s.take n, P c := by
  induction r with
  | chr x =>
    intro s n hn c hc
    cases s with
    | nil => simp [Regex.lens] at hn
    | cons y ys =>
      simp only [Regex.lens] at hn
      split_ifs at hn with hy
      · simp only [List.mem_singleton] at hn
        subst hn
        simp only [List.take_succ_cons, List.take_zero, List.mem_singleton] at hc
        rw [hc, hy]
        exact h
      · simp at hn
  | set p =>
    intro s n hn c hc
    cases s with
    | nil => simp [Regex.lens] at hn
    | cons y ys =>
      simp only [Regex.lens] at hn
      split_ifs at hn with hy
      · simp only [List.mem_singleton] at hn
        subst hn
        simp only [List.take_succ_cons, List.take_zero, List.mem_singleton] at hc
        rw [hc]
        exact h y hy
      · simp at hn
  | many1 p =>
    intro s n hn c hc
    simp only [Regex.lens, List.mem_map, List.mem_range] at hn
    obtain ⟨k, hk, rfl⟩ := hn
    have hs : s.take (k + 1) = (s.takeWhile p).take (k + 1) := by
      conv_lhs => rw [← List.takeWhile_append_dropWhile p s]
      exact List.take_append_of_le_length (by omega)
    rw [hs] at hc
    exact h c (List.mem_takeWhile_imp (List.mem_of_mem_take hc))
  | seq a b iha ihb =>
    intro s n hn c hc
    simp only [Regex.lens, List.mem_flatMap, List.mem_map] at hn
    obtain ⟨n1, hn1, m, hm, rfl⟩ := hn
    rw [List.take_add, List.mem_append] at hc
    rcases hc with hc | hc
    · exact iha h.1 s n1 hn1 c hc
    · exact ihb h.2 (s.drop n1) m hm c hc
  | alt a b iha ihb =>
    intro s n hn c hc
    simp only [Regex.lens, List.mem_append] at hn
    rcases hn with hn | hn
    · exact iha h.1 s n hn c hc
    · exact ihb h.2 s n hn c hc

/-- The characters of the match of the first matching rule. -/
theorem firstMatch_charsIn (rs : List (Regex × TokType))
    (h : ∀ x ∈ rs, x.1.charsIn (lexemeChar x.2)) :
    ∀ (s : List Char) (n : Nat) (ty : TokType), firstMatch rs s = some (n, ty) →
      ∀ c ∈ s.take n, lexemeChar ty c := by
  induction rs with
  | nil => intro s n ty hf; simp [firstMatch] at hf
  | cons x rs ih =>
    obtain ⟨r, ty0⟩ := x
    intro s n ty hf
    simp only [firstMatch] at hf
    cases hr : regexec r s with
    | none =>
      rw [hr] at hf
      exact ih (fun y hy => h y (by simp [hy])) s n ty hf
    | some k =>
      rw [hr] at hf
      simp only [Option.some.injEq, Prod.mk.injEq] at hf
      obtain ⟨rfl, rfl⟩ := hf
      exact lens_charsIn _ r (h (r, ty0) (by simp)) s k (regexec_some hr).1

/-- The rule of the white-space kind matches spaces and no other rule matches
one. -/
theorem rules_charsIn : ∀ x ∈ rules, x.1.charsIn (lexemeChar x.2) := by
  have hdec : ∀ c, isDec c = true → c ≠ ' ' := by
    rintro c hc rfl
    exact absurd hc (by decide)
  have hhex : ∀ c, isHex c = true → c ≠ ' ' := by
    rintro c hc rfl
    exact absurd hc (by decide)
  have hrange : ∀ (hi c : Char), (decide ('0' ≤ c) && decide (c ≤ hi)) = true → c ≠ ' ' := by
    rintro hi c hc rfl
    simp only [Bool.and_eq_true, decide_eq_true_eq] at hc
    exact absurd hc.1 (by decide)
  intro x hx
  simp only [rules, List.mem_cons, List.mem_singleton, List.not_mem_nil, or_false] at hx
  rcases hx with rfl | rfl | rfl | rfl | rfl | rfl | rfl | rfl | rfl | rfl | rfl | rfl | rfl | rfl
  all_goals simp only [Regex.charsIn, regNameRegex, lexemeChar, reduceCtorEq, if_true, if_false]
  all_goals first
    | decide
    | exact hdec
    | (intro c hc; simpa using hc)
    | exact ⟨by decide, by decide, hhex⟩
    | refine ⟨by decide, ⟨by decide, by decide⟩, ⟨by decide, by decide⟩, ⟨by decide, by decide⟩,
        ⟨by decide, by decide⟩, ⟨by decide, by decide⟩, ⟨by decide, hrange _⟩, ⟨by decide, hdec⟩,
        ⟨by decide, by decide, hrange _⟩, by decide, hrange _⟩

/-- The texts of the tokens of a reading, put together, are the input without
its spaces. -/
theorem emittedTokens_text :
    ∀ (lexemes : List (TokType × List Char)) (s : List Char), isLexing s lexemes = true →
      ((emittedTokens lexemes).map Token.str).flatten = s.filter (fun c => c != ' ') := by
  intro lexemes
  induction lexemes with
  | nil =>
    intro s h
    simp only [isLexing, List.isEmpty_iff] at h
    subst h
    rfl
  | cons l rest ih =>
    obtain ⟨ty, x⟩ := l
    intro s h
    simp only [isLexing, Bool.and_eq_true, decide_eq_true_eq] at h
    obtain ⟨⟨hm, hx⟩, hrest⟩ := h
    have hchars := firstMatch_charsIn rules rules_charsIn s x.length ty hm
    rw [← hx] at hchars
    have hs : s = x ++ s.drop x.length := by
      conv_lhs => rw [← List.take_append_drop x.length s, ← hx]
    have ih' := ih _ hrest
    conv_rhs => rw [hs]
    rw [List.filter_append, ← ih']
    by_cases hty : ty = TK_NOTYPE
    · subst hty
      have hx0 : x.filter (fun c => c != ' ') = [] := by
        rw [List.filter_eq_nil_iff]
        intro c hc
        have := hchars c hc
        simp only [lexemeChar, if_true] at this
        simp [this]
      rw [hx0]
      simp [emittedTokens]
    · have hx1 : x.filter (fun c => c != ' ') = x := by
        rw [List.filter_eq_self]
        intro c hc
        have := hchars c hc
        simp only [lexemeChar, hty, if_false] at this
        simp [this]
      rw [hx1]
      simp [emittedTokens, hty]

/-- C13: when `make_token` returns true, the input has been read from its
start to its end as lexemes, each one the match of the first matching rule at
the position reached; the tokens are these lexemes with their rules' types,
those of the white-space kind left out, so no token has that kind; the texts of
the tokens in order, put together, are the input with every space removed;
and there are at most 32 tokens, each with a text shorter than 32. -/
theorem make_token_preserves_text (e : List Char) (tokens : List Token)
    (h : make_token e = .ok tokens) :
    (∀ t ∈ tokens, t.type ≠ TK_NOTYPE)
    ∧ (∃ lexemes, isLexing e lexemes = true ∧ tokens = emittedTokens lexemes)
    ∧ (tokens.map Token.str).flatten = e.filter (fun c => c != ' ')
    ∧ tokens.length ≤ 32
    ∧ (∀ t ∈ tokens, t.str.length < 32) := by
  obtain ⟨lexemes, h1, h2, h3, h4⟩ := make_token_loop_lexing e _ 0 [] tokens h
  simp only [List.drop_zero, List.nil_append] at h1 h2
  subst h2
  refine ⟨?_, ⟨lexemes, h1, rfl⟩, emittedTokens_text lexemes e h1, h3 (by simp), h4⟩
  intro t ht
  simp only [emittedTokens, List.mem_map, List.mem_filter, bne_iff_ne, ne_eq] at ht
  obtain ⟨l, ⟨-, hl⟩, rfl⟩ := ht
  exact hl

/-- Witness of C13: ` 12 +0x1f* ( $sp )` is read as eleven lexemes, four of
them white space, and gives seven tokens. -/
theorem make_token_preserves_text_witness :
    (∀ t ∈ [(⟨TK_DECIMAL, "12".toList⟩ : Token), ⟨plus, "+".toList⟩, ⟨TK_HEX, "0x1f".toList⟩,
        ⟨star, "*".toList⟩, ⟨lparen, "(".toList⟩, ⟨TK_REG_NAME, "$sp".toList⟩,
        ⟨rparen, ")".toList⟩], t.type ≠ TK_NOTYPE)
    ∧ (∃ lexemes, isLexing " 12 +0x1f* ( $sp )".toList lexemes = true
        ∧ [(⟨TK_DECIMAL, "12".toList⟩ : Token), ⟨plus, "+".toList⟩, ⟨TK_HEX, "0x1f".toList⟩,
            ⟨star, "*".toList⟩, ⟨lparen, "(".toList⟩, ⟨TK_REG_NAME, "$sp".toList⟩,
            ⟨rparen, ")".toList⟩] = emittedTokens lexemes)
    ∧ ([(⟨TK_DECIMAL, "12".toList⟩ : Token), ⟨plus, "+".toList⟩, ⟨TK_HEX, "0x1f".toList⟩,
          ⟨star, "*".toList⟩, ⟨lparen, "(".toList⟩, ⟨TK_REG_NAME, "$sp".toList⟩,
          ⟨rparen, ")".toList⟩].map Token.str).flatten
        = " 12 +0x1f* ( $sp )".toList.filter (fun c => c != ' ')
    ∧ [(⟨TK_DECIMAL, "12".toList⟩ : Token), ⟨plus, "+".toList⟩, ⟨TK_HEX, "0x1f".toList⟩,
          ⟨star, "*".toList⟩, ⟨lparen, "(".toList⟩, ⟨TK_REG_NAME, "$sp".toList⟩,
          ⟨rparen, ")".toList⟩].length ≤ 32
    ∧ (∀ t ∈ [(⟨TK_DECIMAL, "12".toList⟩ : Token), ⟨plus, "+".toList⟩, ⟨TK_HEX, "0x1f".toList⟩,
          ⟨star, "*".toList⟩, ⟨lparen, "(".toList⟩, ⟨TK_REG_NAME, "$sp".toList⟩,
          ⟨rparen, ")".toList⟩], t.str.length < 32) :=
  make_token_preserves_text " 12 +0x1f* ( $sp )".toList _ (by decide)

/-! ## Theorems: parentheses that do not enclose the range -/

/-- C14 (code bug): `check_parentheses` compares only the total count of the
parentheses of the range with 0, not the running depth. On the tokens of
`(1)+(2)` it returns true for the whole range although the depth is back at 0
after index 2; `eval` then drops the first and the last parenthesis, finds no
operator at depth 0 in `1)+(2` and fails `assert(highest_prior >= 0)`, so
`expr("(1)+(2)")` aborts instead of giving 3, and `expr("(1+2)*(3)")` aborts
instead of giving 9, whatever the register file, the memory and the flag. -/
theorem check_parentheses_total_only (R : List Char → Int × Bool) (M : Int → Int → Int)
    (success : Bool) :
    make_token "(1)+(2)".toList
        = .ok [⟨lparen, ['(']⟩, ⟨TK_DECIMAL, ['1']⟩, ⟨rparen, [')']⟩, ⟨plus, ['+']⟩,
            ⟨lparen, ['(']⟩, ⟨TK_DECIMAL, ['2']⟩, ⟨rparen, [')']⟩]
    ∧ check_parentheses [⟨lparen, ['(']⟩, ⟨TK_DECIMAL, ['1']⟩, ⟨rparen, [')']⟩, ⟨plus, ['+']⟩,
        ⟨lparen, ['(']⟩, ⟨TK_DECIMAL, ['2']⟩, ⟨rparen, [')']⟩] 0 6 = .ret true
    ∧ parenCountLoop [⟨lparen, ['(']⟩, ⟨TK_DECIMAL, ['1']⟩, ⟨rparen, [')']⟩, ⟨plus, ['+']⟩,
        ⟨lparen, ['(']⟩, ⟨TK_DECIMAL, ['2']⟩, ⟨rparen, [')']⟩] 3 0 0 = 0
    ∧ findMainOp [⟨lparen, ['(']⟩, ⟨TK_DECIMAL, ['1']⟩, ⟨rparen, [')']⟩, ⟨plus, ['+']⟩,
        ⟨lparen, ['(']⟩, ⟨TK_DECIMAL, ['2']⟩, ⟨rparen, [')']⟩] 1 5 = .ret none
    ∧ expr R M "(1)+(2)".toList success = (.abort, success)
    ∧ expr R M "(1+2)*(3)".toList success = (.abort, success)
    ∧ (∀ (tokens : List Token) (p q : Int), (tokAt tokens p).type = lparen →
        (tokAt tokens q).type = rparen →
        parenCountLoop tokens (q + 1 - p).toNat p 0 = 0 →
        check_parentheses tokens p q = .ret true) := by
  refine ⟨by decide, by decide, by decide, by decide, rfl, rfl, ?_⟩
  intro tokens p q hp hq hc
  simp [check_parentheses, hp, hq, hc]

/-! ## Theorems: deletion and the two lists -/

/-- C16 (code bug): `del_wp` puts the record on the free list without taking
it off the active list, and without a look at where it is. After
`init_wp_pool`, `set_wp("1")` and `del_wp(0)` both walks meet all 32 records,
so every record is in both lists; after `init_wp_pool` and `del_wp(0)` the
record 0 points to itself and the walk from `free_` never ends. -/
theorem del_wp_breaks_partition (R : List Char → Int × Bool) (M : Int → Int → Int) :
    (∃ st1 st2, set_wps R M ["1".toList] initPool = .ret st1
      ∧ activeList st1 = some [0]
      ∧ del_wp st1 0 = .ret st2
      ∧ activeList st2 = some [0, 1, 2, 3, 4, 5, 6, 7, 8, 9, 10, 11, 12, 13, 14, 15, 16, 17,
          18, 19, 20, 21, 22, 23, 24, 25, 26, 27, 28, 29, 30, 31]
      ∧ freeList st2 = activeList st2)
    ∧ (∃ st, del_wp initPool 0 = .ret st
      ∧ st.free_ = some 0
      ∧ (st.wp_pool 0).next = some 0
      ∧ ∀ fuel, walk st.wp_pool fuel st.free_ = none) := by
  have key : ∀ fuel, walk (free_wp initPool 0).wp_pool fuel (some 0) = none := by
    intro fuel
    induction fuel with
    | zero => rfl
    | succ n ih =>
      have hnext : ((free_wp initPool 0).wp_pool 0).next = some 0 := rfl
      simp only [walk, hnext, ih, Option.map_none']
  exact ⟨⟨_, _, rfl, rfl, rfl, rfl, rfl⟩, ⟨_, rfl, rfl, rfl, fun fuel => key fuel⟩⟩

/-! ## Theorems: a lexeme longer than the token text -/

/-- C17 (code bug): `make_token` copies the whole match with
`strncpy(tokens[nr_token].str, substr_start, substr_len)` and then writes the
terminator at `str[substr_len]`; nothing truncates. A decimal literal of 40
digits, and any decimal literal of 32 digits or more, is written past the 32
bytes of the text field, which is undefined behaviour, and `expr` returns no
value for it. -/
theorem make_token_long_lexeme (R : List Char → Int × Bool) (M : Int → Int → Int)
    (success : Bool) :
    "1234567890123456789012345678901234567890".toList.length = 40
    ∧ firstMatch rules "1234567890123456789012345678901234567890".toList
        = some (40, TK_DECIMAL)
    ∧ make_token "1234567890123456789012345678901234567890".toList = .overrun
    ∧ expr R M "1234567890123456789012345678901234567890".toList success
        = (.undefined, success)
    ∧ (∀ ds : List Char, (∀ c ∈ ds, isDec c = true) → 32 ≤ ds.length →
        make_token ds = .overrun ∧ expr R M ds success = (.undefined, success)) := by
  refine ⟨by decide, by decide, by decide, rfl, ?_⟩
  intro ds hds hlen
  have hne : ds ≠ [] := by
    intro h
    rw [h] at hlen
    simp at hlen
  have hm := firstMatch_dec ds [] hne hds (by simp)
  rw [List.append_nil] at hm
  have hmk : make_token ds = .overrun := by
    obtain ⟨c, cs, rfl⟩ := List.exists_cons_of_ne_nil hne
    have hlt : ¬ (c :: cs).length < 32 := by omega
    simp only [make_token, make_token_loop, make_token_step, List.drop_zero, hm,
      List.length_nil, Nat.zero_lt_succ, if_true, hlt, if_false]
  exact ⟨hmk, by simp only [expr, hmk]⟩

/-! ## Theorems: the flag of `expr` -/

/-- C19: when `make_token` returns true on the input, `expr` ends with the
flag as the caller passed it (and when `make_token` returns false, with
false); so with the flag initialised to false, as in `watchpoint_check`, a
call that returns a value leaves the flag false. -/
theorem expr_keeps_flag (R : List Char → Int × Bool) (M : Int → Int → Int) (e : List Char)
    (tokens : List Token) (success : Bool) (htok : make_token e = .ok tokens) :
    (expr R M e success).2 = success
    ∧ (expr R M e success).1 = eval R M (unaryPass none tokens) (tokens.length + 1) 0
        ((tokens.length : Int) - 1)
    ∧ (∀ v, (expr R M e false).1 = .ret v → expr R M e false = (.ret v, false))
    ∧ (∀ (e' : List Char) (position : Nat), make_token e' = .noMatch position →
        expr R M e' success = (.ret 0, false)) := by
  refine ⟨by simp only [expr, htok], by simp only [expr, htok], ?_, ?_⟩
  · intro v hv
    have h2 : (expr R M e false).2 = false := by simp only [expr, htok]
    exact Prod.ext hv h2
  · intro e' position h
    simp only [expr, h]

/-- Witness of C19: `1+2` gives 3 and leaves the flag as it was, true or
false. -/
theorem expr_keeps_flag_witness :
    ((expr noRegs demoMem "1+2".toList true).2 = true
      ∧ (expr noRegs demoMem "1+2".toList true).1
          = eval noRegs demoMem (unaryPass none
              [⟨TK_DECIMAL, ['1']⟩, ⟨plus, ['+']⟩, ⟨TK_DECIMAL, ['2']⟩]) (3 + 1) 0 ((3 : Int) - 1)
      ∧ (∀ v, (expr noRegs demoMem "1+2".toList false).1 = .ret v →
          expr noRegs demoMem "1+2".toList false = (.ret v, false))
      ∧ (∀ (e' : List Char) (position : Nat), make_token e' = .noMatch position →
          expr noRegs demoMem e' true = (.ret 0, false)))
    ∧ expr noRegs demoMem "1+2".toList false = (.ret 3, false)
    ∧ expr noRegs demoMem "1+2".toList true = (.ret 3, true) :=
  ⟨expr_keeps_flag noRegs demoMem "1+2".toList
      [⟨TK_DECIMAL, ['1']⟩, ⟨plus, ['+']⟩, ⟨TK_DECIMAL, ['2']⟩] true (by decide),
    by decide, by decide⟩

/-! ## Theorems: the rewriting of `-` and `*` -/

/-- The type of a token of the first matching rule is a type of the table. -/
theorem firstMatch_type (rs : List (Regex × TokType)) (s : List Char) (n : Nat) (ty : TokType)
    (h : firstMatch rs s = some (n, ty)) : ty ∈ rs.map Prod.snd := by
  induction rs with
  | nil => simp [firstMatch] at h
  | cons x rs ih =>
    obtain ⟨r, ty0⟩ := x
    simp only [firstMatch] at h
    cases hr : regexec r s with
    | none =>
      rw [hr] at h
      exact List.mem_cons_of_mem _ (ih h)
    | some k =>
      rw [hr] at h
      simp only [Option.some.injEq, Prod.mk.injEq] at h
      rw [← h.2]
      simp

/-- The tokens of `make_token` have the types of the table, the white-space
kind apart: no unary type among them. -/
theorem make_token_types {e : List Char} {tokens : List Token} (h : make_token e = .ok tokens) :
    ∀ t ∈ tokens, t.type ≠ TK_POS ∧ t.type ≠ TK_NEG ∧ t.type ≠ TK_REF ∧ t.type ≠ TK_DEREF := by
  refine make_token_loop_tokens
    (fun t => t.type ≠ TK_POS ∧ t.type ≠ TK_NEG ∧ t.type ≠ TK_REF ∧ t.type ≠ TK_DEREF)
    ?_ e _ 0 [] tokens h (by simp)
  intro s n ty hm _
  have hmem := firstMatch_type rules s n ty hm
  simp only [rules, List.map_cons, List.map_nil, List.mem_cons, List.mem_singleton,
    List.not_mem_nil, or_false] at hmem
  rcases hmem with h | h | h | h | h | h | h | h | h | h | h | h | h | h <;> rw [h] <;> simp

/-- The token at index `i` after the rewriting loop of `expr` is what one
round of the loop makes of the token at index `i`, the token before it being
what the loop has left at index `i - 1`. -/
theorem unaryPass_getD (d : Token) :
    ∀ (ts : List Token) (prev : Option TokType) (i : Nat), i < ts.length →
      (unaryPass prev ts).getD i d
        = (unaryPass (if i = 0 then prev else some ((unaryPass prev ts).getD (i - 1) d).type)
            [ts.getD i d]).getD 0 d := by
  intro ts
  induction ts with
  | nil => intro prev i hi; simp at hi
  | cons t ts ih =>
    intro prev i hi
    cases i with
    | zero => simp [unaryPass]
    | succ i =>
      simp only [List.length_cons, Nat.add_lt_add_iff_right] at hi
      have h := ih (some (((unaryPass prev [t]).getD 0 d).type)) i hi
      have e1 : ∀ k, (unaryPass prev (t :: ts)).getD (k + 1) d
          = (unaryPass (some (((unaryPass prev [t]).getD 0 d).type)) ts).getD k d := by
        intro k
        simp [unaryPass]
      have e0 : (unaryPass prev (t :: ts)).getD 0 d = (unaryPass prev [t]).getD 0 d := by
        simp [unaryPass]
      rw [e1 i, h]
      cases i with
      | zero =>
        simp only [if_true, Nat.zero_add, Nat.add_one_ne_zero, if_false, Nat.add_sub_cancel,
          List.getD_cons_succ, e0]
      | succ k =>
        simp only [Nat.add_one_ne_zero, if_false, Nat.add_sub_cancel, List.getD_cons_succ, e1]

/-- The condition of `require_unary_op`. -/
theorem require_unary_op_iff (ty : TokType) :
    require_unary_op ty = true
      ↔ ty = plus ∨ ty = minus ∨ ty = star ∨ ty = slash ∨ ty = lparen := by
  cases ty <;> simp [require_unary_op]

/-- The function `require_unary_op` tests for the five kinds of the spec. -/
theorem require_unary_op_eq (ty : TokType) : require_unary_op ty = precedesUnary ty := by
  cases ty <;> rfl

/-- One round of the rewriting loop of `expr` on a token of `make_token`. -/
theorem unaryPass_single (prev : Option TokType) (t d : Token)
    (ht : t.type ≠ TK_POS ∧ t.type ≠ TK_NEG ∧ t.type ≠ TK_REF ∧ t.type ≠ TK_DEREF) :
    ((unaryPass prev [t]).getD 0 d).str = t.str
    ∧ (((unaryPass prev [t]).getD 0 d).type = TK_NEG
        ↔ t.type = minus ∧ (prev = none ∨ ∃ ty, prev = some ty ∧ precedesUnary ty = true))
    ∧ (((unaryPass prev [t]).getD 0 d).type = TK_DEREF
        ↔ t.type = star ∧ (prev = none ∨ ∃ ty, prev = some ty ∧ precedesUnary ty = true))
    ∧ ((unaryPass prev [t]).getD 0 d).type ≠ TK_POS
    ∧ (t.type = plus → ((unaryPass prev [t]).getD 0 d).type = plus)
    ∧ (((unaryPass prev [t]).getD 0 d).type ≠ TK_NEG →
        ((unaryPass prev [t]).getD 0 d).type ≠ TK_DEREF →
        ((unaryPass prev [t]).getD 0 d).type = t.type) := by
  obtain ⟨ty, s⟩ := t
  simp only at ht
  cases prev with
  | none =>
    cases ty <;> simp_all [unaryPass]
  | some p =>
    cases hp : precedesUnary p <;> cases ty <;>
      simp_all [unaryPass, require_unary_op_eq]

/-- C15: on the tokens of every input that `make_token` accepts, the rewriting
loop of `expr` keeps the number of tokens and every text; the token at index
`i` becomes `TK_NEG` exactly when it is a `-` token and `i = 0` or the token
before it, with the kind the loop finds there, is one of `+`, `-`, `*`, `/`,
`(`; it becomes `TK_DEREF` exactly when it is a `*` token under the same
condition; no token becomes `TK_POS`, a `+` token stays `+`, and every token
that does not become `TK_NEG` or `TK_DEREF` keeps its kind. -/
theorem unaryPass_rule (e : List Char) (tokens : List Token)
    (htok : make_token e = .ok tokens) :
    (unaryPass none tokens).length = tokens.length
    ∧ ∀ i : Nat, i < tokens.length →
        (tokAt (unaryPass none tokens) i).str = (tokAt tokens i).str
        ∧ ((tokAt (unaryPass none tokens) i).type = TK_NEG
            ↔ (tokAt tokens i).type = minus
              ∧ (i = 0 ∨ precedesUnary (tokAt (unaryPass none tokens) ((i : Int) - 1)).type = true))
        ∧ ((tokAt (unaryPass none tokens) i).type = TK_DEREF
            ↔ (tokAt tokens i).type = star
              ∧ (i = 0 ∨ precedesUnary (tokAt (unaryPass none tokens) ((i : Int) - 1)).type = true))
        ∧ (tokAt (unaryPass none tokens) i).type ≠ TK_POS
        ∧ ((tokAt tokens i).type = plus → (tokAt (unaryPass none tokens) i).type = plus)
        ∧ ((tokAt (unaryPass none tokens) i).type ≠ TK_NEG →
            (tokAt (unaryPass none tokens) i).type ≠ TK_DEREF →
            (tokAt (unaryPass none tokens) i).type = (tokAt tokens i).type) := by
  refine ⟨unaryPass_length tokens none, ?_⟩
  intro i hi
  have hmem : tokens.getD i ⟨TK_NOTYPE, []⟩ ∈ tokens := by
    rw [List.getD_eq_getElem _ _ hi]
    exact List.getElem_mem hi
  have hty := make_token_types htok _ hmem
  have hstep := unaryPass_getD ⟨TK_NOTYPE, []⟩ tokens none i hi
  have e1 : ((i : Int)).toNat = i := Int.toNat_natCast i
  have e2 : ((i : Int) - 1).toNat = i - 1 := by omega
  simp only [tokAt, e1, e2]
  rw [hstep]
  obtain ⟨g1, g2, g3, g4, g5, g6⟩ := unaryPass_single
    (if i = 0 then none else some ((unaryPass none tokens).getD (i - 1) ⟨TK_NOTYPE, []⟩).type)
    (tokens.getD i ⟨TK_NOTYPE, []⟩) ⟨TK_NOTYPE, []⟩ hty
  refine ⟨g1, ?_, ?_, g4, g5, g6⟩
  · rw [g2]
    by_cases h0 : i = 0
    · simp [h0]
    · simp [h0]
  · rw [g3]
    by_cases h0 : i = 0
    · simp [h0]
    · simp [h0]

/-- Witness of C15: in `-1*-(+2--3)` the first `-`, the `-` after `*` and the
second `-` of `--` become `TK_NEG`; the first `-` of `--` follows a number and
stays binary; `+` after `(` stays `+`. -/
theorem unaryPass_rule_witness :
    make_token "-1*-(+2--3)".toList = .ok negTokens
    ∧ ((unaryPass none negTokens).length = negTokens.length
      ∧ ∀ i : Nat, i < negTokens.length →
        (tokAt (unaryPass none negTokens) i).str = (tokAt negTokens i).str
        ∧ ((tokAt (unaryPass none negTokens) i).type = TK_NEG
            ↔ (tokAt negTokens i).type = minus
              ∧ (i = 0
                ∨ precedesUnary (tokAt (unaryPass none negTokens) ((i : Int) - 1)).type = true))
        ∧ ((tokAt (unaryPass none negTokens) i).type = TK_DEREF
            ↔ (tokAt negTokens i).type = star
              ∧ (i = 0
                ∨ precedesUnary (tokAt (unaryPass none negTokens) ((i : Int) - 1)).type = true))
        ∧ (tokAt (unaryPass none negTokens) i).type ≠ TK_POS
        ∧ ((tokAt negTokens i).type = plus → (tokAt (unaryPass none negTokens) i).type = plus)
        ∧ ((tokAt (unaryPass none negTokens) i).type ≠ TK_NEG →
            (tokAt (unaryPass none negTokens) i).type ≠ TK_DEREF →
            (tokAt (unaryPass none negTokens) i).type = (tokAt negTokens i).type))
    ∧ unaryPass none negTokens
      = [⟨TK_NEG, ['-']⟩, ⟨TK_DECIMAL, ['1']⟩, ⟨star, ['*']⟩, ⟨TK_NEG, ['-']⟩,
        ⟨lparen, ['(']⟩, ⟨plus, ['+']⟩, ⟨TK_DECIMAL, ['2']⟩, ⟨minus, ['-']⟩, ⟨TK_NEG, ['-']⟩,
        ⟨TK_DECIMAL, ['3']⟩, ⟨rparen, [')']⟩] :=
  ⟨by decide, unaryPass_rule "-1*-(+2--3)".toList negTokens (by decide), by decide⟩

/-! ## Theorems: no two unary operators in a row -/

/-- The token at an index after the rewriting loop of `expr`, for the tokens of
`make_token`. -/
theorem unaryPass_index {e : List Char} {tokens : List Token}
    (htok : make_token e = .ok tokens) (i : Nat) (hi : i < tokens.length) :
    ((tokAt (unaryPass none tokens) i).type = TK_NEG
        ↔ (tokAt tokens i).type = minus
          ∧ (i = 0 ∨ precedesUnary (tokAt (unaryPass none tokens) ((i : Int) - 1)).type = true))
    ∧ ((tokAt (unaryPass none tokens) i).type = TK_DEREF
        ↔ (tokAt tokens i).type = star
          ∧ (i = 0 ∨ precedesUnary (tokAt (unaryPass none tokens) ((i : Int) - 1)).type = true))
    ∧ ((tokAt (unaryPass none tokens) i).type ≠ TK_NEG →
        (tokAt (unaryPass none tokens) i).type ≠ TK_DEREF →
        (tokAt (unaryPass none tokens) i).type = (tokAt tokens i).type) := by
  have hmem : tokens.getD i ⟨TK_NOTYPE, []⟩ ∈ tokens := by
    rw [List.getD_eq_getElem _ _ hi]
    exact List.getElem_mem hi
  have hty := make_token_types htok _ hmem
  have hstep := unaryPass_getD ⟨TK_NOTYPE, []⟩ tokens none i hi
  have e1 : ((i : Int)).toNat = i := Int.toNat_natCast i
  have e2 : ((i : Int) - 1).toNat = i - 1 := by omega
  simp only [tokAt, e1, e2]
  rw [hstep]
  obtain ⟨-, g2, g3, -, -, g6⟩ := unaryPass_single
    (if i = 0 then none else some ((unaryPass none tokens).getD (i - 1) ⟨TK_NOTYPE, []⟩).type)
    (tokens.getD i ⟨TK_NOTYPE, []⟩) ⟨TK_NOTYPE, []⟩ hty
  refine ⟨?_, ?_, g6⟩
  · rw [g2]
    by_cases h0 : i = 0
    · simp [h0]
    · simp [h0]
  · rw [g3]
    by_cases h0 : i = 0
    · simp [h0]
    · simp [h0]

/-- The tokens of two operators and a decimal literal. -/
theorem make_token_op_op_dec (o1 o2 : BinOp) (n : List Char) (hne : n ≠ [])
    (hn : ∀ c ∈ n, isDec c = true) (hlen : n.length < 32) :
    make_token (o1.text ++ (o2.text ++ n))
      = .ok [⟨o1.tok, o1.text⟩, ⟨o2.tok, o2.text⟩, ⟨TK_DECIMAL, n⟩] := by
  have hty : ∀ o : BinOp, o.tok ≠ TK_NOTYPE ∧ o.tok ≠ TK_POS ∧ o.tok ≠ TK_NEG ∧ o.tok ≠ TK_REF
      ∧ o.tok ≠ TK_DEREF := by
    intro o; cases o <;> decide
  have hol : ∀ o : BinOp, o.text.length < 32 := by
    intro o; cases o <;> decide
  have he : o1.text ++ (o2.text ++ n) = o1.text ++ (o2.text ++ (n ++ chainText [])) := by
    simp [chainText]
  rw [he]
  have h1 := @make_token_loop_emit (o1.text ++ (o2.text ++ (n ++ chainText []))) 0 []
    o1.text (o2.text ++ (n ++ chainText [])) o1.tok rfl (firstMatch_op o1 _)
    (hty o1) (hol o1) (by decide)
  have h2 := @make_token_loop_emit (o1.text ++ (o2.text ++ (n ++ chainText [])))
    (0 + o1.text.length) ([] ++ [⟨o1.tok, o1.text⟩])
    o2.text (n ++ chainText []) o2.tok h1.2 (firstMatch_op o2 _)
    (hty o2) (hol o2) (by simp)
  have h3 := make_token_loop_chain (o1.text ++ (o2.text ++ (n ++ chainText [])))
    [] (0 + o1.text.length + o2.text.length)
    ([] ++ [⟨o1.tok, o1.text⟩] ++ [⟨o2.tok, o2.text⟩]) n h2.2
    hne hn hlen (by simp) (by simp)
  have h4 := (h1.1.trans h2.1).trans h3
  simpa [make_token, chainTokens] using h4

/-- Two operators and a decimal literal of 32 digits or more: the copy of the
literal runs past the token text. -/
theorem make_token_op_op_long (o1 o2 : BinOp) (n : List Char)
    (hn : ∀ c ∈ n, isDec c = true) (hlen : 32 ≤ n.length) :
    make_token (o1.text ++ (o2.text ++ n)) = .overrun := by
  have hty : ∀ o : BinOp, o.tok ≠ TK_NOTYPE ∧ o.tok ≠ TK_POS ∧ o.tok ≠ TK_NEG ∧ o.tok ≠ TK_REF
      ∧ o.tok ≠ TK_DEREF := by
    intro o; cases o <;> decide
  have hol : ∀ o : BinOp, o.text.length < 32 := by
    intro o; cases o <;> decide
  have hne : n ≠ [] := by
    intro h
    rw [h] at hlen
    simp at hlen
  have he : o1.text ++ (o2.text ++ n) = o1.text ++ (o2.text ++ (n ++ [])) := by simp
  rw [he]
  have h1 := @make_token_loop_emit (o1.text ++ (o2.text ++ (n ++ []))) 0 []
    o1.text (o2.text ++ (n ++ [])) o1.tok rfl (firstMatch_op o1 _)
    (hty o1) (hol o1) (by decide)
  have h2 := @make_token_loop_emit (o1.text ++ (o2.text ++ (n ++ [])))
    (0 + o1.text.length) ([] ++ [⟨o1.tok, o1.text⟩])
    o2.text (n ++ []) o2.tok h1.2 (firstMatch_op o2 _)
    (hty o2) (hol o2) (by simp)
  have hm := firstMatch_dec n [] hne hn (by simp)
  have hstep : make_token_step (o1.text ++ (o2.text ++ (n ++ [])))
      (0 + o1.text.length + o2.text.length)
      ([] ++ [⟨o1.tok, o1.text⟩] ++ [⟨o2.tok, o2.text⟩]) = .stop .overrun := by
    obtain ⟨c, cs, rfl⟩ := List.exists_cons_of_ne_nil hne
    have hlt : ¬ (c :: cs).length < 32 := by omega
    have hd := h2.2
    simp only [List.append_nil] at hd hm ⊢
    simp only [make_token_step, hd, hm, hlt, if_false]
    simp
  have hple : 0 + o1.text.length + o2.text.length
      ≤ (o1.text ++ (o2.text ++ (n ++ []))).length := by
    simp only [List.length_append]
    omega
  have h3 := make_token_loop_fuel (o1.text ++ (o2.text ++ (n ++ [])))
    ((o1.text ++ (o2.text ++ (n ++ []))).length + 1 - (0 + o1.text.length + o2.text.length))
    ((o1.text ++ (o2.text ++ (n ++ []))).length + 1 - (0 + o1.text.length + o2.text.length) + 1)
    (0 + o1.text.length + o2.text.length)
    ([] ++ [⟨o1.tok, o1.text⟩] ++ [⟨o2.tok, o2.text⟩]) hple (le_refl _) (Nat.le_succ _)
  have h4 := ((h1.1.trans h2.1).trans h3).trans (make_token_loop_stop hstep)
  simpa [make_token] using h4

/-- C18: the rewriting loop of `expr` reads the kind of the token before after
that token's own rewriting, so on the tokens of every accepted input no
`TK_NEG` or `TK_DEREF` token follows a `TK_NEG` or `TK_DEREF` token; of two `-`
tokens in a row exactly one becomes `TK_NEG`, and of two `*` tokens in a row
exactly one becomes `TK_DEREF`. For every decimal literal `n`, `expr` returns
no value on `--n` and on `**n`; when `n` fits the token text, the first
operator is unary and the second binary, the binary one is the main operator,
its left operand is the single-token range of the unary token, on which `eval`
fails its assertion, and `expr` aborts with the flag as it was. -/
theorem unaryPass_no_adjacent_unary (R : List Char → Int × Bool) (M : Int → Int → Int)
    (e : List Char) (tokens : List Token) (n : List Char) (success : Bool)
    (htok : make_token e = .ok tokens)
    (hne : n ≠ []) (hn : ∀ c ∈ n, isDec c = true) :
    (∀ i : Nat, i + 1 < tokens.length →
        ((tokAt (unaryPass none tokens) ((i + 1 : Nat) : Int)).type = TK_NEG
          ∨ (tokAt (unaryPass none tokens) ((i + 1 : Nat) : Int)).type = TK_DEREF) →
        (tokAt (unaryPass none tokens) i).type ≠ TK_NEG
          ∧ (tokAt (unaryPass none tokens) i).type ≠ TK_DEREF)
    ∧ (∀ i : Nat, i + 1 < tokens.length → (tokAt tokens i).type = minus →
        (tokAt tokens ((i + 1 : Nat) : Int)).type = minus →
        ((tokAt (unaryPass none tokens) ((i + 1 : Nat) : Int)).type = TK_NEG
          ↔ (tokAt (unaryPass none tokens) i).type ≠ TK_NEG))
    ∧ (∀ i : Nat, i + 1 < tokens.length → (tokAt tokens i).type = star →
        (tokAt tokens ((i + 1 : Nat) : Int)).type = star →
        ((tokAt (unaryPass none tokens) ((i + 1 : Nat) : Int)).type = TK_DEREF
          ↔ (tokAt (unaryPass none tokens) i).type ≠ TK_DEREF))
    ∧ (∀ v, (expr R M ('-' :: '-' :: n) success).1 ≠ .ret v
        ∧ (expr R M ('*' :: '*' :: n) success).1 ≠ .ret v)
    ∧ (n.length < 32 →
      make_token ('-' :: '-' :: n) = .ok [⟨minus, ['-']⟩, ⟨minus, ['-']⟩, ⟨TK_DECIMAL, n⟩]
      ∧ unaryPass none [⟨minus, ['-']⟩, ⟨minus, ['-']⟩, ⟨TK_DECIMAL, n⟩]
          = [⟨TK_NEG, ['-']⟩, ⟨minus, ['-']⟩, ⟨TK_DECIMAL, n⟩]
      ∧ findMainOp [⟨TK_NEG, ['-']⟩, ⟨minus, ['-']⟩, ⟨TK_DECIMAL, n⟩] 0 2 = .ret (some (2, 1))
      ∧ eval R M [⟨TK_NEG, ['-']⟩, ⟨minus, ['-']⟩, ⟨TK_DECIMAL, n⟩] 3 0 0 = .abort
      ∧ expr R M ('-' :: '-' :: n) success = (.abort, success))
    ∧ (n.length < 32 →
      make_token ('*' :: '*' :: n) = .ok [⟨star, ['*']⟩, ⟨star, ['*']⟩, ⟨TK_DECIMAL, n⟩]
      ∧ unaryPass none [⟨star, ['*']⟩, ⟨star, ['*']⟩, ⟨TK_DECIMAL, n⟩]
          = [⟨TK_DEREF, ['*']⟩, ⟨star, ['*']⟩, ⟨TK_DECIMAL, n⟩]
      ∧ findMainOp [⟨TK_DEREF, ['*']⟩, ⟨star, ['*']⟩, ⟨TK_DECIMAL, n⟩] 0 2 = .ret (some (1, 1))
      ∧ eval R M [⟨TK_DEREF, ['*']⟩, ⟨star, ['*']⟩, ⟨TK_DECIMAL, n⟩] 3 0 0 = .abort
      ∧ expr R M ('*' :: '*' :: n) success = (.abort, success)) := by
  have hcast : ∀ i : Nat, ((i + 1 : Nat) : Int) - 1 = (i : Int) := by
    intro i; push_cast; ring
  have hnot : ∀ ty, precedesUnary ty = true → ty ≠ TK_NEG ∧ ty ≠ TK_DEREF := by
    intro ty hp
    constructor <;> intro hx <;> rw [hx] at hp <;> exact absurd hp (by decide)
  have hminus : n.length < 32 →
      make_token ('-' :: '-' :: n) = .ok [⟨minus, ['-']⟩, ⟨minus, ['-']⟩, ⟨TK_DECIMAL, n⟩]
        ∧ expr R M ('-' :: '-' :: n) success = (.abort, success) := by
    intro hlen
    have hmk : make_token ('-' :: '-' :: n)
        = .ok [⟨minus, ['-']⟩, ⟨minus, ['-']⟩, ⟨TK_DECIMAL, n⟩] :=
      make_token_op_op_dec .sub .sub n hne hn hlen
    refine ⟨hmk, ?_⟩
    simp only [expr, hmk]
    rfl
  have hstar : n.length < 32 →
      make_token ('*' :: '*' :: n) = .ok [⟨star, ['*']⟩, ⟨star, ['*']⟩, ⟨TK_DECIMAL, n⟩]
        ∧ expr R M ('*' :: '*' :: n) success = (.abort, success) := by
    intro hlen
    have hmk : make_token ('*' :: '*' :: n)
        = .ok [⟨star, ['*']⟩, ⟨star, ['*']⟩, ⟨TK_DECIMAL, n⟩] :=
      make_token_op_op_dec .mul .mul n hne hn hlen
    refine ⟨hmk, ?_⟩
    simp only [expr, hmk]
    rfl
  refine ⟨?_, ?_, ?_, ?_, ?_, ?_⟩
  · intro i hi hun
    obtain ⟨a1, a2, -⟩ := unaryPass_index htok (i + 1) hi
    rw [hcast] at a1 a2
    rcases hun with h | h
    · rcases (a1.mp h).2 with h0 | hp
      · omega
      · exact hnot _ hp
    · rcases (a2.mp h).2 with h0 | hp
      · omega
      · exact hnot _ hp
  · intro i hi hm0 hm1
    obtain ⟨a1, -, -⟩ := unaryPass_index htok (i + 1) hi
    obtain ⟨-, b2, b3⟩ := unaryPass_index htok i (by omega)
    rw [hcast] at a1
    constructor
    · intro h
      rcases (a1.mp h).2 with h0 | hp
      · omega
      · exact (hnot _ hp).1
    · intro h
      have hnd : (tokAt (unaryPass none tokens) i).type ≠ TK_DEREF := by
        intro hd
        have := (b2.mp hd).1
        rw [hm0] at this
        exact absurd this (by decide)
      have hsame := b3 h hnd
      refine a1.mpr ⟨hm1, Or.inr ?_⟩
      rw [hsame, hm0]
      rfl
  · intro i hi hm0 hm1
    obtain ⟨-, a2, -⟩ := unaryPass_index htok (i + 1) hi
    obtain ⟨b1, -, b3⟩ := unaryPass_index htok i (by omega)
    rw [hcast] at a2
    constructor
    · intro h
      rcases (a2.mp h).2 with h0 | hp
      · omega
      · exact (hnot _ hp).2
    · intro h
      have hnn : (tokAt (unaryPass none tokens) i).type ≠ TK_NEG := by
        intro hd
        have := (b1.mp hd).1
        rw [hm0] at this
        exact absurd this (by decide)
      have hsame := b3 hnn h
      refine a2.mpr ⟨hm1, Or.inr ?_⟩
      rw [hsame, hm0]
      rfl
  · intro v
    by_cases hlen : n.length < 32
    · rw [(hminus hlen).2, (hstar hlen).2]
      exact ⟨by simp, by simp⟩
    · have h1 : make_token ('-' :: '-' :: n) = .overrun :=
        make_token_op_op_long .sub .sub n hn (by omega)
      have h2 : make_token ('*' :: '*' :: n) = .overrun :=
        make_token_op_op_long .mul .mul n hn (by omega)
      simp only [expr, h1, h2]
      exact ⟨by simp, by simp⟩
  · intro hlen
    exact ⟨(hminus hlen).1, rfl, rfl, rfl, (hminus hlen).2⟩
  · intro hlen
    exact ⟨(hstar hlen).1, rfl, rfl, rfl, (hstar hlen).2⟩

/-- Witness of C18: the tokens of `---5` and the literal `5`. -/
theorem unaryPass_no_adjacent_unary_witness :
    unaryPass none [⟨minus, ['-']⟩, ⟨minus, ['-']⟩, ⟨minus, ['-']⟩, ⟨TK_DECIMAL, ['5']⟩]
      = [⟨TK_NEG, ['-']⟩, ⟨minus, ['-']⟩, ⟨TK_NEG, ['-']⟩, ⟨TK_DECIMAL, ['5']⟩]
    ∧ expr noRegs demoMem "--5".toList true = (.abort, true)
    ∧ expr noRegs demoMem "**5".toList true = (.abort, true) :=
  ⟨by decide,
   ((unaryPass_no_adjacent_unary noRegs demoMem "---5".toList
      [⟨minus, ['-']⟩, ⟨minus, ['-']⟩, ⟨minus, ['-']⟩, ⟨TK_DECIMAL, ['5']⟩] ['5'] true
      (by decide) (by decide) (by decide)).2.2.2.2.1 (by decide)).2.2.2.2,
   ((unaryPass_no_adjacent_unary noRegs demoMem "---5".toList
      [⟨minus, ['-']⟩, ⟨minus, ['-']⟩, ⟨minus, ['-']⟩, ⟨TK_DECIMAL, ['5']⟩] ['5'] true
      (by decide) (by decide) (by decide)).2.2.2.2.2 (by decide)).2.2.2.2⟩

/-! ## Theorems: operands are `int`s -/

/-- The conversion to `int` gives an `int`. -/
theorem toInt32_inInt (x : Int) : inInt (toInt32 x) := by
  simp only [inInt, INT_MIN, INT_MAX, toInt32]
  omega

/-- The truncated quotient of two `int`s is an `int`, `INT_MIN / -1` apart. -/
theorem tdiv_inInt {x y : Int} (hx : inInt x) (hy : inInt y) (h0 : y ≠ 0)
    (hg : ¬ (x = INT_MIN ∧ y = -1)) : inInt (Int.tdiv x y) := by
  simp only [inInt, INT_MIN, INT_MAX] at hx hy hg ⊢
  have habs : (Int.tdiv x y).natAbs = x.natAbs / y.natAbs := Int.natAbs_tdiv x y
  by_cases h1 : y = 1
  · subst h1
    rw [Int.tdiv_one]
    exact hx
  by_cases h2 : y = -1
  · subst h2
    have hx' : x ≠ -2147483648 := fun h => hg ⟨h, rfl⟩
    have : Int.tdiv x (-1) = -x := by
      rw [Int.tdiv_neg, Int.tdiv_one]
    rw [this]
    omega
  have hy2 : 2 ≤ y.natAbs := by omega
  have hle : x.natAbs / y.natAbs ≤ x.natAbs / 2 := Nat.div_le_div_left hy2 (by decide)
  have hx2 : x.natAbs ≤ 2147483648 := by omega
  have : (Int.tdiv x y).natAbs ≤ 1073741824 := by
    rw [habs]
    omega
  omega

/-- The final `switch` of `eval` on two `int`s returns an `int`. -/
theorem binop_inInt {ty : TokType} {x y v : Int} (hx : inInt x) (hy : inInt y)
    (h : binop ty x y = .ret v) : inInt v := by
  cases ty <;> simp only [binop, Res.ret.injEq, reduceCtorEq] at h
  · rw [← h]; exact toInt32_inInt _
  · rw [← h]; exact toInt32_inInt _
  · rw [← h]; exact toInt32_inInt _
  · split_ifs at h with h0 hg
    simp only [Res.ret.injEq] at h
    rw [← h]
    exact tdiv_inInt hx hy h0 hg
  all_goals
    rw [← h]
    simp only [inInt, INT_MIN, INT_MAX]
    split_ifs <;> omega

/-- A hexadecimal digit is no operator, parenthesis or space. -/
theorem isHex_not_op (c : Char) (h : isHex c = true) :
    c ≠ '+' ∧ c ≠ ')' ∧ c ≠ ' ' := by
  refine ⟨?_, ?_, ?_⟩ <;> rintro rfl <;> exact absurd h (by decide)

/-- The rule table on a hexadecimal literal followed by something that is no
hexadecimal digit. -/
theorem firstMatch_hex (hs rest : List Char) (hne : hs ≠ [])
    (hhs : ∀ c ∈ hs, isHex c = true)
    (hrest : ∀ c ∈ rest.head?, isHex c = false) :
    firstMatch rules ('0' :: 'x' :: hs ++ rest) = some (('0' :: 'x' :: hs).length, TK_HEX) := by
  have htw : (hs ++ rest).takeWhile isHex = hs := by
    rw [List.takeWhile_append_of_pos hhs]
    cases rest with
    | nil => simp
    | cons r rs =>
      have := hrest r (by simp)
      simp [List.takeWhile_cons, this]
  have hlen : hs.length ≠ 0 := by
    intro h
    exact hne (List.length_eq_zero.mp h)
  have hhex : regexec (.seq (.chr '0') (.seq (.chr 'x') (.many1 isHex)))
      ('0' :: 'x' :: (hs ++ rest)) = some (1 + (1 + hs.length)) := by
    simp [regexec_seq_chr_cons, regexec_many1, htw, hlen]
  have hsp : (('0' :: 'x' :: (hs ++ rest)).takeWhile (fun c => c == ' ')).length = 0 := by
    simp [List.takeWhile_cons]
  simp only [List.cons_append, rules, firstMatch, regexec_chr_cons, regexec_seq_chr_cons,
    regexec_many1, hsp, hhex, if_true]
  simp
  omega

/-- The rule table on a parenthesis. -/
theorem firstMatch_paren (rest : List Char) :
    firstMatch rules ('(' :: rest) = some (1, lparen)
    ∧ firstMatch rules (')' :: rest) = some (1, rparen) := by
  constructor <;> simp [rules, firstMatch, regexec_chr_cons]

/-- The tokens of a hexadecimal literal alone, in parentheses, and followed by
`+0`. -/
theorem make_token_hex (h : List Char) (hne : h ≠ []) (hh : ∀ c ∈ h, isHex c = true)
    (hlen : h.length + 2 < 32) :
    make_token ('0' :: 'x' :: h) = .ok [⟨TK_HEX, '0' :: 'x' :: h⟩]
    ∧ make_token ('(' :: '0' :: 'x' :: h ++ [')'])
        = .ok [⟨lparen, ['(']⟩, ⟨TK_HEX, '0' :: 'x' :: h⟩, ⟨rparen, [')']⟩]
    ∧ make_token ('0' :: 'x' :: h ++ ['+', '0'])
        = .ok [⟨TK_HEX, '0' :: 'x' :: h⟩, ⟨plus, ['+']⟩, ⟨TK_DECIMAL, ['0']⟩] := by
  have hty : ∀ ty : TokType, ty = TK_HEX ∨ ty = lparen ∨ ty = rparen ∨ ty = plus →
      ty ≠ TK_NOTYPE ∧ ty ≠ TK_POS ∧ ty ≠ TK_NEG ∧ ty ≠ TK_REF ∧ ty ≠ TK_DEREF := by
    intro ty h
    rcases h with rfl | rfl | rfl | rfl <;> decide
  have hxl : ('0' :: 'x' :: h).length < 32 := by simp; omega
  refine ⟨?_, ?_, ?_⟩
  · have h1 := @make_token_loop_emit ('0' :: 'x' :: h ++ []) 0 [] ('0' :: 'x' :: h) []
      TK_HEX rfl (firstMatch_hex h [] hne hh (by simp)) (hty _ (Or.inl rfl)) hxl (by decide)
    have h2 := @make_token_loop_end ('0' :: 'x' :: h ++ []) (0 + ('0' :: 'x' :: h).length)
      ([] ++ [⟨TK_HEX, '0' :: 'x' :: h⟩]) h1.2 (by simp)
    have h3 := h1.1.trans h2
    simpa [make_token] using h3
  · have h1 := @make_token_loop_emit (['('] ++ ('0' :: 'x' :: h ++ ([')'] ++ []))) 0 [] ['(']
      ('0' :: 'x' :: h ++ ([')'] ++ [])) lparen rfl (firstMatch_paren _).1
      (hty _ (Or.inr (Or.inl rfl))) (by decide) (by decide)
    have h2 := @make_token_loop_emit (['('] ++ ('0' :: 'x' :: h ++ ([')'] ++ [])))
      (0 + ['('].length) ([] ++ [⟨lparen, ['(']⟩]) ('0' :: 'x' :: h) ([')'] ++ [])
      TK_HEX h1.2 (firstMatch_hex h _ hne hh (by simp; decide)) (hty _ (Or.inl rfl)) hxl
      (by decide)
    have h3 := @make_token_loop_emit (['('] ++ ('0' :: 'x' :: h ++ ([')'] ++ [])))
      (0 + ['('].length + ('0' :: 'x' :: h).length)
      ([] ++ [⟨lparen, ['(']⟩] ++ [⟨TK_HEX, '0' :: 'x' :: h⟩]) [')'] []
      rparen h2.2 (firstMatch_paren _).2 (hty _ (Or.inr (Or.inr (Or.inl rfl)))) (by decide)
      (by simp)
    have h4 := @make_token_loop_end (['('] ++ ('0' :: 'x' :: h ++ ([')'] ++ [])))
      (0 + ['('].length + ('0' :: 'x' :: h).length + [')'].length)
      ([] ++ [⟨lparen, ['(']⟩] ++ [⟨TK_HEX, '0' :: 'x' :: h⟩] ++ [⟨rparen, [')']⟩]) h3.2
      (by simp; omega)
    have h5 := ((h1.1.trans h2.1).trans h3.1).trans h4
    simpa [make_token] using h5
  · have h1 := @make_token_loop_emit ('0' :: 'x' :: h ++ (BinOp.add.text ++ (['0'] ++ chainText [])))
      0 [] ('0' :: 'x' :: h) (BinOp.add.text ++ (['0'] ++ chainText []))
      TK_HEX rfl (firstMatch_hex h _ hne hh (by simp [BinOp.text]; decide))
      (hty _ (Or.inl rfl)) hxl (by decide)
    have h2 := @make_token_loop_emit
      ('0' :: 'x' :: h ++ (BinOp.add.text ++ (['0'] ++ chainText [])))
      (0 + ('0' :: 'x' :: h).length) ([] ++ [⟨TK_HEX, '0' :: 'x' :: h⟩]) BinOp.add.text
      (['0'] ++ chainText []) plus h1.2 (firstMatch_op .add _)
      (hty _ (Or.inr (Or.inr (Or.inr rfl)))) (by decide) (by simp)
    have h3 := make_token_loop_chain
      ('0' :: 'x' :: h ++ (BinOp.add.text ++ (['0'] ++ chainText []))) []
      (0 + ('0' :: 'x' :: h).length + BinOp.add.text.length)
      ([] ++ [⟨TK_HEX, '0' :: 'x' :: h⟩] ++ [⟨plus, BinOp.add.text⟩]) ['0'] h2.2
      (by decide) (by decide) (by decide) (by simp) (by simp)
    have h4 := (h1.1.trans h2.1).trans h3
    simpa [make_token, chainTokens, chainText, BinOp.text] using h4

/-- The value of `expr` on a hexadecimal literal alone, in parentheses, and
followed by `+0`. -/
theorem expr_hex (R : List Char → Int × Bool) (M : Int → Int → Int) (h : List Char)
    (success : Bool) (hne : h ≠ []) (hh : ∀ c ∈ h, isHex c = true)
    (hlen : h.length + 2 < 32) (hval : (hexValue h : Int) ≤ LONG_MAX) :
    expr R M ('0' :: 'x' :: h) success = (.ret (hexValue h), success)
    ∧ expr R M ('(' :: '0' :: 'x' :: h ++ [')']) success = (.ret (hexValue h), success)
    ∧ expr R M ('0' :: 'x' :: h ++ ['+', '0']) success
        = (.ret (toInt32 (hexValue h)), success) := by
  obtain ⟨t1, t2, t3⟩ := make_token_hex h hne hh hlen
  have hs : strtol ('0' :: 'x' :: h) 16 = (hexValue h : Int) := by
    rw [strtol_hex h hh]
    exact min_eq_right hval
  refine ⟨?_, ?_, ?_⟩
  · simp only [expr, t1]
    have : eval R M (unaryPass none [(⟨TK_HEX, '0' :: 'x' :: h⟩ : Token)])
        ([(⟨TK_HEX, '0' :: 'x' :: h⟩ : Token)].length + 1)
        0 ((([⟨TK_HEX, '0' :: 'x' :: h⟩] : List Token).length : Int) - 1)
        = .ret (strtol ('0' :: 'x' :: h) 16) := rfl
    rw [this, hs]
  · simp only [expr, t2]
    have : eval R M
        (unaryPass none [(⟨lparen, ['(']⟩ : Token), ⟨TK_HEX, '0' :: 'x' :: h⟩, ⟨rparen, [')']⟩])
        ([(⟨lparen, ['(']⟩ : Token), ⟨TK_HEX, '0' :: 'x' :: h⟩, ⟨rparen, [')']⟩].length + 1)
        0 ((([⟨lparen, ['(']⟩, ⟨TK_HEX, '0' :: 'x' :: h⟩, ⟨rparen, [')']⟩] : List Token).length
          : Int) - 1)
        = .ret (strtol ('0' :: 'x' :: h) 16) := rfl
    rw [this, hs]
  · simp only [expr, t3]
    have : eval R M
        (unaryPass none [(⟨TK_HEX, '0' :: 'x' :: h⟩ : Token), ⟨plus, ['+']⟩, ⟨TK_DECIMAL, ['0']⟩])
        ([(⟨TK_HEX, '0' :: 'x' :: h⟩ : Token), ⟨plus, ['+']⟩, ⟨TK_DECIMAL, ['0']⟩].length + 1)
        0 ((([⟨TK_HEX, '0' :: 'x' :: h⟩, ⟨plus, ['+']⟩, ⟨TK_DECIMAL, ['0']⟩] : List Token).length
          : Int) - 1)
        = .ret (toInt32 (toInt32 (strtol ('0' :: 'x' :: h) 16) + toInt32 (atoi ['0']))) := rfl
    rw [this, hs]
    have h0 : toInt32 (atoi ['0']) = 0 := by decide
    rw [h0, add_zero, toInt32_toInt32]

/-- C20: when the main operator of a range is binary or `TK_NEG` and `eval`
returns, the value of each operand has been converted to `int` before the
operator is applied, and the value returned is an `int`; a range in matched
parentheses has the value of its interior, unconverted; a hexadecimal literal
alone or in parentheses is returned with its full value (up to the largest
`long`), but followed by `+0` with its value converted to `int`, so
`expr("0xFFFFFFFF")` is 4294967295 and `expr("0xFFFFFFFF+0")` is -1. -/
theorem eval_operands_int (R : List Char → Int × Bool) (M : Int → Int → Int)
    (tokens : List Token) (fuel : Nat) (p q : Int) (k : Nat) (m v : Int)
    (h : List Char) (success : Bool)
    (hpq : p < q) (hcp : check_parentheses tokens p q = .ret false)
    (hmain : findMainOp tokens p q = .ret (some (k, m)))
    (hop : k ≠ 0 ∨ (tokAt tokens m).type = TK_NEG)
    (hv : eval R M tokens (fuel + 1) p q = .ret v)
    (hne : h ≠ []) (hh : ∀ c ∈ h, isHex c = true) (hlen : h.length + 2 < 32)
    (hval : (hexValue h : Int) ≤ LONG_MAX) :
    inInt v
    ∧ (k ≠ 0 → ∃ v1 v2, eval R M tokens fuel p (m - 1) = .ret v1
        ∧ eval R M tokens fuel (m + 1) q = .ret v2
        ∧ binop (tokAt tokens m).type (toInt32 v1) (toInt32 v2) = .ret v)
    ∧ (k = 0 → ∃ w, eval R M tokens fuel (m + 1) q = .ret w ∧ v = toInt32 (-(toInt32 w)))
    ∧ (∀ (T : List Token) (f : Nat) (a b : Int), a < b →
        check_parentheses T a b = .ret true →
        eval R M T (f + 1) a b = eval R M T f (a + 1) (b - 1))
    ∧ expr R M ('0' :: 'x' :: h) success = (.ret (hexValue h), success)
    ∧ expr R M ('(' :: '0' :: 'x' :: h ++ [')']) success = (.ret (hexValue h), success)
    ∧ expr R M ('0' :: 'x' :: h ++ ['+', '0']) success = (.ret (toInt32 (hexValue h)), success)
    ∧ expr R M "0xFFFFFFFF".toList success = (.ret 4294967295, success)
    ∧ expr R M "0xFFFFFFFF+0".toList success = (.ret (-1), success) := by
  have hbin : k ≠ 0 → ∃ v1 v2, eval R M tokens fuel p (m - 1) = .ret v1
      ∧ eval R M tokens fuel (m + 1) q = .ret v2
      ∧ binop (tokAt tokens m).type (toInt32 v1) (toInt32 v2) = .ret v := by
    intro hk
    rw [eval_binary R M tokens fuel p q k m (m - 1) (m + 1) hpq hcp hmain hk rfl rfl] at hv
    cases h1 : eval R M tokens fuel p (m - 1) with
    | ret v1 =>
      rw [h1] at hv
      simp only [Res.bind] at hv
      cases h2 : eval R M tokens fuel (m + 1) q with
      | ret v2 =>
        rw [h2] at hv
        simp only [Res.bind] at hv
        exact ⟨v1, v2, rfl, rfl, hv⟩
      | abort => rw [h2] at hv; simp [Res.bind] at hv
      | undefined => rw [h2] at hv; simp [Res.bind] at hv
      | fuelOut => rw [h2] at hv; simp [Res.bind] at hv
    | abort => rw [h1] at hv; simp [Res.bind] at hv
    | undefined => rw [h1] at hv; simp [Res.bind] at hv
    | fuelOut => rw [h1] at hv; simp [Res.bind] at hv
  have hun : k = 0 → ∃ w, eval R M tokens fuel (m + 1) q = .ret w
      ∧ v = toInt32 (-(toInt32 w)) := by
    intro hk
    subst hk
    have hneg : (tokAt tokens m).type = TK_NEG := by
      rcases hop with h0 | h0
      · exact absurd rfl h0
      · exact h0
    rw [eval_unary R M tokens fuel p q m (m + 1) hpq hcp hmain rfl] at hv
    cases h1 : eval R M tokens fuel (m + 1) q with
    | ret w =>
      rw [h1] at hv
      simp only [Res.bind, hneg, unop, Res.ret.injEq] at hv
      exact ⟨w, rfl, hv.symm⟩
    | abort => rw [h1] at hv; simp [Res.bind] at hv
    | undefined => rw [h1] at hv; simp [Res.bind] at hv
    | fuelOut => rw [h1] at hv; simp [Res.bind] at hv
  have hrange : inInt v := by
    by_cases hk : k = 0
    · obtain ⟨w, -, hw⟩ := hun hk
      rw [hw]
      exact toInt32_inInt _
    · obtain ⟨v1, v2, -, -, hb⟩ := hbin hk
      exact binop_inInt (toInt32_inInt _) (toInt32_inInt _) hb
  obtain ⟨x1, x2, x3⟩ := expr_hex R M h success hne hh hlen hval
  obtain ⟨y1, -, y3⟩ := expr_hex R M "FFFFFFFF".toList success (by decide) (by decide)
    (by decide) (by decide)
  refine ⟨hrange, hbin, hun, ?_, x1, x2, x3, ?_, ?_⟩
  · intro T f a b hab hc
    have h1 : ¬ a > b := by omega
    have h2 : ¬ a = b := by omega
    simp only [eval, h1, h2, if_false, hc]
  · rw [show "0xFFFFFFFF".toList = '0' :: 'x' :: "FFFFFFFF".toList from rfl, y1]
    have : ((hexValue "FFFFFFFF".toList : Nat) : Int) = 4294967295 := by decide
    rw [this]
  · rw [show "0xFFFFFFFF+0".toList = '0' :: 'x' :: "FFFFFFFF".toList ++ ['+', '0'] from rfl, y3]
    have : toInt32 ((hexValue "FFFFFFFF".toList : Nat) : Int) = -1 := by decide
    rw [this]

/-- Witness of C20: the tokens of `0xFFFFFFFF+0`, whose main operator `+` is
at index 1, and the literal `FFFFFFFF`. -/
theorem eval_operands_int_witness :
    inInt (-1)
    ∧ expr noRegs demoMem "0xFFFFFFFF".toList true = (.ret 4294967295, true)
    ∧ expr noRegs demoMem "(0xFFFFFFFF)".toList true = (.ret 4294967295, true)
    ∧ expr noRegs demoMem "0xFFFFFFFF+0".toList true = (.ret (-1), true)
    ∧ expr noRegs demoMem "-0xFFFFFFFF".toList true = (.ret 1, true)
    ∧ expr noRegs demoMem "0x7FFFFFFF+1".toList true = (.ret (-2147483648), true) :=
  ⟨(eval_operands_int noRegs demoMem
      [⟨TK_HEX, "0xFFFFFFFF".toList⟩, ⟨plus, ['+']⟩, ⟨TK_DECIMAL, ['0']⟩] 3 0 2 2 1 (-1)
      "FFFFFFFF".toList true (by decide) (by decide) (by decide) (by decide) (by decide)
      (by decide) (by decide) (by decide) (by decide)).1,
   by decide, by decide, by decide, by decide, by decide⟩

end Sdb
